import Mathlib

/-!
Verification of the Hermes VM excerpts: the `FunctionAnalysis` call-graph pass
(`lib/Optimizer/Scalar/FunctionAnalysis.cpp`), the ARM64 JIT temp-register
allocator and unary-arithmetic emitter templates (`lib/VM/JIT/arm64/JitEmitter.h`),
and the `CodeBlock` bytecode/property-cache accessors (`include/hermes/VM/CodeBlock.h`).

Everything is a shallow embedding: instructions and functions are identified by
`Nat` indices into lists, machine integers are `Nat` with explicit 32-bit masks
where overflow matters, debug assertions become `Option` results, and the
worklist fixed point of the pass is run on explicit fuel (large enough for any
module; the fuel only bounds the number of worklist pops).
-/

set_option autoImplicit false

namespace Hermes

/-! ### IR values and instructions (FunctionAnalysis.cpp view of the IR)

A `Value` operand is an instruction result, a `Function` literal, a `Variable`,
some other literal, or the `EmptySentinel`.  Instructions carry exactly the
operands that `FunctionAnalysis.cpp` inspects.  Instruction kinds that the pass
does not special-case (they fall into its "unknown user" branch) are modelled
by `scopeCreate` (scope-producing instructions such as `CreateScopeInst`) and
`other`. -/

inductive IRValue where
  | inst (i : Nat)
  | func (f : Nat)
  | var (v : Nat)
  | lit (n : Nat)
  | empty
deriving DecidableEq

/-- One IR instruction.  `scope` operands of `BaseCreateCallableInst`,
`StoreFrameInst` and `LoadFrameInst` are instruction ids (the C++ accessors
return `Instruction *`).  A call's `target` is `none` for `EmptySentinel` or
`some f` for a `Function` literal; its `environment` is `none` for
`EmptySentinel` or `some e` for an instruction id. -/
inductive Inst where
  | createCallable (funcCode : Nat) (scope : Nat)
  | call (callee : IRValue) (target : Option Nat) (env : Option Nat)
      (args : List IRValue) (newTarget : IRValue)
  | getClosureScope (closure : IRValue)
  | unionNarrowTrusted (operand : IRValue)
  | checkedTypeCast (operand : IRValue) (resultCanBeObject : Bool)
  | storeFrame (value : IRValue) (varId : Nat) (scope : Nat)
  | loadFrame (varId : Nat) (scope : Nat)
  | constructionSetup (operand : IRValue)
  | scopeCreate (operands : List IRValue)
  | other (operands : List IRValue)
deriving DecidableEq

/-- Function-level data the pass reads and writes: the `isGlobalScope` flag,
whether the parent-scope / new-target parameters have users, and the two
attributes the pass maintains. -/
structure IRFunction where
  isGlobalScope : Bool := false
  parentScopeParamHasUsers : Bool := false
  newTargetParamHasUsers : Bool := false
  allCallsitesKnownInStrictMode : Bool := false
  unreachable : Bool := false
deriving DecidableEq, Inhabited

structure Module where
  funcs : List IRFunction
  insts : List Inst
deriving DecidableEq

/-- All operand uses of an instruction, in operand order.  A user of a value is
any instruction whose operand list contains it, mirroring the IR use lists. -/
def Inst.operands : Inst → List IRValue
  | .createCallable f s => [.func f, .inst s]
  | .call callee target env args nt =>
      callee ::
        (match target with | some f => IRValue.func f | none => IRValue.empty) ::
        (match env with | some e => IRValue.inst e | none => IRValue.empty) ::
        (args ++ [nt])
  | .getClosureScope c => [c]
  | .unionNarrowTrusted x => [x]
  | .checkedTypeCast x _ => [x]
  | .storeFrame v varId s => [v, .var varId, .inst s]
  | .loadFrame varId s => [.var varId, .inst s]
  | .constructionSetup x => [x]
  | .scopeCreate xs => xs
  | .other xs => xs

def Module.instAt (M : Module) (i : Nat) : Inst := M.insts.getD i (.other [])

def Module.funcAt (M : Module) (f : Nat) : IRFunction := M.funcs.getD f default

def Module.setInst (M : Module) (i : Nat) (I : Inst) : Module :=
  { M with insts := M.insts.set i I }

def Module.setFunc (M : Module) (f : Nat) (F : IRFunction) : Module :=
  { M with funcs := M.funcs.set f F }

/-- `F->getAttributesRef(M)._allCallsitesKnownInStrictMode = b`. -/
def Module.setAllCallsitesKnown (M : Module) (f : Nat) (b : Bool) : Module :=
  M.setFunc f { M.funcAt f with allCallsitesKnownInStrictMode := b }

/-- `F->getAttributesRef(M).unreachable = b`. -/
def Module.setUnreachable (M : Module) (f : Nat) (b : Bool) : Module :=
  M.setFunc f { M.funcAt f with unreachable := b }

/-- The users of a value: indices of all instructions that have it as an
operand.  The C++ use lists are ordered by use creation; the model fixes the
instruction-index order.  (A user with several uses of the same value appears
once here; the C++ loops would visit it once per use, with identical effect
since all the pass's per-user actions are idempotent.) -/
def Module.usersOf (M : Module) (v : IRValue) : List Nat :=
  (List.range M.insts.length).filter fun j => decide (v ∈ (M.instAt j).operands)

def Module.isBaseCallInst (M : Module) (j : Nat) : Bool :=
  match M.instAt j with
  | .call _ _ _ _ _ => true
  | _ => false

/-- The `target` operand of the call instruction at `j` (`none` both for a
call whose target is `EmptySentinel` and for a non-call instruction). -/
def Module.callTargetAt (M : Module) (j : Nat) : Option Nat :=
  match M.instAt j with
  | .call _ target _ _ _ => target
  | _ => none

/-- The `environment` operand of the call instruction at `j`. -/
def Module.callEnvAt (M : Module) (j : Nat) : Option Nat :=
  match M.instAt j with
  | .call _ _ env _ _ => env
  | _ => none

/-! ### Substitution (`Value::replaceAllUsesWith`) -/

def IRValue.subst (g σ : Nat) (v : IRValue) : IRValue :=
  if v = .inst g then .inst σ else v

def substScopeRef (g σ s : Nat) : Nat := if s = g then σ else s

/-- Replace every operand use of instruction `g` with instruction `σ`. -/
def Inst.subst (g σ : Nat) : Inst → Inst
  | .createCallable f s => .createCallable f (substScopeRef g σ s)
  | .call callee target env args nt =>
      .call (callee.subst g σ) target (env.map (substScopeRef g σ))
        (args.map (IRValue.subst g σ)) (nt.subst g σ)
  | .getClosureScope c => .getClosureScope (c.subst g σ)
  | .unionNarrowTrusted x => .unionNarrowTrusted (x.subst g σ)
  | .checkedTypeCast x b => .checkedTypeCast (x.subst g σ) b
  | .storeFrame v varId s =>
      .storeFrame (v.subst g σ) varId (substScopeRef g σ s)
  | .loadFrame varId s => .loadFrame varId (substScopeRef g σ s)
  | .constructionSetup x => .constructionSetup (x.subst g σ)
  | .scopeCreate xs => .scopeCreate (xs.map (IRValue.subst g σ))
  | .other xs => .other (xs.map (IRValue.subst g σ))

def Module.replaceAllUsesWith (M : Module) (g σ : Nat) : Module :=
  { M with insts := M.insts.map (Inst.subst g σ) }

/-! ### The FunctionAnalysis pass -/

/-- Whether an instruction is a `StoreFrameInst` storing to variable `v`. -/
def isStoreTo (v : Nat) : Inst → Bool
  | .storeFrame _ varId _ => decide (varId = v)
  | _ => false

/-- Modelled from the spec: `isStoreOnceVariable` lives in
`lib/Optimizer/Scalar/Utils.cpp`, which is not among the excerpted sources.
Per the spec, a variable is store-once iff a single store reaches every load;
here: exactly one `StoreFrameInst` in the module stores to it. -/
def isStoreOnceVariable (M : Module) (v : Nat) : Bool :=
  ((List.range M.insts.length).filter fun j => isStoreTo v (M.instAt j)).length
    = 1

/-- Modelled from the spec: `isConstructionSetup` lives in
`lib/Optimizer/Scalar/Utils.cpp`, which is not among the excerpted sources.
The spec only says construction-setup instructions neither leak the closure
nor contribute to the call graph, so they are an abstract instruction kind. -/
def isConstructionSetupInst : Inst → Bool
  | .constructionSetup _ => true
  | _ => false

/-- `registerCallsite(call, callee, scope)`: bind the call's `target` operand
to the creating instruction's `functionCode` if it is still `EmptySentinel`,
and bind `environment` to `scope` if `scope` is available, `environment` is
still `EmptySentinel`, and the target function's parent-scope parameter has
users. -/
def registerCallsite (M : Module) (callIdx : Nat) (calleeFuncCode : Nat)
    (scope : Option Nat) : Module :=
  match M.instAt callIdx with
  | .call callee target env args nt =>
      let target' := match target with
        | none => some calleeFuncCode
        | some t => some t
      let env' :=
        if scope.isSome && env.isNone &&
            (M.funcAt calleeFuncCode).parentScopeParamHasUsers
        then scope else env
      M.setInst callIdx (.call callee target' env' args nt)
  | _ => M

/-- `canEscapeThroughCall(C, F, CI)`. -/
def canEscapeThroughCall (c : Nat) (F : IRFunction) (callee : IRValue)
    (args : List IRValue) (newTarget : IRValue) : Bool :=
  if callee ≠ IRValue.inst c then true
  else if args.any fun a => decide (a = IRValue.inst c) then true
  else if decide (newTarget = IRValue.inst c) && F.newTargetParamHasUsers then true
  else false

/-- A worklist element of `analyzeCreateCallable`: an instruction known to
produce the closure, and the instruction producing its scope there (`none`
when the scope is unknown, i.e. the C++ `nullptr`). -/
structure WLItem where
  closure : Nat
  scope : Option Nat
deriving DecidableEq

/-- The body of the `for (Instruction *closureUser : closureInst->getUsers())`
loop of `analyzeCreateCallable`, for one user `j` of the worklist closure `c`
with known scope `scope`.  `fIdx` is `create->getFunctionCode()` and
`createIdx` is the `create` instruction.  Returns the updated module and the
worklist items pushed by this user, in push order. -/
def processCallUser (M : Module) (fIdx createIdx c : Nat)
    (scope : Option Nat) (j : Nat) (callee : IRValue) (args : List IRValue)
    (nt : IRValue) : Module :=
  let M1 := if canEscapeThroughCall c (M.funcAt fIdx) callee args nt
    then M.setAllCallsitesKnown fIdx false else M
  if callee = IRValue.inst c then
    match M1.instAt createIdx with
    | .createCallable fc _ => registerCallsite M1 j fc scope
    | _ => M1
  else M1

def processClosureUser (M : Module) (fIdx createIdx c : Nat)
    (scope : Option Nat) (j : Nat) : Module × List WLItem :=
  match M.instAt j with
  | .call callee _target _env args nt =>
      (processCallUser M fIdx createIdx c scope j callee args nt, [])
  | .constructionSetup _ => (M, [])
  | .getClosureScope _ =>
      (match scope with
       | some σ => M.replaceAllUsesWith j σ
       | none => M, [])
  | .unionNarrowTrusted _ => (M, [⟨j, scope⟩])
  | .checkedTypeCast _ canBeObject =>
      if canBeObject then (M, [⟨j, scope⟩])
      else (M.setAllCallsitesKnown fIdx false, [])
  | .storeFrame _ varId storeScope =>
      if !isStoreOnceVariable M varId then
        (M.setAllCallsitesKnown fIdx false, [])
      else
        let propagate := scope = some storeScope
        let pushes := (M.usersOf (.var varId)).filterMap fun k =>
          match M.instAt k with
          | .loadFrame _ loadScope =>
              some ⟨k, if propagate then some loadScope else none⟩
          | _ => none
        (M, pushes)
  | _ => (M.setAllCallsitesKnown fIdx false, [])

/-- Fold `processClosureUser` over the snapshot of `c`'s users, accumulating
pushed items so that the most recently pushed is at the head (the C++ code
pushes at the back of the `SmallVector` and pops from the back). -/
def processClosureUsersAux (fIdx createIdx c : Nat) (scope : Option Nat) :
    List Nat → Module × List WLItem → Module × List WLItem
  | [], acc => acc
  | j :: rest, acc =>
      processClosureUsersAux fIdx createIdx c scope rest
        ((processClosureUser acc.1 fIdx createIdx c scope j).1,
         (processClosureUser acc.1 fIdx createIdx c scope j).2.reverse ++ acc.2)

def processClosureUsers (M : Module) (fIdx createIdx c : Nat)
    (scope : Option Nat) (users : List Nat) : Module × List WLItem :=
  processClosureUsersAux fIdx createIdx c scope users (M, [])

/-- The `while (!worklist.empty())` loop of `analyzeCreateCallable`, on fuel.
The worklist head is the back of the C++ vector. -/
def closureWorklistLoop (fIdx createIdx : Nat) :
    Nat → Module → List WLItem → List Nat → Module
  | 0, M, _, _ => M
  | _ + 1, M, [], _ => M
  | fuel + 1, M, item :: rest, visited =>
      if item.closure ∈ visited then
        closureWorklistLoop fIdx createIdx fuel M rest visited
      else
        let r := processClosureUsers M fIdx createIdx item.closure item.scope
          (M.usersOf (.inst item.closure))
        closureWorklistLoop fIdx createIdx fuel r.1 (r.2 ++ rest)
          (item.closure :: visited)

/-- Fuel that dominates the number of worklist pops of any run: each processed
closure pushes at most `n` items per user over at most `n` users. -/
def closureFuel (M : Module) : Nat :=
  (M.insts.length + 1) * (M.insts.length + 1) * (M.insts.length + 1)

/-- `analyzeCreateCallable(create)`: worklist fixed point starting from
`(create, create->getScope())`. -/
def analyzeCreateCallable (M : Module) (createIdx : Nat) : Module :=
  match M.instAt createIdx with
  | .createCallable fc scope =>
      closureWorklistLoop fc createIdx (closureFuel M) M
        [⟨createIdx, some scope⟩] []
  | _ => M

/-- One iteration of the user loop of `analyzeFunctionCallsites`:
`BaseCreateCallableInst` users are analyzed, `BaseCallInst` users (uses as the
pre-bound call target) are ignored, and any other user falsifies the
attribute. -/
def processFunctionUser (M : Module) (fIdx j : Nat) : Module :=
  match M.instAt j with
  | .createCallable _ _ => analyzeCreateCallable M j
  | .call _ _ _ _ _ => M
  | _ => M.setAllCallsitesKnown fIdx false

/-- `analyzeFunctionCallsites(F)`.  The C++ loop iterates `F->getUsers()` by
index while the vector can grow (targets bound during the loop append the
bound call as a user of `F`); every user appended mid-loop is a `BaseCallInst`
with `target == F`, which the loop ignores, so iterating the entry snapshot is
equivalent.  The post-pass reads the user list again, as the C++ does. -/
def analyzeFunctionCallsites (M : Module) (fIdx : Nat) : Module :=
  let M1 := M.setAllCallsitesKnown fIdx true
  let M2 := if (M1.funcAt fIdx).isGlobalScope then
      M1.setAllCallsitesKnown fIdx false
    else M1
  let M3 := (M2.usersOf (.func fIdx)).foldl
    (fun acc j => processFunctionUser acc fIdx j) M2
  if (M3.funcAt fIdx).allCallsitesKnownInStrictMode then
    M3.setUnreachable fIdx (!(M3.usersOf (.func fIdx)).any M3.isBaseCallInst)
  else M3

/-- `FunctionAnalysis::runOnModule`: analyze every function, in order. -/
def runFunctionAnalysis (M : Module) : Module :=
  (List.range M.funcs.length).foldl analyzeFunctionCallsites M

/-! ### TempRegAlloc (JitEmitter.h)

The allocator state is the pool bounds, the 32-bit availability bitmask
(bit set = register free), and the LRU order (least recent at the head, most
recent at the tail).  `map_[i - first_]` holding a live node is modelled as
`i ∈ lru`. -/

/-- `bitMask32(first, last)`: ones at bit positions `first..last`. -/
def bitMask32 (first last : Nat) : Nat := ((1 <<< (last - first + 1)) - 1) <<< first

structure TempRegAlloc where
  first : Nat
  last : Nat
  availBits : Nat
  lru : List Nat
deriving DecidableEq

/-- `TempRegAlloc(range)`. -/
def TempRegAlloc.init (first last : Nat) : TempRegAlloc :=
  { first := first, last := last, availBits := bitMask32 first last, lru := [] }

/-- `llvh::findFirstSet`: index of the lowest set bit (the mask is 32-bit). -/
def findFirstSet32 (n : Nat) : Nat :=
  (((List.range 32).find? fun i => n.testBit i)).getD 0

/-- `alloc(preferred)`.  The C++ clears the chosen bit with
`availBits_ &= ~(1u << index)`; on the 32-bit mask this is the `&&&` with the
complement below.  `lru_.add(index)` appends at the most-recent end. -/
def TempRegAlloc.alloc (st : TempRegAlloc) (preferred : Option Nat) :
    Option Nat × TempRegAlloc :=
  if st.availBits = 0 then (none, st)
  else
    let index := match preferred with
      | some p => if st.availBits.testBit p then p else findFirstSet32 st.availBits
      | none => findFirstSet32 st.availBits
    (some index,
      { st with
        availBits := st.availBits &&& ((2 ^ 32 - 1) ^^^ (1 <<< index))
        lru := st.lru ++ [index] })

/-- `use(index)`: touch the LRU entry only if the register is allocated
(bit clear).  Modelled from the spec: `SimpleLRU::use` moves the node to the
most-recent end (`hermes/ADT/SimpleLRU.h` is not among the excerpted sources). -/
def TempRegAlloc.use (st : TempRegAlloc) (index : Nat) : TempRegAlloc :=
  if st.availBits.testBit index then st
  else { st with lru := (st.lru.filter fun i => decide (i ≠ index)) ++ [index] }

/-- `free(index)`: set the bit back and drop the LRU node.  Modelled from the
spec where it touches `SimpleLRU::remove`. -/
def TempRegAlloc.free (st : TempRegAlloc) (index : Nat) : TempRegAlloc :=
  { st with
    availBits := st.availBits ||| (1 <<< index)
    lru := st.lru.filter fun i => decide (i ≠ index) }

def TempRegAlloc.leastRecentlyUsed (st : TempRegAlloc) : Option Nat := st.lru.head?

/-- Client calls to the allocator, for stating state-machine invariants. -/
inductive TROp where
  | alloc (preferred : Option Nat)
  | use (index : Nat)
  | free (index : Nat)
deriving DecidableEq

def TempRegAlloc.applyOp (st : TempRegAlloc) : TROp → TempRegAlloc
  | .alloc preferred => (st.alloc preferred).2
  | .use index => st.use index
  | .free index => st.free index

def TempRegAlloc.applyOps (st : TempRegAlloc) (ops : List TROp) : TempRegAlloc :=
  ops.foldl TempRegAlloc.applyOp st

/-- The debug-assert preconditions of the C++ code for one call: `use` and
`free` take in-pool indices, and `free` requires the register to be currently
allocated (`map_` non-null and bit clear). -/
def TROpValid (st : TempRegAlloc) : TROp → Bool
  | .alloc _ => true
  | .use index => decide (st.first ≤ index) && decide (index ≤ st.last)
  | .free index =>
      decide (st.first ≤ index) && decide (index ≤ st.last)
        && !st.availBits.testBit index && decide (index ∈ st.lru)

def TROpsValid : TempRegAlloc → List TROp → Bool
  | _, [] => true
  | st, op :: ops => TROpValid st op && TROpsValid (st.applyOp op) ops

/-- The allocator invariant: in-pool availability bits only, LRU nodes exactly
for the allocated in-pool registers. -/
def TRInv (st : TempRegAlloc) : Prop :=
  (∀ i, st.availBits.testBit i = true → st.first ≤ i ∧ i ≤ st.last) ∧
  (∀ i, i ∈ st.lru → st.first ≤ i ∧ i ≤ st.last) ∧
  (∀ i, st.first ≤ i → i ≤ st.last →
    (st.availBits.testBit i = false ↔ i ∈ st.lru))

/-! ### CodeBlock (CodeBlock.h)

Bytecode pointers are abstract addresses (`Nat`); the trailing
`PropertyCacheEntry` array is a list.  A failed debug assertion is `none`. -/

structure PropertyCacheEntry where
  clazz : Nat := 0
  slot : Nat := 0
deriving DecidableEq, Inhabited

structure CodeBlock where
  bytecode : Nat
  bytecodeSize : Nat
  propertyCacheSize : Nat
  writePropCacheOffset : Nat
  propertyCache : List PropertyCacheEntry
deriving DecidableEq

def CodeBlock.bcBegin (cb : CodeBlock) : Nat := cb.bytecode

def CodeBlock.bcEnd (cb : CodeBlock) : Nat := cb.bytecode + cb.bytecodeSize

/-- `contains(inst)`: `begin() <= inst && inst < end()`. -/
def CodeBlock.containsPtr (cb : CodeBlock) (p : Nat) : Bool :=
  decide (cb.bcBegin ≤ p) && decide (p < cb.bcEnd)

/-- `getOffsetPtr(offset)` with its assertion `begin() + offset < end()`. -/
def CodeBlock.getOffsetPtr (cb : CodeBlock) (offset : Nat) : Option Nat :=
  if cb.bcBegin + offset < cb.bcEnd then some (cb.bcBegin + offset) else none

/-- `getOffsetOf(inst)` with its assertions `inst >= begin()` and
`begin() + offset < end()`. -/
def CodeBlock.getOffsetOf (cb : CodeBlock) (p : Nat) : Option Nat :=
  if cb.bcBegin ≤ p then
    let offset := p - cb.bcBegin
    if cb.bcBegin + offset < cb.bcEnd then some offset else none
  else none

/-- `getReadCacheEntry(idx)` with its assertion `idx < writePropCacheOffset_`. -/
def CodeBlock.getReadCacheEntry (cb : CodeBlock) (idx : Nat) :
    Option PropertyCacheEntry :=
  if idx < cb.writePropCacheOffset then cb.propertyCache[idx]? else none

/-- `getWriteCacheEntry(idx)` with its assertion
`writePropCacheOffset_ + idx < propertyCacheSize_`. -/
def CodeBlock.getWriteCacheEntry (cb : CodeBlock) (idx : Nat) :
    Option PropertyCacheEntry :=
  if cb.writePropCacheOffset + idx < cb.propertyCacheSize then
    cb.propertyCache[cb.writePropCacheOffset + idx]?
  else none

/-! ### LEAN-build CodeBlock APIs (the `#else` branch of `HERMESVM_LEAN`) -/

inductive ExecutionStatus where
  | RETURNED
  | EXCEPTION
deriving DecidableEq

/-- Outcome of calling a gated CodeBlock API in a `HERMESVM_LEAN` build:
either `hermes_fatal(msg)` or a normal return. -/
inductive LeanVMCall (α : Type) where
  | fatal (msg : String)
  | ret (val : α)
deriving DecidableEq

def LeanVMCall.aborts {α : Type} : LeanVMCall α → Bool
  | .fatal _ => true
  | .ret _ => false

/-- `isLazy()` in a LEAN build: always `false`. -/
def CodeBlock.leanIsLazy : Bool := false

/-- `lazyCompile(runtime)` in a LEAN build: returns
`ExecutionStatus::RETURNED` unconditionally. -/
def CodeBlock.leanLazyCompile : LeanVMCall ExecutionStatus :=
  .ret .RETURNED

/-- `getVariableCounts()` in a LEAN build:
`hermes_fatal("unavailable in lean VM")`. -/
def CodeBlock.leanGetVariableCounts : LeanVMCall (List Nat) :=
  .fatal "unavailable in lean VM"

/-- `getVariableNameAtDepth(depth, variableIndex)` in a LEAN build:
`hermes_fatal("unavailable in lean VM")`. -/
def CodeBlock.leanGetVariableNameAtDepth (_depth _variableIndex : Nat) :
    LeanVMCall String :=
  .fatal "unavailable in lean VM"

/-! ### Emitter unary-arithmetic templates (JitEmitter.h `DECL_UNOP`)

The fast-path lambda of `arithUnop` receives the result, source and temporary
`VecD` registers and emits ARM64 instructions; the emitted sequence is
modelled syntactically.  `fmov tmp, imm` materialises a floating-point
immediate; `-1.0` is exactly representable, so the immediate is carried as an
`Int`. -/

inductive A64Inst where
  | fmov (dst : Nat) (imm : Int)
  | fadd (dst src1 src2 : Nat)
  | fsub (dst src1 src2 : Nat)
  | fmul (dst src1 src2 : Nat)
deriving DecidableEq

/-- One `DECL_UNOP` expansion: the comment string, the `forceNum` flag, the
slow-path helper name, and the fast-path instruction sequence. -/
structure UnOpDesc where
  name : String
  forceNumber : Bool
  slowCall : String
  fastBody : Nat → Nat → Nat → List A64Inst

/-- `DECL_UNOP(dec, false, "dec", _sh_ljs_dec_rjs, ...)`. -/
def Emitter.dec : UnOpDesc :=
  { name := "dec"
    forceNumber := false
    slowCall := "_sh_ljs_dec_rjs"
    fastBody := fun d s tmp => [.fmov tmp (-1), .fadd d s tmp] }

/-- `DECL_UNOP(inc, false, "inc", _sh_ljs_inc_rjs, ...)`: the source emits the
same `fmov tmp, -1.0; fadd d, s, tmp` body as `dec`. -/
def Emitter.inc : UnOpDesc :=
  { name := "inc"
    forceNumber := false
    slowCall := "_sh_ljs_inc_rjs"
    fastBody := fun d s tmp => [.fmov tmp (-1), .fadd d s tmp] }

/-! ### Concrete modules used by counterexamples and witnesses -/

/-- A module for C1: `s0 = scope; c = CreateCallable(F0, s0);
call(callee = c, target = F1 (pre-bound), env = empty)` where `F0`'s
parent-scope parameter has users. -/
def C1M : Module :=
  { funcs :=
      [{ parentScopeParamHasUsers := true }, {}]
    insts :=
      [.scopeCreate [],
       .createCallable 0 0,
       .call (.inst 1) (some 1) none [] (.lit 0)] }

/-- A module for C4: the closure is stored to a store-once variable whose
store's scope operand is `GetClosureScope(c)`; the load feeds a call.  The
first run replaces the `GetClosureScope` with the known scope, which lets the
second run propagate the scope to the load and bind the call's environment. -/
def C4M : Module :=
  { funcs := [{ parentScopeParamHasUsers := true }]
    insts :=
      [.scopeCreate [],
       .createCallable 0 0,
       .storeFrame (.inst 1) 0 3,
       .getClosureScope (.inst 1),
       .loadFrame 0 0,
       .call (.inst 4) none none [] (.lit 0)] }

/-- A one-function module whose function is the global scope. -/
def C3MGlobal : Module :=
  { funcs := [{ isGlobalScope := true }]
    insts := [] }

/-- A one-function module whose function is only used by a
`CreateCallable` whose closure has no users: all callsites stay known and no
user is a call, so the function is marked unreachable. -/
def C3MUnreachable : Module :=
  { funcs := [{}]
    insts := [.scopeCreate [], .createCallable 0 0] }

/-- A CodeBlock with `propertyCacheSize = 8` and `writePropCacheOffset = 5`,
the spec's cache-layout scenario. -/
def cacheScenarioCB : CodeBlock :=
  { bytecode := 0
    bytecodeSize := 0
    propertyCacheSize := 8
    writePropCacheOffset := 5
    propertyCache := List.replicate 8 {} }

/-- A CodeBlock whose bytecode spans addresses `100..103`. -/
def offsetScenarioCB : CodeBlock :=
  { bytecode := 100
    bytecodeSize := 4
    propertyCacheSize := 0
    writePropCacheOffset := 0
    propertyCache := [] }

/-! ### Relational infrastructure for the idempotence analysis

The second run of the pass starts from the first run's output, which differs
from the original module only in bound `target` / `environment` operands and
in scope operands rewritten by `replaceAllUsesWith`.  The relation `REL`
captures exactly this: instructions agree everywhere except that references
to scope-producing instructions may differ and call `target` / `environment`
operands are unconstrained (targets are tracked separately and environments
only have to stay scope-references). -/

/-- Scope-producing instruction kinds (the only possible referents of a
`scope` operand in well-typed IR). -/
def isScopeKindInst : Inst → Bool
  | .getClosureScope _ => true
  | .scopeCreate _ => true
  | _ => false

def Module.scopeKindAt (M : Module) (i : Nat) : Bool :=
  isScopeKindInst (M.instAt i)

/-- Well-typedness of one instruction's scope operands: they refer to
scope-kind instructions. -/
def Inst.scopesOkB (M : Module) : Inst → Bool
  | .createCallable _ s => M.scopeKindAt s
  | .storeFrame _ _ s => M.scopeKindAt s
  | .loadFrame _ s => M.scopeKindAt s
  | .call _ _ env _ _ =>
      match env with
      | some e => M.scopeKindAt e
      | none => true
  | _ => true

/-- Module well-typedness used by the idempotence theorem. -/
def Module.WFB (M : Module) : Bool := M.insts.all (Inst.scopesOkB M)

/-- Two operand values agree, except that scope-kind instruction references
may be exchanged for other scope-kind references. -/
def relVal (sk : Nat → Bool) (v w : IRValue) : Prop :=
  v = w ∨ ∃ x y, v = .inst x ∧ w = .inst y ∧ sk x = true ∧ sk y = true

def relScope (sk : Nat → Bool) (s t : Nat) : Prop :=
  sk s = true ∧ sk t = true

def relEnv (sk : Nat → Bool) (e₁ e₂ : Option Nat) : Prop :=
  (∀ x, e₁ = some x → sk x = true) ∧ (∀ y, e₂ = some y → sk y = true)

def relInst (sk : Nat → Bool) : Inst → Inst → Prop
  | .createCallable f s, .createCallable f2 s2 => f = f2 ∧ relScope sk s s2
  | .call c1 _t1 e1 a1 n1, .call c2 _t2 e2 a2 n2 =>
      relVal sk c1 c2 ∧ List.Forall₂ (relVal sk) a1 a2 ∧ relVal sk n1 n2 ∧
        relEnv sk e1 e2
  | .getClosureScope v, .getClosureScope w => relVal sk v w
  | .unionNarrowTrusted v, .unionNarrowTrusted w => relVal sk v w
  | .checkedTypeCast v b, .checkedTypeCast w b2 => relVal sk v w ∧ b = b2
  | .storeFrame v x s, .storeFrame w y t => relVal sk v w ∧ x = y ∧ relScope sk s t
  | .loadFrame x s, .loadFrame y t => x = y ∧ relScope sk s t
  | .constructionSetup v, .constructionSetup w => relVal sk v w
  | .scopeCreate vs, .scopeCreate ws => List.Forall₂ (relVal sk) vs ws
  | .other vs, .other ws => List.Forall₂ (relVal sk) vs ws
  | _, _ => False

def staticEq (F G : IRFunction) : Prop :=
  F.isGlobalScope = G.isGlobalScope ∧
  F.parentScopeParamHasUsers = G.parentScopeParamHasUsers ∧
  F.newTargetParamHasUsers = G.newTargetParamHasUsers

/-- The module relation preserved by the pass modulo targets, environments
and attributes. -/
structure REL (sk : Nat → Bool) (M₁ M₂ : Module) : Prop where
  funcsLen : M₁.funcs.length = M₂.funcs.length
  statics : ∀ f, staticEq (M₁.funcAt f) (M₂.funcAt f)
  instsLen : M₁.insts.length = M₂.insts.length
  insts : ∀ i, relInst sk (M₁.instAt i) (M₂.instAt i)
  compat : ∀ i, sk i = isScopeKindInst (M₁.instAt i)

/-- Operand values whose uses are visible to the closure-flow analysis:
non-scope instruction results and variables. -/
def stableVal (sk : Nat → Bool) : IRValue → Prop
  | .inst x => sk x = false
  | .var _ => True
  | _ => False

/-- Worklist items of the two runs: same closure (a non-scope instruction),
scope-kind scopes on both sides. -/
def relWLItem (sk : Nat → Bool) (a b : WLItem) : Prop :=
  a.closure = b.closure ∧ sk a.closure = false ∧
    (∀ x, a.scope = some x → sk x = true) ∧
    (∀ y, b.scope = some y → sk y = true)

def relWL (sk : Nat → Bool) (wl₁ wl₂ : List WLItem) : Prop :=
  List.Forall₂ (relWLItem sk) wl₁ wl₂

/-- Scope well-formedness of a single run's worklist. -/
def wlOK (sk : Nat → Bool) (wl : List WLItem) : Prop :=
  ∀ item ∈ wl, sk item.closure = false ∧
    ∀ x, item.scope = some x → sk x = true

/-- All targets bound in `M` are bound to the same value in `M'`. -/
def ctaSome (M M' : Module) : Prop :=
  ∀ j v, M.callTargetAt j = some v → M'.callTargetAt j = some v

/-- `M'` differs from `M` at most by and-ing `keep` into the
`allCallsitesKnownInStrictMode` attribute of function `f`. -/
def AttrDelta (M M' : Module) (f : Nat) (keep : Bool) : Prop :=
  (∀ g, g ≠ f → M'.funcAt g = M.funcAt g) ∧
  ((M'.funcAt f).allCallsitesKnownInStrictMode
    = ((M.funcAt f).allCallsitesKnownInStrictMode && keep)) ∧
  (M'.funcAt f).isGlobalScope = (M.funcAt f).isGlobalScope ∧
  (M'.funcAt f).parentScopeParamHasUsers
    = (M.funcAt f).parentScopeParamHasUsers ∧
  (M'.funcAt f).newTargetParamHasUsers
    = (M.funcAt f).newTargetParamHasUsers ∧
  (M'.funcAt f).unreachable = (M.funcAt f).unreachable

/-- The `functionCode` operand of a `BaseCreateCallableInst`, used to track
which function a worklist bind can target. -/
def Module.createCodeAt (M : Module) (i : Nat) : Option Nat :=
  match M.instAt i with
  | .createCallable fc _ => some fc
  | _ => none

/-- `M'` differs from `M` in targets only by binding previously-unbound
targets to `f`. -/
def targetsBoundBy (M M' : Module) (f : Nat) : Prop :=
  ∀ j, M'.callTargetAt j = M.callTargetAt j ∨
    (M.callTargetAt j = none ∧ M'.callTargetAt j = some f)

/-- `M'` differs from `M` in targets only by binding previously-unbound
targets to members of `fns`. -/
def targetsBoundWithin (M M' : Module) (fns : List Nat) : Prop :=
  ∀ j, M'.callTargetAt j = M.callTargetAt j ∨
    (M.callTargetAt j = none ∧ ∃ g ∈ fns, M'.callTargetAt j = some g)

/-- The part of an instruction that no step of the pass ever changes: its
constructor, `functionCode` / variable operands and the cast flag.  Value,
scope, `target` and `environment` operands are erased. -/
def Inst.skeleton : Inst → Inst
  | .createCallable f _ => .createCallable f 0
  | .call _ _ _ _ _ => .call .empty none none [] .empty
  | .getClosureScope _ => .getClosureScope .empty
  | .unionNarrowTrusted _ => .unionNarrowTrusted .empty
  | .checkedTypeCast _ b => .checkedTypeCast .empty b
  | .storeFrame _ x _ => .storeFrame .empty x 0
  | .loadFrame x _ => .loadFrame x 0
  | .constructionSetup _ => .constructionSetup .empty
  | .scopeCreate _ => .scopeCreate []
  | .other _ => .other []

/-- Skeletons of all instructions of a module are unchanged by `M'`. -/
def skelEq (M M' : Module) : Prop :=
  ∀ i, (M'.instAt i).skeleton = (M.instAt i).skeleton

def Inst.createCode : Inst → Option Nat
  | .createCallable fc _ => some fc
  | _ => none

def Inst.isCall : Inst → Bool
  | .call _ _ _ _ _ => true
  | _ => false

/-- The `target` operand of a call instruction (`none` for non-calls). -/
def Inst.targetOf : Inst → Option Nat
  | .call _ target _ _ _ => target
  | _ => none

/-- Scope validity of the worklist items of a single run. -/
def wlScopesOk (sk : Nat → Bool) (wl : List WLItem) : Prop :=
  ∀ item ∈ wl, ∀ x, item.scope = some x → sk x = true

/-- `M'` differs from `M` in `funcs` at most by falsifying
`allCallsitesKnownInStrictMode` of function `fIdx` (the only function-level
write the user loop of `analyzeFunctionCallsites` performs). -/
def funcsDelta (fIdx : Nat) (M M' : Module) : Prop :=
  M'.funcs.length = M.funcs.length ∧
  (∀ g, g ≠ fIdx → M'.funcAt g = M.funcAt g) ∧
  (M'.funcAt fIdx = M.funcAt fIdx ∨
    M'.funcAt fIdx
      = { M.funcAt fIdx with allCallsitesKnownInStrictMode := false })

/-- The lockstep invariant between the first run (state `A`) and the second
run (state `B`) of the pass while function `f` is being analyzed: the states
are `REL`-related, the second run's call targets already sit at their final
values (`Mfin`, the first run's output), and the attribute being recomputed
for `f` agrees between the two runs. -/
structure BISIM (sk : Nat → Bool) (Mfin : Module) (f : Nat)
    (A B : Module) : Prop where
  rel : REL sk A B
  pin : ∀ j, B.callTargetAt j = Mfin.callTargetAt j
  attr : (A.funcAt f).allCallsitesKnownInStrictMode
    = (B.funcAt f).allCallsitesKnownInStrictMode

/-! ## Theorems -/

theorem canEscape_eq_true_iff (c : Nat) (F : IRFunction) (callee : IRValue)
    (args : List IRValue) (nt : IRValue) :
    canEscapeThroughCall c F callee args nt = true ↔
      (callee ≠ IRValue.inst c ∨ IRValue.inst c ∈ args ∨
        (nt = IRValue.inst c ∧ F.newTargetParamHasUsers = true)) := by
  unfold canEscapeThroughCall
  split_ifs with h1 h2 h3
  · simp only [true_iff]
    exact Or.inl h1
  · simp only [List.any_eq_true, decide_eq_true_eq] at h2
    obtain ⟨a, ha, rfl⟩ := h2
    simp only [true_iff]
    exact Or.inr (Or.inl ha)
  · simp only [Bool.and_eq_true, decide_eq_true_eq] at h3
    simp only [true_iff]
    exact Or.inr (Or.inr h3)
  · simp only [List.any_eq_true, decide_eq_true_eq, not_exists, not_and] at h2
    simp only [Bool.and_eq_true, decide_eq_true_eq, not_and] at h3
    push_neg at h1
    constructor
    · intro h
      exact absurd h (by simp)
    · rintro (hc | hm | ⟨hnt, hu⟩)
      · exact absurd h1 hc
      · exact absurd rfl (h2 _ hm)
      · exact absurd hu (by intro hb; exact absurd hb (h3 hnt))

/-- C2: `canEscapeThroughCall(c, F, CI)` returns true if and only if CI's
callee is not `c`, or `c` appears in some argument position of CI, or `c` is
CI's `newTarget` operand and F's `newTargetParam` has users. -/
theorem c2_canEscapeThroughCall_iff (c : Nat) (F : IRFunction) (callee : IRValue)
    (args : List IRValue) (nt : IRValue) :
    canEscapeThroughCall c F callee args nt = true ↔
      (callee ≠ IRValue.inst c ∨ IRValue.inst c ∈ args ∨
        (nt = IRValue.inst c ∧ F.newTargetParamHasUsers = true)) :=
  canEscape_eq_true_iff c F callee args nt

/-- C8: the `inc` and `dec` unary-op expansions have identical inline fast
paths (`fmov tmp, -1.0; fadd d, s, tmp` for every choice of result, source and
temporary register) and the same force-number flag, and differ in the
slow-path helper: `_sh_ljs_inc_rjs` versus `_sh_ljs_dec_rjs`. -/
theorem c8_inc_dec_fast_paths_identical :
    (∀ d s tmp, Emitter.inc.fastBody d s tmp = Emitter.dec.fastBody d s tmp) ∧
    (∀ d s tmp, Emitter.inc.fastBody d s tmp
      = [.fmov tmp (-1), .fadd d s tmp]) ∧
    Emitter.inc.forceNumber = Emitter.dec.forceNumber ∧
    Emitter.inc.slowCall = "_sh_ljs_inc_rjs" ∧
    Emitter.dec.slowCall = "_sh_ljs_dec_rjs" ∧
    Emitter.inc.slowCall ≠ Emitter.dec.slowCall :=
  ⟨fun _ _ _ => rfl, fun _ _ _ => rfl, rfl, rfl, rfl, by decide⟩

/-- C9, counterexample: the claim says `lazyCompile` aborts in a LEAN build,
but the LEAN branch of `CodeBlock` returns `ExecutionStatus::RETURNED`
normally (nothing is lazy in a LEAN build, since `isLazy()` is `false`). -/
theorem c9_counterexample :
    CodeBlock.leanLazyCompile = .ret .RETURNED ∧
    CodeBlock.leanLazyCompile.aborts = false ∧
    CodeBlock.leanIsLazy = false :=
  ⟨rfl, rfl, rfl⟩

/-- C9, amended: in a LEAN build `getVariableCounts()` and
`getVariableNameAtDepth(depth, index)` abort with a fatal error, while
`lazyCompile(runtime)` returns `ExecutionStatus::RETURNED` normally rather
than aborting. -/
theorem c9_amended :
    CodeBlock.leanGetVariableCounts.aborts = true ∧
    (∀ depth index,
      (CodeBlock.leanGetVariableNameAtDepth depth index).aborts = true) ∧
    CodeBlock.leanLazyCompile = .ret .RETURNED ∧
    CodeBlock.leanLazyCompile.aborts = false :=
  ⟨rfl, fun _ _ => rfl, rfl, rfl⟩

/-- C6: with `writePropCacheOffset ≤ propertyCacheSize` and the trailing array
of length `propertyCacheSize`, `getReadCacheEntry idx` succeeds exactly when
`idx < writePropCacheOffset` and returns the entry at index `idx`, and
`getWriteCacheEntry idx` succeeds exactly when
`writePropCacheOffset + idx < propertyCacheSize` and returns the entry at
index `writePropCacheOffset + idx`; out-of-range indices fail the debug
assertion (modelled as `none`). -/
theorem c6_property_cache_layout (cb : CodeBlock) (idx : Nat)
    (hWP : cb.writePropCacheOffset ≤ cb.propertyCacheSize)
    (hlen : cb.propertyCache.length = cb.propertyCacheSize) :
    ((cb.getReadCacheEntry idx).isSome ↔ idx < cb.writePropCacheOffset) ∧
    (idx < cb.writePropCacheOffset →
      ∃ hh : idx < cb.propertyCache.length,
        cb.getReadCacheEntry idx = some (cb.propertyCache.get ⟨idx, hh⟩)) ∧
    ((cb.getWriteCacheEntry idx).isSome ↔
      cb.writePropCacheOffset + idx < cb.propertyCacheSize) ∧
    (cb.writePropCacheOffset + idx < cb.propertyCacheSize →
      ∃ hh : cb.writePropCacheOffset + idx < cb.propertyCache.length,
        cb.getWriteCacheEntry idx
          = some (cb.propertyCache.get ⟨cb.writePropCacheOffset + idx, hh⟩)) := by
  refine ⟨?_, ?_, ?_, ?_⟩
  · unfold CodeBlock.getReadCacheEntry
    split_ifs with h
    · have hlt : idx < cb.propertyCache.length := by omega
      simp [List.getElem?_eq_getElem hlt, h]
    · simp [h]
  · intro h
    have hlt : idx < cb.propertyCache.length := by omega
    refine ⟨hlt, ?_⟩
    simp [CodeBlock.getReadCacheEntry, h, List.getElem?_eq_getElem hlt,
      List.get_eq_getElem]
  · unfold CodeBlock.getWriteCacheEntry
    split_ifs with h
    · have hlt : cb.writePropCacheOffset + idx < cb.propertyCache.length := by
        omega
      simp [List.getElem?_eq_getElem hlt, h]
    · simp [h]
  · intro h
    have hlt : cb.writePropCacheOffset + idx < cb.propertyCache.length := by
      omega
    refine ⟨hlt, ?_⟩
    simp [CodeBlock.getWriteCacheEntry, h, List.getElem?_eq_getElem hlt,
      List.get_eq_getElem]

/-- C6 witness: the spec's scenario `propertyCacheSize = 8`,
`writePropCacheOffset = 5`, at indices 4 and 5 (read index 5 and write index
5 fail the assertion; read index 4 succeeds). -/
theorem c6_witness :
    (((cacheScenarioCB.getReadCacheEntry 4).isSome ↔
        4 < cacheScenarioCB.writePropCacheOffset) ∧
      (4 < cacheScenarioCB.writePropCacheOffset →
        ∃ hh : 4 < cacheScenarioCB.propertyCache.length,
          cacheScenarioCB.getReadCacheEntry 4
            = some (cacheScenarioCB.propertyCache.get ⟨4, hh⟩)) ∧
      ((cacheScenarioCB.getWriteCacheEntry 4).isSome ↔
        cacheScenarioCB.writePropCacheOffset + 4 < cacheScenarioCB.propertyCacheSize) ∧
      (cacheScenarioCB.writePropCacheOffset + 4 < cacheScenarioCB.propertyCacheSize →
        ∃ hh : cacheScenarioCB.writePropCacheOffset + 4
            < cacheScenarioCB.propertyCache.length,
          cacheScenarioCB.getWriteCacheEntry 4
            = some (cacheScenarioCB.propertyCache.get
                ⟨cacheScenarioCB.writePropCacheOffset + 4, hh⟩))) ∧
    ((cacheScenarioCB.getReadCacheEntry 5).isSome ↔
        5 < cacheScenarioCB.writePropCacheOffset) ∧
      (5 < cacheScenarioCB.writePropCacheOffset →
        ∃ hh : 5 < cacheScenarioCB.propertyCache.length,
          cacheScenarioCB.getReadCacheEntry 5
            = some (cacheScenarioCB.propertyCache.get ⟨5, hh⟩)) ∧
      ((cacheScenarioCB.getWriteCacheEntry 5).isSome ↔
        cacheScenarioCB.writePropCacheOffset + 5 < cacheScenarioCB.propertyCacheSize) ∧
      (cacheScenarioCB.writePropCacheOffset + 5 < cacheScenarioCB.propertyCacheSize →
        ∃ hh : cacheScenarioCB.writePropCacheOffset + 5
            < cacheScenarioCB.propertyCache.length,
          cacheScenarioCB.getWriteCacheEntry 5
            = some (cacheScenarioCB.propertyCache.get
                ⟨cacheScenarioCB.writePropCacheOffset + 5, hh⟩)) :=
  ⟨c6_property_cache_layout cacheScenarioCB 4 (by decide) (by decide),
   c6_property_cache_layout cacheScenarioCB 5 (by decide) (by decide)⟩

/-- C7: for every offset `o < bytecodeSize`, `getOffsetPtr o` succeeds with
the pointer `begin + o`, `getOffsetOf` round-trips it back to `o`, and
`contains` holds of it. -/
theorem c7_offset_roundtrip (cb : CodeBlock) (o : Nat)
    (h : o < cb.bytecodeSize) :
    cb.getOffsetPtr o = some (cb.bytecode + o) ∧
    (cb.getOffsetPtr o).bind cb.getOffsetOf = some o ∧
    (cb.getOffsetPtr o).map cb.containsPtr = some true := by
  have hptr : cb.getOffsetPtr o = some (cb.bytecode + o) := by
    simp only [CodeBlock.getOffsetPtr, CodeBlock.bcBegin, CodeBlock.bcEnd]
    rw [if_pos (by omega)]
  refine ⟨hptr, ?_, ?_⟩
  · rw [hptr]
    show cb.getOffsetOf (cb.bytecode + o) = some o
    simp only [CodeBlock.getOffsetOf, CodeBlock.bcBegin, CodeBlock.bcEnd]
    rw [if_pos (Nat.le_add_right _ _)]
    have h2 : cb.bytecode + o - cb.bytecode = o := by omega
    rw [h2, if_pos (by omega)]
  · rw [hptr]
    show some (cb.containsPtr (cb.bytecode + o)) = some true
    have hc : cb.containsPtr (cb.bytecode + o) = true := by
      simp only [CodeBlock.containsPtr, CodeBlock.bcBegin, CodeBlock.bcEnd,
        Bool.and_eq_true, decide_eq_true_eq]
      omega
    rw [hc]

/-- C7 witness: bytecode at addresses 100..103, offset 2. -/
theorem c7_witness :
    offsetScenarioCB.getOffsetPtr 2 = some (offsetScenarioCB.bytecode + 2) ∧
    (offsetScenarioCB.getOffsetPtr 2).bind offsetScenarioCB.getOffsetOf = some 2 ∧
    (offsetScenarioCB.getOffsetPtr 2).map offsetScenarioCB.containsPtr = some true :=
  c7_offset_roundtrip offsetScenarioCB 2 (by decide)

/-! ### Shared lemmas about module accessors and the pass -/

theorem Module.instAt_of_ge (M : Module) (i : Nat) (h : M.insts.length ≤ i) :
    M.instAt i = .other [] := by
  unfold Module.instAt
  simp [List.getD_eq_getElem?_getD, List.getElem?_eq_none h]

theorem Module.lt_of_instAt_call (M : Module) (i : Nat) {callee : IRValue}
    {target env : Option Nat} {args : List IRValue} {nt : IRValue}
    (h : M.instAt i = .call callee target env args nt) : i < M.insts.length := by
  by_contra hge
  rw [M.instAt_of_ge i (Nat.le_of_not_lt hge)] at h
  exact Inst.noConfusion h

theorem Module.instAt_setInst_self (M : Module) (i : Nat) (I : Inst)
    (h : i < M.insts.length) : (M.setInst i I).instAt i = I := by
  unfold Module.setInst Module.instAt
  simp [List.getD_eq_getElem?_getD, List.getElem?_set, h]

theorem Module.funcAt_setInst (M : Module) (i : Nat) (I : Inst) (f : Nat) :
    (M.setInst i I).funcAt f = M.funcAt f := rfl

theorem Module.funcAt_setFunc (M : Module) (f : Nat) (F : IRFunction) (g : Nat) :
    (M.setFunc f F).funcAt g
      = if f = g ∧ f < M.funcs.length then F else M.funcAt g := by
  unfold Module.setFunc Module.funcAt
  simp only [List.getD_eq_getElem?_getD, List.getElem?_set]
  by_cases h1 : f = g
  · subst h1
    by_cases h2 : f < M.funcs.length
    · simp [h2]
    · simp [h2, List.getElem?_eq_none (Nat.le_of_not_lt h2)]
  · simp [h1]

theorem Module.funcs_registerCallsite (M : Module) (c fc : Nat)
    (s : Option Nat) : (registerCallsite M c fc s).funcs = M.funcs := by
  unfold registerCallsite
  split <;> rfl

theorem Module.funcs_replaceAllUsesWith (M : Module) (g σ : Nat) :
    (M.replaceAllUsesWith g σ).funcs = M.funcs := rfl

theorem Module.funcAt_eq_of_funcs_eq {M M' : Module} (h : M'.funcs = M.funcs)
    (f : Nat) : M'.funcAt f = M.funcAt f := by
  unfold Module.funcAt
  rw [h]

/-- Out-of-range functions read as the default record (attribute false). -/
theorem Module.funcAt_of_ge (M : Module) (f : Nat) (h : M.funcs.length ≤ f) :
    M.funcAt f = default := by
  unfold Module.funcAt
  simp [List.getD_eq_getElem?_getD, List.getElem?_eq_none h]

theorem Module.lt_of_attr_true (M : Module) (f : Nat)
    (h : (M.funcAt f).allCallsitesKnownInStrictMode = true) :
    f < M.funcs.length := by
  by_contra hge
  rw [M.funcAt_of_ge f (Nat.le_of_not_lt hge)] at h
  exact Bool.noConfusion h

/-- `setAllCallsitesKnown f false` changes no attribute from false to true. -/
theorem attr_mono_setFalse (M : Module) (f g : Nat)
    (h : ((M.setAllCallsitesKnown f false).funcAt g).allCallsitesKnownInStrictMode
      = true) :
    (M.funcAt g).allCallsitesKnownInStrictMode = true := by
  unfold Module.setAllCallsitesKnown at h
  rw [Module.funcAt_setFunc] at h
  split at h
  · exact Bool.noConfusion h
  · exact h

theorem attr_mono_processCallUser (M : Module) (fIdx createIdx c : Nat)
    (s : Option Nat) (j : Nat) (callee : IRValue) (args : List IRValue)
    (nt : IRValue) (g : Nat)
    (h : ((processCallUser M fIdx createIdx c s j callee args nt).funcAt
      g).allCallsitesKnownInStrictMode = true) :
    (M.funcAt g).allCallsitesKnownInStrictMode = true := by
  simp only [processCallUser] at h
  split at h
  · split at h
    · rw [Module.funcAt_eq_of_funcs_eq
        (Module.funcs_registerCallsite _ _ _ _) g] at h
      split at h
      · exact attr_mono_setFalse M fIdx g h
      · exact h
    · split at h
      · exact attr_mono_setFalse M fIdx g h
      · exact h
  · split at h
    · exact attr_mono_setFalse M fIdx g h
    · exact h

/-- One closure-user step changes no attribute from false to true. -/
theorem attr_mono_processClosureUser (M : Module) (fIdx createIdx c : Nat)
    (s : Option Nat) (j g : Nat)
    (h : ((processClosureUser M fIdx createIdx c s j).1.funcAt
      g).allCallsitesKnownInStrictMode = true) :
    (M.funcAt g).allCallsitesKnownInStrictMode = true := by
  simp only [processClosureUser] at h
  split at h
  · exact attr_mono_processCallUser _ _ _ _ _ _ _ _ _ g h
  · exact h
  · split at h
    · rw [Module.funcAt_eq_of_funcs_eq
        (Module.funcs_replaceAllUsesWith _ _ _) g] at h
      exact h
    · exact h
  · exact h
  · split at h
    · exact h
    · exact attr_mono_setFalse M fIdx g h
  · split at h
    · exact attr_mono_setFalse M fIdx g h
    · exact h
  · exact attr_mono_setFalse M fIdx g h

theorem attr_mono_processClosureUsersAux (fIdx createIdx c : Nat)
    (s : Option Nat) (users : List Nat) :
    ∀ (acc : Module × List WLItem) (g : Nat),
      ((processClosureUsersAux fIdx createIdx c s users acc).1.funcAt
        g).allCallsitesKnownInStrictMode = true →
      (acc.1.funcAt g).allCallsitesKnownInStrictMode = true := by
  induction users with
  | nil =>
      intro acc g h
      simpa only [processClosureUsersAux] using h
  | cons j rest ih =>
      intro acc g h
      simp only [processClosureUsersAux] at h
      exact attr_mono_processClosureUser acc.1 fIdx createIdx c s j g
        (ih ((processClosureUser acc.1 fIdx createIdx c s j).1,
          (processClosureUser acc.1 fIdx createIdx c s j).2.reverse ++ acc.2) g h)

theorem attr_mono_closureWorklistLoop (fIdx createIdx : Nat) (fuel : Nat) :
    ∀ (M : Module) (wl : List WLItem) (vis : List Nat) (g : Nat),
      ((closureWorklistLoop fIdx createIdx fuel M wl vis).funcAt
        g).allCallsitesKnownInStrictMode = true →
      (M.funcAt g).allCallsitesKnownInStrictMode = true := by
  induction fuel with
  | zero =>
      intro M wl vis g h
      simpa only [closureWorklistLoop] using h
  | succ fuel ih =>
      intro M wl vis g h
      cases wl with
      | nil => simpa only [closureWorklistLoop] using h
      | cons item rest =>
          simp only [closureWorklistLoop] at h
          split at h
          · exact ih _ _ _ g h
          · exact attr_mono_processClosureUsersAux _ _ _ _ _ _ g (ih _ _ _ g h)

theorem attr_mono_analyzeCreateCallable (M : Module) (createIdx g : Nat)
    (h : ((analyzeCreateCallable M createIdx).funcAt
      g).allCallsitesKnownInStrictMode = true) :
    (M.funcAt g).allCallsitesKnownInStrictMode = true := by
  simp only [analyzeCreateCallable] at h
  split at h
  · exact attr_mono_closureWorklistLoop _ _ _ _ _ _ g h
  · exact h

theorem attr_mono_processFunctionUser (M : Module) (fIdx j g : Nat)
    (h : ((processFunctionUser M fIdx j).funcAt
      g).allCallsitesKnownInStrictMode = true) :
    (M.funcAt g).allCallsitesKnownInStrictMode = true := by
  simp only [processFunctionUser] at h
  split at h
  · exact attr_mono_analyzeCreateCallable _ _ g h
  · exact h
  · exact attr_mono_setFalse M fIdx g h

theorem attr_mono_foldFunctionUsers (fIdx : Nat) (users : List Nat) :
    ∀ (M : Module) (g : Nat),
      ((users.foldl (fun acc j => processFunctionUser acc fIdx j) M).funcAt
        g).allCallsitesKnownInStrictMode = true →
      (M.funcAt g).allCallsitesKnownInStrictMode = true := by
  induction users with
  | nil =>
      intro M g h
      simpa only [List.foldl_nil] using h
  | cons j rest ih =>
      intro M g h
      simp only [List.foldl_cons] at h
      exact attr_mono_processFunctionUser _ _ _ g (ih _ g h)

theorem Module.funcAt_setAllCallsitesKnown (M : Module) (f : Nat) (b : Bool)
    (g : Nat) :
    (M.setAllCallsitesKnown f b).funcAt g =
      if f = g ∧ f < M.funcs.length
      then { M.funcAt f with allCallsitesKnownInStrictMode := b }
      else M.funcAt g :=
  M.funcAt_setFunc f _ g

theorem Module.funcAt_setUnreachable (M : Module) (f : Nat) (b : Bool)
    (g : Nat) :
    (M.setUnreachable f b).funcAt g =
      if f = g ∧ f < M.funcs.length
      then { M.funcAt f with unreachable := b }
      else M.funcAt g :=
  M.funcAt_setFunc f _ g

theorem isGlobal_setAllCallsitesKnown (M : Module) (f : Nat) (b : Bool)
    (g : Nat) :
    ((M.setAllCallsitesKnown f b).funcAt g).isGlobalScope
      = (M.funcAt g).isGlobalScope := by
  rw [Module.funcAt_setAllCallsitesKnown]
  split
  · next h => rw [h.1]
  · rfl

theorem attr_setUnreachable (M : Module) (f : Nat) (b : Bool) (g : Nat) :
    ((M.setUnreachable f b).funcAt g).allCallsitesKnownInStrictMode
      = (M.funcAt g).allCallsitesKnownInStrictMode := by
  rw [Module.funcAt_setUnreachable]
  split
  · next h => rw [h.1]
  · rfl

theorem attr_setAllCallsitesKnown_self (M : Module) (f : Nat) (b : Bool)
    (h : f < M.funcs.length) :
    ((M.setAllCallsitesKnown f b).funcAt f).allCallsitesKnownInStrictMode
      = b := by
  rw [Module.funcAt_setAllCallsitesKnown]
  simp [h]

theorem unreachable_setUnreachable_self (M : Module) (f : Nat) (b : Bool)
    (h : f < M.funcs.length) :
    ((M.setUnreachable f b).funcAt f).unreachable = b := by
  rw [Module.funcAt_setUnreachable]
  simp [h]

theorem funcs_length_setAllCallsitesKnown (M : Module) (f : Nat) (b : Bool) :
    (M.setAllCallsitesKnown f b).funcs.length = M.funcs.length := by
  unfold Module.setAllCallsitesKnown Module.setFunc
  simp [List.length_set]

theorem insts_setAllCallsitesKnown (M : Module) (f : Nat) (b : Bool) :
    (M.setAllCallsitesKnown f b).insts = M.insts := rfl

theorem usersOf_setUnreachable (M : Module) (f : Nat) (b : Bool)
    (v : IRValue) : (M.setUnreachable f b).usersOf v = M.usersOf v := rfl

theorem isBaseCallInst_setUnreachable (M : Module) (f : Nat) (b : Bool)
    (j : Nat) : (M.setUnreachable f b).isBaseCallInst j = M.isBaseCallInst j :=
  rfl

/-- C3: after `analyzeFunctionCallsites(F)`, a global-scope function's
`allCallsitesKnownInStrictMode` is false; and if the attribute is still true
and no user of F is a `BaseCallInst`, then `unreachable` was set to true. -/
theorem c3_global_and_unreachable (M : Module) (f : Nat) :
    ((M.funcAt f).isGlobalScope = true →
      ((analyzeFunctionCallsites M f).funcAt
        f).allCallsitesKnownInStrictMode = false) ∧
    (((analyzeFunctionCallsites M f).funcAt
        f).allCallsitesKnownInStrictMode = true →
      (∀ j ∈ (analyzeFunctionCallsites M f).usersOf (.func f),
        (analyzeFunctionCallsites M f).isBaseCallInst j = false) →
      ((analyzeFunctionCallsites M f).funcAt f).unreachable = true) := by
  simp only [analyzeFunctionCallsites]
  set M1 := M.setAllCallsitesKnown f true with hM1
  set M2 := if (M1.funcAt f).isGlobalScope then
      M1.setAllCallsitesKnown f false else M1 with hM2
  set M3 := (M2.usersOf (.func f)).foldl
    (fun acc j => processFunctionUser acc f j) M2 with hM3
  constructor
  · intro hG
    by_cases hf : f < M.funcs.length
    · have hM2attr : (M2.funcAt f).allCallsitesKnownInStrictMode = false := by
        rw [hM2]
        have hGlob : (M1.funcAt f).isGlobalScope = true := by
          rw [hM1, isGlobal_setAllCallsitesKnown]
          exact hG
        rw [if_pos hGlob]
        exact attr_setAllCallsitesKnown_self M1 f false
          (by rw [hM1, funcs_length_setAllCallsitesKnown]; exact hf)
      split
      · next hA =>
          exact absurd (attr_mono_foldFunctionUsers f _ M2 f hA)
            (by rw [hM2attr]; exact Bool.false_ne_true)
      · next hA =>
          exact Bool.not_eq_true _ ▸ (by simpa using hA)
    · exfalso
      rw [M.funcAt_of_ge f (Nat.le_of_not_lt hf)] at hG
      exact Bool.noConfusion hG
  · intro hA hU
    by_cases hA3 : (M3.funcAt f).allCallsitesKnownInStrictMode = true
    · rw [if_pos hA3] at hU ⊢
      have hf3 : f < M3.funcs.length := M3.lt_of_attr_true f hA3
      rw [unreachable_setUnreachable_self M3 f _ hf3]
      have hAny : (M3.usersOf (.func f)).any M3.isBaseCallInst = false := by
        rw [List.any_eq_false]
        intro j hj
        have hfalse : M3.isBaseCallInst j = false := hU j hj
        simp [hfalse]
      rw [hAny]
      rfl
    · rw [if_neg hA3] at hA
      exact absurd hA hA3

/-- C3 witness: a global-scope function gets the attribute falsified, and a
create-only function is marked unreachable. -/
theorem c3_witness :
    ((analyzeFunctionCallsites C3MGlobal 0).funcAt
      0).allCallsitesKnownInStrictMode = false ∧
    ((analyzeFunctionCallsites C3MUnreachable 0).funcAt 0).unreachable = true :=
  ⟨(c3_global_and_unreachable C3MGlobal 0).1 (by decide),
   (c3_global_and_unreachable C3MUnreachable 0).2 (by decide) (by decide)⟩

/-- C1, counterexample: in `C1M` the call at index 2 has the closure created
at index 1 (for function 0) as its callee and is reached by the worklist, but
its `target` operand was pre-bound to function 1; `registerCallsite` only
binds a target that is still `EmptySentinel`, so after the pass the target is
still function 1, not `create.functionCode` = 0 as the claim requires. -/
theorem c1_counterexample :
    C1M.instAt 1 = .createCallable 0 0 ∧
    C1M.instAt 2 = .call (.inst 1) (some 1) none [] (.lit 0) ∧
    (runFunctionAnalysis C1M).callTargetAt 2 = some 1 ∧
    (runFunctionAnalysis C1M).callTargetAt 2 ≠ some 0 := by decide

/-- C1, amended: when the worklist reaches a call whose callee is the closure,
the pass invokes `registerCallsite`, which binds `target` to
`create.functionCode` only when the target is still `EmptySentinel` (an
already-bound target is left unchanged), and binds `environment` to the known
scope only when the environment is still `EmptySentinel`, the scope is known,
and the target function's `parentScopeParam` has users (otherwise the
environment is left unchanged). -/
theorem c1_amended (M : Module) (callIdx fc : Nat) (scope : Option Nat)
    (callee : IRValue) (target env : Option Nat) (args : List IRValue)
    (nt : IRValue)
    (hc : M.instAt callIdx = .call callee target env args nt) :
    (target = none →
      (registerCallsite M callIdx fc scope).callTargetAt callIdx = some fc) ∧
    (∀ t, target = some t →
      (registerCallsite M callIdx fc scope).callTargetAt callIdx = some t) ∧
    (∀ σ, scope = some σ → env = none →
      (M.funcAt fc).parentScopeParamHasUsers = true →
      (registerCallsite M callIdx fc scope).callEnvAt callIdx = some σ) ∧
    (∀ e, env = some e →
      (registerCallsite M callIdx fc scope).callEnvAt callIdx = some e) ∧
    (scope = none →
      (registerCallsite M callIdx fc scope).callEnvAt callIdx = env) ∧
    ((M.funcAt fc).parentScopeParamHasUsers = false →
      (registerCallsite M callIdx fc scope).callEnvAt callIdx = env) := by
  have hlt : callIdx < M.insts.length := M.lt_of_instAt_call callIdx hc
  have hcompute : ∀ (t' e' : Option Nat),
      (M.setInst callIdx (.call callee t' e' args nt)).callTargetAt callIdx
        = t' ∧
      (M.setInst callIdx (.call callee t' e' args nt)).callEnvAt callIdx
        = e' := by
    intro t' e'
    constructor
    · unfold Module.callTargetAt
      rw [Module.instAt_setInst_self _ _ _ hlt]
    · unfold Module.callEnvAt
      rw [Module.instAt_setInst_self _ _ _ hlt]
  refine ⟨?_, ?_, ?_, ?_, ?_, ?_⟩
  · intro ht
    subst ht
    simp only [registerCallsite, hc]
    rw [(hcompute _ _).1]
  · intro t ht
    subst ht
    simp only [registerCallsite, hc]
    rw [(hcompute _ _).1]
  · intro σ hσ he hu
    subst hσ
    subst he
    simp only [registerCallsite, hc]
    rw [(hcompute _ _).2]
    simp [hu]
  · intro e he
    subst he
    simp only [registerCallsite, hc]
    rw [(hcompute _ _).2]
    simp
  · intro hσ
    subst hσ
    simp only [registerCallsite, hc]
    rw [(hcompute _ _).2]
    simp
  · intro hu
    simp only [registerCallsite, hc]
    rw [(hcompute _ _).2]
    simp [hu]

/-- C1 amended, witness: in `C1M`, `registerCallsite` on the reached call
leaves the pre-bound target and binds the empty environment. -/
theorem c1_amended_witness :
    (registerCallsite C1M 2 0 (some 0)).callTargetAt 2 = some 1 ∧
    (registerCallsite C1M 2 0 (some 0)).callEnvAt 2 = some 0 :=
  ⟨(c1_amended C1M 2 0 (some 0) (.inst 1) (some 1) none [] (.lit 0) rfl).2.1
      1 rfl,
   (c1_amended C1M 2 0 (some 0) (.inst 1) (some 1) none [] (.lit 0) rfl).2.2.1
      0 rfl rfl rfl⟩

/-! ### Bitmask / allocator lemmas -/

theorem exists_testBit_of_ne_zero (n : Nat) (h : n ≠ 0) :
    ∃ i, n.testBit i = true := by
  by_contra hc
  push_neg at hc
  exact h (Nat.eq_of_testBit_eq fun i => by
    simp [Nat.zero_testBit, Bool.eq_false_iff.mpr (hc i)])

theorem find?_range_first (p : Nat → Bool) (k a : Nat)
    (h : (List.range k).find? p = some a) :
    p a = true ∧ ∀ j < a, p j = false := by
  induction k with
  | zero => simp [List.range_zero] at h
  | succ k ih =>
      rw [List.range_succ, List.find?_append] at h
      cases hk : (List.range k).find? p with
      | some b =>
          rw [hk] at h
          have hba : b = a := by
            have : (some b).or (List.find? p [k]) = some b := rfl
            rw [this] at h
            exact Option.some.inj h
          subst hba
          exact ih hk
      | none =>
          rw [hk, Option.none_or] at h
          have hall := List.find?_eq_none.mp hk
          by_cases hp : p k = true
          · rw [List.find?_cons_of_pos _ hp] at h
            have hka : k = a := Option.some.inj h
            subst hka
            refine ⟨hp, fun j hj => ?_⟩
            have := hall j (List.mem_range.mpr hj)
            exact Bool.eq_false_iff.mpr this
          · rw [List.find?_cons_of_neg _ hp] at h
            exact Option.noConfusion h

theorem findFirstSet32_spec (n i : Nat) (hi : n.testBit i = true)
    (h32 : i < 32) :
    n.testBit (findFirstSet32 n) = true ∧
    ∀ j < findFirstSet32 n, n.testBit j = false := by
  unfold findFirstSet32
  cases hf : (List.range 32).find? (fun i => n.testBit i) with
  | none =>
      exact absurd hi (List.find?_eq_none.mp hf i (List.mem_range.mpr h32))
  | some a =>
      have := find?_range_first _ 32 a hf
      simpa using this

theorem testBit_bitMask32 (first last i : Nat) :
    (bitMask32 first last).testBit i
      = (decide (first ≤ i) && decide (i ≤ first + (last - first))) := by
  unfold bitMask32
  rw [Nat.testBit_shiftLeft, Nat.one_shiftLeft, Nat.testBit_two_pow_sub_one]
  by_cases h1 : first ≤ i
  · have h2 : (i - first < last - first + 1) ↔ (i ≤ first + (last - first)) := by
      omega
    simp [ge_iff_le, h1, h2]
  · simp [ge_iff_le, h1]

/-- C5: `alloc(preferred)` on a state whose availability bits lie inside a
pool below bit 32 returns `preferred` when it is free; otherwise it returns
the lowest-numbered free index; it returns none exactly when no register of
the pool is free; and every returned index lies within `[first, last]`. -/
theorem c5_alloc (st : TempRegAlloc) (preferred : Option Nat)
    (hmask : ∀ i, st.availBits.testBit i = true → st.first ≤ i ∧ i ≤ st.last)
    (h32 : st.last < 32) :
    (∀ p, preferred = some p → st.availBits.testBit p = true →
      (st.alloc preferred).1 = some p) ∧
    ((∀ p, preferred = some p → st.availBits.testBit p = false) →
      st.availBits ≠ 0 →
      ∃ i, (st.alloc preferred).1 = some i ∧ st.availBits.testBit i = true ∧
        ∀ j < i, st.availBits.testBit j = false) ∧
    ((st.alloc preferred).1 = none ↔
      ∀ i, st.first ≤ i → i ≤ st.last → st.availBits.testBit i = false) ∧
    (∀ i, (st.alloc preferred).1 = some i → st.first ≤ i ∧ i ≤ st.last) := by
  by_cases hz : st.availBits = 0
  · refine ⟨?_, ?_, ?_, ?_⟩
    · intro p _ hbit
      rw [hz, Nat.zero_testBit] at hbit
      exact Bool.noConfusion hbit
    · intro _ hne
      exact absurd hz hne
    · refine ⟨fun _ i _ _ => by rw [hz]; exact Nat.zero_testBit i, fun _ => ?_⟩
      unfold TempRegAlloc.alloc
      rw [if_pos hz]
    · intro i hsome
      unfold TempRegAlloc.alloc at hsome
      rw [if_pos hz] at hsome
      exact Option.noConfusion hsome
  · have hffs : st.availBits.testBit (findFirstSet32 st.availBits) = true ∧
        ∀ j < findFirstSet32 st.availBits, st.availBits.testBit j = false := by
      obtain ⟨w, hw⟩ := exists_testBit_of_ne_zero _ hz
      have hw32 : w < 32 := lt_of_le_of_lt (hmask w hw).2 h32
      exact findFirstSet32_spec _ w hw hw32
    refine ⟨?_, ?_, ?_, ?_⟩
    · intro p hp hbit
      subst hp
      unfold TempRegAlloc.alloc
      rw [if_neg hz]
      simp only [hbit, if_pos]
    · intro hnp hne
      unfold TempRegAlloc.alloc
      rw [if_neg hz]
      cases preferred with
      | none => exact ⟨_, rfl, hffs.1, hffs.2⟩
      | some p =>
          have := hnp p rfl
          simp only [this, Bool.false_eq_true, if_neg, if_false]
          exact ⟨_, rfl, hffs.1, hffs.2⟩
    · constructor
      · intro hnone
        exfalso
        unfold TempRegAlloc.alloc at hnone
        rw [if_neg hz] at hnone
        exact Option.noConfusion hnone
      · intro hall
        exfalso
        obtain ⟨w, hw⟩ := exists_testBit_of_ne_zero _ hz
        have := hall w (hmask w hw).1 (hmask w hw).2
        rw [this] at hw
        exact Bool.noConfusion hw
    · intro i hsome
      unfold TempRegAlloc.alloc at hsome
      rw [if_neg hz] at hsome
      have hi : st.availBits.testBit i = true := by
        cases preferred with
        | none =>
            have : findFirstSet32 st.availBits = i := Option.some.inj hsome
            rw [← this]
            exact hffs.1
        | some p =>
            by_cases hb : st.availBits.testBit p = true
            · simp only [hb, if_pos] at hsome
              have : p = i := Option.some.inj hsome
              subst this
              exact hb
            · simp only [Bool.not_eq_true] at hb
              simp only [hb, Bool.false_eq_true, if_neg, if_false] at hsome
              have : findFirstSet32 st.availBits = i := Option.some.inj hsome
              rw [← this]
              exact hffs.1
      exact hmask i hi

/-- C5 witness: the VecD temp pool `d16..d31`, allocating with free preferred
register 20, with no preferred register, and after exhausting the pool. -/
theorem c5_witness :
    (((TempRegAlloc.init 16 31).alloc (some 20)).1 = some 20) ∧
    (∃ i, ((TempRegAlloc.init 16 31).alloc none).1 = some i ∧
      (TempRegAlloc.init 16 31).availBits.testBit i = true ∧
      ∀ j < i, (TempRegAlloc.init 16 31).availBits.testBit j = false) ∧
    (({ TempRegAlloc.init 16 31 with availBits := 0 } :
        TempRegAlloc).alloc none).1 = none := by
  have hmask : ∀ i, (TempRegAlloc.init 16 31).availBits.testBit i = true →
      (TempRegAlloc.init 16 31).first ≤ i ∧ i ≤ (TempRegAlloc.init 16 31).last := by
    intro i hbit
    by_cases h32 : i < 32
    · revert hbit
      revert h32
      revert i
      decide
    · exfalso
      have : (TempRegAlloc.init 16 31).availBits < 2 ^ i := by
        calc (TempRegAlloc.init 16 31).availBits < 2 ^ 32 := by decide
        _ ≤ 2 ^ i := Nat.pow_le_pow_right (by omega) (by omega)
      rw [Nat.testBit_lt_two_pow this] at hbit
      exact Bool.noConfusion hbit
  refine ⟨(c5_alloc (TempRegAlloc.init 16 31) (some 20) hmask (by decide)).1
      20 rfl (by decide),
    (c5_alloc (TempRegAlloc.init 16 31) none hmask (by decide)).2.1
      (fun p hp => Option.noConfusion hp) (by decide),
    ?_⟩
  have hmask0 : ∀ i, ({ TempRegAlloc.init 16 31 with availBits := 0 } :
      TempRegAlloc).availBits.testBit i = true →
      ({ TempRegAlloc.init 16 31 with availBits := 0 } : TempRegAlloc).first ≤ i ∧
      i ≤ ({ TempRegAlloc.init 16 31 with availBits := 0 } : TempRegAlloc).last := by
    intro i hbit
    rw [Nat.zero_testBit] at hbit
    exact Bool.noConfusion hbit
  exact (c5_alloc _ none hmask0 (by decide)).2.2.1.mpr
    (fun i _ _ => Nat.zero_testBit i)

theorem testBit_clear32 (n index j : Nat) (hn32 : index < 32) :
    (n &&& ((2 ^ 32 - 1) ^^^ (1 <<< index))).testBit j
      = (n.testBit j && decide (j < 32) && !decide (index = j)) := by
  rw [Nat.testBit_and, Nat.testBit_xor, Nat.one_shiftLeft,
    Nat.testBit_two_pow_sub_one, Nat.testBit_two_pow]
  by_cases hj : j < 32
  · by_cases hij : index = j <;> simp [hj, hij]
  · have hij : index ≠ j := by omega
    simp [hj, hij]

theorem testBit_or_pow (n index j : Nat) :
    (n ||| (1 <<< index)).testBit j = (n.testBit j || decide (index = j)) := by
  rw [Nat.testBit_or, Nat.one_shiftLeft, Nat.testBit_two_pow]

theorem testBit_ffs_of_ne_zero (n : Nat) (hz : n ≠ 0)
    (hb : ∀ i, n.testBit i = true → i < 32) :
    n.testBit (findFirstSet32 n) = true := by
  obtain ⟨w, hw⟩ := exists_testBit_of_ne_zero n hz
  exact (findFirstSet32_spec n w hw (hb w hw)).1

theorem TRInv_init (first last : Nat) (hfl : first ≤ last) :
    TRInv (TempRegAlloc.init first last) := by
  simp only [TRInv, TempRegAlloc.init]
  refine ⟨?_, ?_, ?_⟩
  · intro i hbit
    rw [testBit_bitMask32, Bool.and_eq_true, decide_eq_true_eq,
      decide_eq_true_eq] at hbit
    exact ⟨hbit.1, by omega⟩
  · intro i hi
    exact absurd hi (List.not_mem_nil i)
  · intro i h1 h2
    rw [testBit_bitMask32]
    constructor
    · intro hbit
      exfalso
      rw [Bool.and_eq_false_iff] at hbit
      rcases hbit with h | h <;> rw [decide_eq_false_iff_not] at h <;> omega
    · intro hmem
      exact absurd hmem (List.not_mem_nil i)

theorem TRInv_alloc_commit (st : TempRegAlloc) (index : Nat)
    (h32 : st.last < 32) (hinv : TRInv st)
    (hbit : st.availBits.testBit index = true) :
    TRInv { st with
      availBits := st.availBits &&& ((2 ^ 32 - 1) ^^^ (1 <<< index))
      lru := st.lru ++ [index] } := by
  obtain ⟨hp1, hp2, hp3⟩ := hinv
  have hidx32 : index < 32 := lt_of_le_of_lt (hp1 index hbit).2 h32
  refine ⟨?_, ?_, ?_⟩ <;> dsimp only
  · intro i hi
    rw [testBit_clear32 _ _ _ hidx32, Bool.and_eq_true, Bool.and_eq_true] at hi
    exact hp1 i hi.1.1
  · intro i hi
    rw [List.mem_append] at hi
    rcases hi with hi | hi
    · exact hp2 i hi
    · rw [List.mem_singleton] at hi
      subst hi
      exact hp1 i hbit
  · intro i h1 h2
    rw [testBit_clear32 _ _ _ hidx32, List.mem_append, List.mem_singleton]
    have hi32 : decide (i < 32) = true := by
      rw [decide_eq_true_eq]
      exact lt_of_le_of_lt h2 h32
    rw [hi32]
    by_cases hii : index = i
    · subst hii
      simp [hbit]
    · have hd : (decide (index = i)) = false := by
        rw [decide_eq_false_iff_not]
        exact hii
      rw [hd]
      simp only [Bool.not_false, Bool.and_true]
      constructor
      · intro hb
        exact Or.inl ((hp3 i h1 h2).mp hb)
      · intro hm
        rcases hm with hm | hm
        · exact (hp3 i h1 h2).mpr hm
        · exact absurd hm (Ne.symm hii)

theorem TRInv_applyOp (st : TempRegAlloc) (op : TROp)
    (h32 : st.last < 32) (hinv : TRInv st) (hval : TROpValid st op = true) :
    TRInv (st.applyOp op) ∧ (st.applyOp op).first = st.first ∧
    (st.applyOp op).last = st.last := by
  obtain ⟨hp1, hp2, hp3⟩ := hinv
  cases op with
  | alloc preferred =>
      by_cases hz : st.availBits = 0
      · simp only [TempRegAlloc.applyOp, TempRegAlloc.alloc, if_pos hz]
        exact ⟨⟨hp1, hp2, hp3⟩, by trivial, by trivial⟩
      · have hffs : st.availBits.testBit (findFirstSet32 st.availBits)
            = true :=
          testBit_ffs_of_ne_zero _ hz
            (fun i hi => lt_of_le_of_lt (hp1 i hi).2 h32)
        simp only [TempRegAlloc.applyOp, TempRegAlloc.alloc, if_neg hz]
        cases preferred with
        | none =>
            exact ⟨TRInv_alloc_commit st _ h32 ⟨hp1, hp2, hp3⟩ hffs,
              by trivial, by trivial⟩
        | some p =>
            by_cases hb : st.availBits.testBit p = true
            · simp only [hb, if_true]
              exact ⟨TRInv_alloc_commit st p h32 ⟨hp1, hp2, hp3⟩ hb,
                by trivial, by trivial⟩
            · simp only [Bool.not_eq_true] at hb
              simp only [hb, Bool.false_eq_true, if_false]
              exact ⟨TRInv_alloc_commit st _ h32 ⟨hp1, hp2, hp3⟩ hffs,
                by trivial, by trivial⟩
  | use index =>
      simp only [TROpValid, Bool.and_eq_true, decide_eq_true_eq] at hval
      simp only [TempRegAlloc.applyOp, TempRegAlloc.use]
      split
      · exact ⟨⟨hp1, hp2, hp3⟩, by trivial, by trivial⟩
      · next hbc =>
          simp only [Bool.not_eq_true] at hbc
          have hmem : index ∈ st.lru := (hp3 index hval.1 hval.2).mp hbc
          refine ⟨⟨?_, ?_, ?_⟩, by trivial, by trivial⟩ <;> dsimp only
          · exact hp1
          · intro i hi
            rw [List.mem_append] at hi
            rcases hi with hi | hi
            · exact hp2 i (List.mem_filter.mp hi).1
            · rw [List.mem_singleton] at hi
              subst hi
              exact ⟨hval.1, hval.2⟩
          · intro i h1 h2
            rw [hp3 i h1 h2, List.mem_append, List.mem_singleton,
              List.mem_filter]
            constructor
            · intro hi
              by_cases hii : i = index
              · exact Or.inr hii
              · exact Or.inl ⟨hi, by simpa using hii⟩
            · intro hi
              rcases hi with hi | hi
              · exact hi.1
              · subst hi
                exact hmem
  | free index =>
      simp only [TROpValid, Bool.and_eq_true, decide_eq_true_eq,
        Bool.not_eq_true'] at hval
      obtain ⟨⟨⟨hv1, hv2⟩, _hv3⟩, _hv4⟩ := hval
      simp only [TempRegAlloc.applyOp, TempRegAlloc.free]
      refine ⟨⟨?_, ?_, ?_⟩, by trivial, by trivial⟩ <;> dsimp only
      · intro i hi
        rw [testBit_or_pow, Bool.or_eq_true] at hi
        rcases hi with hi | hi
        · exact hp1 i hi
        · rw [decide_eq_true_eq] at hi
          subst hi
          exact ⟨hv1, hv2⟩
      · intro i hi
        exact hp2 i (List.mem_filter.mp hi).1
      · intro i h1 h2
        rw [testBit_or_pow, List.mem_filter, Bool.or_eq_false_iff]
        constructor
        · intro hi
          refine ⟨(hp3 i h1 h2).mp hi.1, ?_⟩
          have hne := hi.2
          rw [decide_eq_false_iff_not] at hne
          simpa using fun hii => hne hii.symm
        · intro hi
          refine ⟨(hp3 i h1 h2).mpr hi.1, ?_⟩
          rw [decide_eq_false_iff_not]
          have hne := hi.2
          simp only [decide_eq_true_eq] at hne
          exact fun hii => hne hii.symm
theorem TRInv_applyOps (ops : List TROp) :
    ∀ (st : TempRegAlloc), st.last < 32 → TRInv st →
      TROpsValid st ops = true → TRInv (st.applyOps ops) := by
  induction ops with
  | nil => intro st _ hinv _; exact hinv
  | cons op rest ih =>
      intro st h32 hinv hval
      simp only [TROpsValid, Bool.and_eq_true] at hval
      obtain ⟨hstep, _hfirst, hlast⟩ := TRInv_applyOp st op h32 hinv hval.1
      exact ih (st.applyOp op) (by rw [hlast]; exact h32) hstep hval.2

/-- C10: starting from `TempRegAlloc(range)`, every assert-respecting sequence
of `alloc` / `use` / `free` calls on in-pool indices preserves the invariant
that an availability bit is clear exactly when the index holds a live LRU node
and that all availability bits stay within the pool mask; moreover `use` on a
currently-free index is a no-op and `free` on an allocated index restores its
availability bit. -/
theorem c10_allocator_invariant (first last : Nat) (ops : List TROp)
    (hfl : first ≤ last) (h32 : last < 32)
    (hvalid : TROpsValid (TempRegAlloc.init first last) ops = true) :
    TRInv ((TempRegAlloc.init first last).applyOps ops) ∧
    (∀ (st : TempRegAlloc) (i : Nat), st.availBits.testBit i = true →
      st.use i = st) ∧
    (∀ (st : TempRegAlloc) (i : Nat),
      (st.free i).availBits.testBit i = true) := by
  refine ⟨TRInv_applyOps ops _ h32 (TRInv_init first last hfl) hvalid, ?_, ?_⟩
  · intro st i hbit
    simp [TempRegAlloc.use, hbit]
  · intro st i
    rw [TempRegAlloc.free]
    rw [testBit_or_pow]
    simp

/-- C10 witness: the GPR temp pool `x0..x15` with the sequence
`alloc; use 0; free 0`. -/
theorem c10_witness :
    TRInv ((TempRegAlloc.init 0 15).applyOps
      [.alloc none, .use 0, .free 0]) ∧
    (∀ (st : TempRegAlloc) (i : Nat), st.availBits.testBit i = true →
      st.use i = st) ∧
    (∀ (st : TempRegAlloc) (i : Nat),
      (st.free i).availBits.testBit i = true) :=
  c10_allocator_invariant 0 15 [.alloc none, .use 0, .free 0]
    (by decide) (by decide) (by decide)

/-- C4, counterexample: running the pass on `C4M` twice is not idempotent.
The first run replaces the `GetClosureScope` instruction (index 3) with the
known scope (index 0); that rewrites the store's scope operand, so the second
run propagates the scope to the load and newly binds the call's `environment`
operand, which the first run had left empty. -/
theorem c4_counterexample :
    (runFunctionAnalysis C4M).callEnvAt 5 = none ∧
    (runFunctionAnalysis (runFunctionAnalysis C4M)).callEnvAt 5 = some 0 ∧
    runFunctionAnalysis (runFunctionAnalysis C4M) ≠ runFunctionAnalysis C4M :=
  by decide

/-! ### Preservation of skeletons and bound targets by the pass -/

theorem Module.instAt_setInst_ne (M : Module) (i : Nat) (I : Inst) (j : Nat)
    (h : j ≠ i) : (M.setInst i I).instAt j = M.instAt j := by
  unfold Module.setInst Module.instAt
  simp [List.getD_eq_getElem?_getD, List.getElem?_set, Ne.symm h]

theorem Module.instAt_replaceAllUsesWith (M : Module) (g σ j : Nat) :
    (M.replaceAllUsesWith g σ).instAt j = (M.instAt j).subst g σ := by
  unfold Module.replaceAllUsesWith Module.instAt
  simp only [List.getD_eq_getElem?_getD, List.getElem?_map]
  cases h : M.insts[j]? with
  | none => rfl
  | some I => rfl

theorem Inst.skeleton_subst (g σ : Nat) (I : Inst) :
    (I.subst g σ).skeleton = I.skeleton := by
  cases I <;> rfl

theorem Inst.createCode_skeleton (I : Inst) :
    I.skeleton.createCode = I.createCode := by
  cases I <;> rfl

theorem Inst.isCall_skeleton (I : Inst) : I.skeleton.isCall = I.isCall := by
  cases I <;> rfl

theorem Module.createCodeAt_eq_instAt (M : Module) (i : Nat) :
    M.createCodeAt i = (M.instAt i).createCode := by
  unfold Module.createCodeAt Inst.createCode
  cases M.instAt i <;> rfl

theorem Module.isBaseCallInst_eq_instAt (M : Module) (i : Nat) :
    M.isBaseCallInst i = (M.instAt i).isCall := by
  unfold Module.isBaseCallInst Inst.isCall
  cases M.instAt i <;> rfl

theorem createCodeAt_congr {M M' : Module} (h : skelEq M M') (i : Nat) :
    M'.createCodeAt i = M.createCodeAt i := by
  rw [Module.createCodeAt_eq_instAt, Module.createCodeAt_eq_instAt,
    ← Inst.createCode_skeleton, h i, Inst.createCode_skeleton]

theorem isBaseCallInst_congr {M M' : Module} (h : skelEq M M') (i : Nat) :
    M'.isBaseCallInst i = M.isBaseCallInst i := by
  rw [Module.isBaseCallInst_eq_instAt, Module.isBaseCallInst_eq_instAt,
    ← Inst.isCall_skeleton, h i, Inst.isCall_skeleton]

theorem skelEq_refl (M : Module) : skelEq M M := fun _ => rfl

theorem skelEq_trans {M M' M'' : Module} (h1 : skelEq M M')
    (h2 : skelEq M' M'') : skelEq M M'' := fun i => (h2 i).trans (h1 i)

theorem skelEq_setAllCallsitesKnown (M : Module) (f : Nat) (b : Bool) :
    skelEq M (M.setAllCallsitesKnown f b) := fun _ => rfl

theorem skelEq_setUnreachable (M : Module) (f : Nat) (b : Bool) :
    skelEq M (M.setUnreachable f b) := fun _ => rfl

theorem skelEq_replaceAllUsesWith (M : Module) (g σ : Nat) :
    skelEq M (M.replaceAllUsesWith g σ) := fun i => by
  rw [Module.instAt_replaceAllUsesWith]
  exact Inst.skeleton_subst g σ _

theorem skelEq_registerCallsite (M : Module) (c fc : Nat) (s : Option Nat) :
    skelEq M (registerCallsite M c fc s) := by
  intro i
  unfold registerCallsite
  split
  · next callee target env args nt heq =>
      by_cases hic : i = c
      · subst hic
        rw [Module.instAt_setInst_self _ _ _ (M.lt_of_instAt_call _ heq), heq]
        rfl
      · rw [Module.instAt_setInst_ne _ _ _ _ hic]
  · rfl

theorem skelEq_processCallUser (M : Module) (fIdx createIdx c : Nat)
    (s : Option Nat) (j : Nat) (callee : IRValue) (args : List IRValue)
    (nt : IRValue) :
    skelEq M (processCallUser M fIdx createIdx c s j callee args nt) := by
  simp only [processCallUser]
  have h1 : skelEq M (if canEscapeThroughCall c (M.funcAt fIdx) callee args nt
      then M.setAllCallsitesKnown fIdx false else M) := by
    split
    · exact skelEq_setAllCallsitesKnown M fIdx false
    · exact skelEq_refl M
  split
  · split
    · exact skelEq_trans h1 (skelEq_registerCallsite _ _ _ _)
    · exact h1
  · exact h1

theorem skelEq_processClosureUser (M : Module) (fIdx createIdx c : Nat)
    (s : Option Nat) (j : Nat) :
    skelEq M (processClosureUser M fIdx createIdx c s j).1 := by
  simp only [processClosureUser]
  split
  · exact skelEq_processCallUser M fIdx createIdx c s j _ _ _
  · exact skelEq_refl M
  · split
    · exact skelEq_replaceAllUsesWith M j _
    · exact skelEq_refl M
  · exact skelEq_refl M
  · split
    · exact skelEq_refl M
    · exact skelEq_setAllCallsitesKnown M fIdx false
  · split
    · exact skelEq_setAllCallsitesKnown M fIdx false
    · exact skelEq_refl M
  · exact skelEq_setAllCallsitesKnown M fIdx false

theorem skelEq_processClosureUsersAux (fIdx createIdx c : Nat)
    (s : Option Nat) (users : List Nat) :
    ∀ (acc : Module × List WLItem),
      skelEq acc.1 (processClosureUsersAux fIdx createIdx c s users acc).1 := by
  induction users with
  | nil => intro acc; exact skelEq_refl acc.1
  | cons j rest ih =>
      intro acc
      simp only [processClosureUsersAux]
      exact skelEq_trans (skelEq_processClosureUser acc.1 fIdx createIdx c s j)
        (ih _)

theorem skelEq_closureWorklistLoop (fIdx createIdx : Nat) (fuel : Nat) :
    ∀ (M : Module) (wl : List WLItem) (vis : List Nat),
      skelEq M (closureWorklistLoop fIdx createIdx fuel M wl vis) := by
  induction fuel with
  | zero => intro M wl vis; exact skelEq_refl M
  | succ fuel ih =>
      intro M wl vis
      cases wl with
      | nil => exact skelEq_refl M
      | cons item rest =>
          simp only [closureWorklistLoop]
          split
          · exact ih M rest vis
          · exact skelEq_trans
              (skelEq_processClosureUsersAux fIdx createIdx item.closure
                item.scope _ (M, []))
              (ih _ _ _)

theorem skelEq_analyzeCreateCallable (M : Module) (createIdx : Nat) :
    skelEq M (analyzeCreateCallable M createIdx) := by
  simp only [analyzeCreateCallable]
  split
  · exact skelEq_closureWorklistLoop _ _ _ M _ _
  · exact skelEq_refl M

theorem skelEq_processFunctionUser (M : Module) (fIdx j : Nat) :
    skelEq M (processFunctionUser M fIdx j) := by
  simp only [processFunctionUser]
  split
  · exact skelEq_analyzeCreateCallable M j
  · exact skelEq_refl M
  · exact skelEq_setAllCallsitesKnown M fIdx false

theorem skelEq_foldFunctionUsers (fIdx : Nat) (users : List Nat) :
    ∀ (M : Module),
      skelEq M (users.foldl (fun acc j => processFunctionUser acc fIdx j) M) := by
  induction users with
  | nil => intro M; exact skelEq_refl M
  | cons j rest ih =>
      intro M
      simp only [List.foldl_cons]
      exact skelEq_trans (skelEq_processFunctionUser M fIdx j) (ih _)

theorem skelEq_analyzeFunctionCallsites (M : Module) (fIdx : Nat) :
    skelEq M (analyzeFunctionCallsites M fIdx) := by
  simp only [analyzeFunctionCallsites]
  set M1 := M.setAllCallsitesKnown fIdx true with hM1
  set M2 := if (M1.funcAt fIdx).isGlobalScope then
      M1.setAllCallsitesKnown fIdx false else M1 with hM2
  set M3 := (M2.usersOf (.func fIdx)).foldl
    (fun acc j => processFunctionUser acc fIdx j) M2 with hM3
  have h1 : skelEq M M1 := skelEq_setAllCallsitesKnown M fIdx true
  have h2 : skelEq M1 M2 := by
    rw [hM2]
    split
    · exact skelEq_setAllCallsitesKnown _ fIdx false
    · exact skelEq_refl _
  have h3 : skelEq M2 M3 := skelEq_foldFunctionUsers fIdx _ M2
  have h123 := skelEq_trans (skelEq_trans h1 h2) h3
  split
  · exact skelEq_trans h123 (skelEq_setUnreachable M3 fIdx _)
  · exact h123

theorem skelEq_foldAnalyze (fns : List Nat) :
    ∀ (M : Module), skelEq M (fns.foldl analyzeFunctionCallsites M) := by
  induction fns with
  | nil => intro M; exact skelEq_refl M
  | cons f rest ih =>
      intro M
      simp only [List.foldl_cons]
      exact skelEq_trans (skelEq_analyzeFunctionCallsites M f) (ih _)

theorem skelEq_runFunctionAnalysis (M : Module) :
    skelEq M (runFunctionAnalysis M) :=
  skelEq_foldAnalyze _ M

theorem cta_replaceAllUsesWith (M : Module) (g σ j : Nat) :
    (M.replaceAllUsesWith g σ).callTargetAt j = M.callTargetAt j := by
  unfold Module.callTargetAt
  rw [Module.instAt_replaceAllUsesWith]
  cases M.instAt j <;> rfl

theorem targetsBoundBy_of_ctaEq {M M' : Module}
    (h : ∀ j, M'.callTargetAt j = M.callTargetAt j) (f : Nat) :
    targetsBoundBy M M' f := fun j => Or.inl (h j)

theorem targetsBoundBy_refl (M : Module) (f : Nat) : targetsBoundBy M M f :=
  fun _ => Or.inl rfl

theorem targetsBoundBy_trans {a b c : Module} {f : Nat}
    (h1 : targetsBoundBy a b f) (h2 : targetsBoundBy b c f) :
    targetsBoundBy a c f := by
  intro j
  rcases h2 j with h2j | ⟨hb, hc⟩
  · rcases h1 j with h1j | ⟨ha, hb'⟩
    · exact Or.inl (h2j.trans h1j)
    · exact Or.inr ⟨ha, h2j.trans hb'⟩
  · rcases h1 j with h1j | ⟨ha, hb'⟩
    · exact Or.inr ⟨h1j ▸ hb, hc⟩
    · rw [hb'] at hb
      exact Option.noConfusion hb

theorem ctaSome_of_targetsBoundBy {a b : Module} {f : Nat}
    (h : targetsBoundBy a b f) : ctaSome a b := by
  intro j v hv
  rcases h j with hj | ⟨ha, _⟩
  · rw [hj]
    exact hv
  · rw [ha] at hv
    exact Option.noConfusion hv

theorem targetsBoundBy_registerCallsite (M : Module) (c fc : Nat)
    (s : Option Nat) : targetsBoundBy M (registerCallsite M c fc s) fc := by
  intro j
  unfold registerCallsite
  split
  · next callee target env args nt heq =>
      by_cases hjc : j = c
      · subst hjc
        unfold Module.callTargetAt
        rw [Module.instAt_setInst_self _ _ _ (M.lt_of_instAt_call _ heq), heq]
        cases target with
        | none => exact Or.inr ⟨rfl, rfl⟩
        | some t => exact Or.inl rfl
      · unfold Module.callTargetAt
        rw [Module.instAt_setInst_ne _ _ _ _ hjc]
        exact Or.inl rfl
  · exact Or.inl rfl

theorem tbb_processCallUser (M : Module) (fIdx createIdx c : Nat)
    (s : Option Nat) (j : Nat) (callee : IRValue) (args : List IRValue)
    (nt : IRValue) (hCC : M.createCodeAt createIdx = some fIdx) :
    targetsBoundBy M (processCallUser M fIdx createIdx c s j callee args nt)
      fIdx := by
  simp only [processCallUser]
  set M1 := if canEscapeThroughCall c (M.funcAt fIdx) callee args nt
    then M.setAllCallsitesKnown fIdx false else M with hM1
  have hM1cta : ∀ j', M1.callTargetAt j' = M.callTargetAt j' := by
    rw [hM1]
    split <;> intro j' <;> rfl
  have hM1cc : M1.createCodeAt createIdx = some fIdx := by
    rw [hM1]
    split <;> exact hCC
  split
  · split
    · next fc sc heq =>
        have hfc : fc = fIdx := by
          unfold Module.createCodeAt at hM1cc
          rw [heq] at hM1cc
          exact Option.some.inj hM1cc
        subst hfc
        exact targetsBoundBy_trans (targetsBoundBy_of_ctaEq hM1cta fc)
          (targetsBoundBy_registerCallsite M1 j fc s)
    · exact targetsBoundBy_of_ctaEq hM1cta fIdx
  · exact targetsBoundBy_of_ctaEq hM1cta fIdx

theorem tbb_processClosureUser (M : Module) (fIdx createIdx c : Nat)
    (s : Option Nat) (j : Nat) (hCC : M.createCodeAt createIdx = some fIdx) :
    targetsBoundBy M (processClosureUser M fIdx createIdx c s j).1 fIdx := by
  simp only [processClosureUser]
  split
  · exact tbb_processCallUser M fIdx createIdx c s j _ _ _ hCC
  · exact targetsBoundBy_refl M fIdx
  · split
    · exact targetsBoundBy_of_ctaEq (fun j' => cta_replaceAllUsesWith M j _ j')
        fIdx
    · exact targetsBoundBy_refl M fIdx
  · exact targetsBoundBy_refl M fIdx
  · split
    · exact targetsBoundBy_refl M fIdx
    · exact targetsBoundBy_of_ctaEq (fun _ => rfl) fIdx
  · split
    · exact targetsBoundBy_of_ctaEq (fun _ => rfl) fIdx
    · exact targetsBoundBy_refl M fIdx
  · exact targetsBoundBy_of_ctaEq (fun _ => rfl) fIdx

theorem tbb_processClosureUsersAux (fIdx createIdx c : Nat) (s : Option Nat)
    (users : List Nat) :
    ∀ (acc : Module × List WLItem),
      acc.1.createCodeAt createIdx = some fIdx →
      targetsBoundBy acc.1
        (processClosureUsersAux fIdx createIdx c s users acc).1 fIdx := by
  induction users with
  | nil => intro acc _; exact targetsBoundBy_refl acc.1 fIdx
  | cons j rest ih =>
      intro acc hCC
      simp only [processClosureUsersAux]
      have hstep := tbb_processClosureUser acc.1 fIdx createIdx c s j hCC
      have hCC' : (processClosureUser acc.1 fIdx createIdx c s j).1.createCodeAt
          createIdx = some fIdx := by
        rw [createCodeAt_congr (skelEq_processClosureUser acc.1 fIdx createIdx
          c s j) createIdx]
        exact hCC
      exact targetsBoundBy_trans hstep (ih _ hCC')

theorem tbb_closureWorklistLoop (fIdx createIdx : Nat) (fuel : Nat) :
    ∀ (M : Module) (wl : List WLItem) (vis : List Nat),
      M.createCodeAt createIdx = some fIdx →
      targetsBoundBy M (closureWorklistLoop fIdx createIdx fuel M wl vis)
        fIdx := by
  induction fuel with
  | zero => intro M wl vis _; exact targetsBoundBy_refl M fIdx
  | succ fuel ih =>
      intro M wl vis hCC
      cases wl with
      | nil => exact targetsBoundBy_refl M fIdx
      | cons item rest =>
          simp only [closureWorklistLoop]
          split
          · exact ih M rest vis hCC
          · have hstep := tbb_processClosureUsersAux fIdx createIdx
              item.closure item.scope (M.usersOf (.inst item.closure))
              (M, []) hCC
            have hCC' : (processClosureUsersAux fIdx createIdx item.closure
                item.scope (M.usersOf (.inst item.closure))
                (M, [])).1.createCodeAt createIdx = some fIdx := by
              rw [createCodeAt_congr (skelEq_processClosureUsersAux fIdx
                createIdx item.closure item.scope _ (M, [])) createIdx]
              exact hCC
            exact targetsBoundBy_trans hstep (ih _ _ _ hCC')

theorem createCode_of_funcUser (M : Module) (f j : Nat)
    (hj : j ∈ M.usersOf (.func f)) :
    M.createCodeAt j = none ∨ M.createCodeAt j = some f := by
  unfold Module.usersOf at hj
  rw [List.mem_filter, decide_eq_true_eq] at hj
  have hmem := hj.2
  unfold Module.createCodeAt
  cases hI : M.instAt j with
  | createCallable fc sc =>
      rw [hI] at hmem
      unfold Inst.operands at hmem
      rw [List.mem_cons, List.mem_singleton] at hmem
      rcases hmem with hmem | hmem
      · exact Or.inr (by rw [IRValue.func.injEq] at hmem; rw [hmem])
      · exact absurd hmem (by simp)
  | _ => exact Or.inl rfl

theorem tbb_analyzeCreateCallable (M : Module) (f j : Nat)
    (hCC : M.createCodeAt j = none ∨ M.createCodeAt j = some f) :
    targetsBoundBy M (analyzeCreateCallable M j) f := by
  simp only [analyzeCreateCallable]
  split
  · next fc sc heq =>
      have hcc : M.createCodeAt j = some fc := by
        unfold Module.createCodeAt
        rw [heq]
      rcases hCC with hCC | hCC
      · rw [hcc] at hCC
        exact Option.noConfusion hCC
      · rw [hcc] at hCC
        have hfc : fc = f := Option.some.inj hCC
        subst hfc
        exact tbb_closureWorklistLoop fc j _ M _ [] hcc
  · exact targetsBoundBy_refl M f

theorem tbb_processFunctionUser (M : Module) (f j : Nat)
    (hCC : M.createCodeAt j = none ∨ M.createCodeAt j = some f) :
    targetsBoundBy M (processFunctionUser M f j) f := by
  simp only [processFunctionUser]
  split
  · exact tbb_analyzeCreateCallable M f j hCC
  · exact targetsBoundBy_refl M f
  · exact targetsBoundBy_of_ctaEq (fun _ => rfl) f

theorem tbb_foldFunctionUsers (f : Nat) (users : List Nat) :
    ∀ (M : Module),
      (∀ j ∈ users, M.createCodeAt j = none ∨ M.createCodeAt j = some f) →
      targetsBoundBy M
        (users.foldl (fun acc j => processFunctionUser acc f j) M) f := by
  induction users with
  | nil => intro M _; exact targetsBoundBy_refl M f
  | cons j rest ih =>
      intro M hCC
      simp only [List.foldl_cons]
      have hstep := tbb_processFunctionUser M f j (hCC j (by simp))
      have hCC' : ∀ j' ∈ rest,
          (processFunctionUser M f j).createCodeAt j' = none ∨
          (processFunctionUser M f j).createCodeAt j' = some f := by
        intro j' hj'
        rw [createCodeAt_congr (skelEq_processFunctionUser M f j) j']
        exact hCC j' (by simp [hj'])
      exact targetsBoundBy_trans hstep (ih _ hCC')

theorem tbb_analyzeFunctionCallsites (M : Module) (f : Nat) :
    targetsBoundBy M (analyzeFunctionCallsites M f) f := by
  simp only [analyzeFunctionCallsites]
  set M1 := M.setAllCallsitesKnown f true with hM1
  set M2 := if (M1.funcAt f).isGlobalScope then
      M1.setAllCallsitesKnown f false else M1 with hM2
  have h12 : ∀ j, M2.callTargetAt j = M.callTargetAt j := by
    rw [hM2]
    split <;> intro j <;> rfl
  have hfold := tbb_foldFunctionUsers f (M2.usersOf (.func f)) M2
    (fun j hj => createCode_of_funcUser M2 f j hj)
  have hcomb := targetsBoundBy_trans (targetsBoundBy_of_ctaEq h12 f) hfold
  split
  · exact targetsBoundBy_trans hcomb
      (targetsBoundBy_of_ctaEq (fun _ => rfl) f)
  · exact hcomb

theorem tbw_of_tbb {a b : Module} {f : Nat} {fns : List Nat}
    (hmem : f ∈ fns) (h : targetsBoundBy a b f) :
    targetsBoundWithin a b fns := by
  intro j
  rcases h j with hj | ⟨ha, hb⟩
  · exact Or.inl hj
  · exact Or.inr ⟨ha, f, hmem, hb⟩

theorem tbw_trans {a b c : Module} {fns : List Nat}
    (h1 : targetsBoundWithin a b fns) (h2 : targetsBoundWithin b c fns) :
    targetsBoundWithin a c fns := by
  intro j
  rcases h2 j with h2j | ⟨hb, g, hg, hc⟩
  · rcases h1 j with h1j | ⟨ha, g, hg, hb'⟩
    · exact Or.inl (h2j.trans h1j)
    · exact Or.inr ⟨ha, g, hg, h2j.trans hb'⟩
  · rcases h1 j with h1j | ⟨ha, g', hg', hb'⟩
    · exact Or.inr ⟨h1j ▸ hb, g, hg, hc⟩
    · rw [hb'] at hb
      exact Option.noConfusion hb

theorem tbw_mono {a b : Module} {fns fns' : List Nat}
    (hsub : ∀ g ∈ fns, g ∈ fns') (h : targetsBoundWithin a b fns) :
    targetsBoundWithin a b fns' := by
  intro j
  rcases h j with hj | ⟨ha, g, hg, hb⟩
  · exact Or.inl hj
  · exact Or.inr ⟨ha, g, hsub g hg, hb⟩

theorem tbw_foldAnalyze (fns : List Nat) :
    ∀ (M : Module),
      targetsBoundWithin M (fns.foldl analyzeFunctionCallsites M) fns := by
  induction fns with
  | nil => intro M j; exact Or.inl rfl
  | cons f rest ih =>
      intro M
      simp only [List.foldl_cons]
      have hstep : targetsBoundWithin M (analyzeFunctionCallsites M f)
          (f :: rest) :=
        tbw_of_tbb (by simp) (tbb_analyzeFunctionCallsites M f)
      have hrest : targetsBoundWithin (analyzeFunctionCallsites M f)
          (rest.foldl analyzeFunctionCallsites (analyzeFunctionCallsites M f))
          (f :: rest) :=
        tbw_mono (fun g hg => by simp [hg]) (ih _)
      exact tbw_trans hstep hrest

/-! ### Relational utilities: `relVal`, `relScope`, `relEnv` -/

theorem relVal_refl (sk : Nat → Bool) (v : IRValue) : relVal sk v v :=
  Or.inl rfl

theorem relVal_stable_iff {sk : Nat → Bool} {v w u : IRValue}
    (h : relVal sk v w) (hu : stableVal sk u) : v = u ↔ w = u := by
  rcases h with rfl | ⟨x, y, rfl, rfl, hx, hy⟩
  · exact Iff.rfl
  · constructor
    · rintro rfl
      simp only [stableVal] at hu
      rw [hu] at hx
      exact Bool.noConfusion hx
    · rintro rfl
      simp only [stableVal] at hu
      rw [hu] at hy
      exact Bool.noConfusion hy

theorem relVal_func_iff {sk : Nat → Bool} {v w : IRValue}
    (h : relVal sk v w) (f : Nat) : v = .func f ↔ w = .func f := by
  rcases h with rfl | ⟨x, y, rfl, rfl, _, _⟩
  · exact Iff.rfl
  · constructor <;> (intro h'; exact IRValue.noConfusion h')

theorem stableVal_ne_func {sk : Nat → Bool} {u : IRValue}
    (hu : stableVal sk u) (f : Nat) : u ≠ IRValue.func f := by
  cases u <;> simp_all [stableVal]

theorem stableVal_ne_empty {sk : Nat → Bool} {u : IRValue}
    (hu : stableVal sk u) : u ≠ IRValue.empty := by
  cases u <;> simp_all [stableVal]

theorem stableVal_not_inst_sk {sk : Nat → Bool} {u : IRValue} {x : Nat}
    (hu : stableVal sk u) (hx : sk x = true) : u ≠ IRValue.inst x := by
  cases u with
  | inst c =>
      simp only [stableVal] at hu
      intro h'
      rw [IRValue.inst.injEq] at h'
      rw [h', hx] at hu
      exact Bool.noConfusion hu
  | var v => intro h'; exact IRValue.noConfusion h'
  | func f => simp [stableVal] at hu
  | lit n => simp [stableVal] at hu
  | empty => simp [stableVal] at hu

/-- Membership of a value that is preserved pointwise by `relVal` transfers
along `Forall₂`. -/
theorem forall2_mem_iff {sk : Nat → Bool} {u : IRValue}
    (hu : ∀ {v w : IRValue}, relVal sk v w → (v = u ↔ w = u)) :
    ∀ {xs ys : List IRValue}, List.Forall₂ (relVal sk) xs ys →
      (u ∈ xs ↔ u ∈ ys) := by
  intro xs ys h
  induction h with
  | nil => exact Iff.rfl
  | cons hxy _ ih =>
      have hx := eq_comm.trans ((hu hxy).trans eq_comm)
      simp only [List.mem_cons]
      rw [hx, ih]

theorem forall2_append {α β : Type} {r : α → β → Prop} :
    ∀ {a b : List α} {u v : List β}, List.Forall₂ r a u → List.Forall₂ r b v →
      List.Forall₂ r (a ++ b) (u ++ v) := by
  intro a b u v h1 h2
  induction h1 with
  | nil => exact h2
  | cons hxy _ ih => exact List.Forall₂.cons hxy ih

theorem relVal_subst_left {sk : Nat → Bool} {v w : IRValue}
    (h : relVal sk v w) (g σ : Nat) (hg : sk g = true) (hσ : sk σ = true) :
    relVal sk (v.subst g σ) w := by
  rcases h with rfl | ⟨x, y, rfl, rfl, hx, hy⟩
  · unfold IRValue.subst
    split
    · next heq => exact Or.inr ⟨σ, g, rfl, heq, hσ, hg⟩
    · exact Or.inl rfl
  · unfold IRValue.subst
    split
    · exact Or.inr ⟨σ, y, rfl, rfl, hσ, hy⟩
    · exact Or.inr ⟨x, y, rfl, rfl, hx, hy⟩

theorem relVal_subst_right {sk : Nat → Bool} {v w : IRValue}
    (h : relVal sk v w) (g σ : Nat) (hg : sk g = true) (hσ : sk σ = true) :
    relVal sk v (w.subst g σ) := by
  rcases h with rfl | ⟨x, y, rfl, rfl, hx, hy⟩
  · unfold IRValue.subst
    split
    · next heq => exact Or.inr ⟨g, σ, heq, rfl, hg, hσ⟩
    · exact Or.inl rfl
  · unfold IRValue.subst
    split
    · exact Or.inr ⟨x, σ, rfl, rfl, hx, hσ⟩
    · exact Or.inr ⟨x, y, rfl, rfl, hx, hy⟩

theorem relScope_subst_left {sk : Nat → Bool} {s t : Nat}
    (h : relScope sk s t) (g σ : Nat) (hσ : sk σ = true) :
    relScope sk (substScopeRef g σ s) t := by
  unfold substScopeRef
  split
  · exact ⟨hσ, h.2⟩
  · exact h

theorem relScope_subst_right {sk : Nat → Bool} {s t : Nat}
    (h : relScope sk s t) (g σ : Nat) (hσ : sk σ = true) :
    relScope sk s (substScopeRef g σ t) := by
  unfold substScopeRef
  split
  · exact ⟨h.1, hσ⟩
  · exact h

theorem relEnv_subst_left {sk : Nat → Bool} {e₁ e₂ : Option Nat}
    (h : relEnv sk e₁ e₂) (g σ : Nat) (hσ : sk σ = true) :
    relEnv sk (e₁.map (substScopeRef g σ)) e₂ := by
  refine ⟨?_, h.2⟩
  intro x hx
  cases e₁ with
  | none => exact Option.noConfusion hx
  | some e =>
      have hx' : substScopeRef g σ e = x := by simpa using hx
      rw [← hx']
      unfold substScopeRef
      split
      · exact hσ
      · exact h.1 e rfl

theorem relEnv_subst_right {sk : Nat → Bool} {e₁ e₂ : Option Nat}
    (h : relEnv sk e₁ e₂) (g σ : Nat) (hσ : sk σ = true) :
    relEnv sk e₁ (e₂.map (substScopeRef g σ)) := by
  refine ⟨h.1, ?_⟩
  intro x hx
  cases e₂ with
  | none => exact Option.noConfusion hx
  | some e =>
      have hx' : substScopeRef g σ e = x := by simpa using hx
      rw [← hx']
      unfold substScopeRef
      split
      · exact hσ
      · exact h.2 e rfl

theorem isScopeKindInst_subst (g σ : Nat) (I : Inst) :
    isScopeKindInst (I.subst g σ) = isScopeKindInst I := by
  cases I <;> rfl

theorem isScopeKindInst_eq_of_relInst {sk : Nat → Bool} {I₁ I₂ : Inst}
    (h : relInst sk I₁ I₂) : isScopeKindInst I₁ = isScopeKindInst I₂ := by
  cases I₁ <;> cases I₂ <;> first | rfl | exact h.elim

theorem Inst.isCall_eq_of_relInst {sk : Nat → Bool} {I₁ I₂ : Inst}
    (h : relInst sk I₁ I₂) : I₁.isCall = I₂.isCall := by
  cases I₁ <;> cases I₂ <;> first | rfl | exact h.elim

theorem relInst_subst_left {sk : Nat → Bool} {I₁ I₂ : Inst}
    (h : relInst sk I₁ I₂) (g σ : Nat) (hg : sk g = true)
    (hσ : sk σ = true) : relInst sk (I₁.subst g σ) I₂ := by
  cases I₁ <;> cases I₂ <;> try exact h.elim
  case createCallable.createCallable =>
      exact ⟨h.1, relScope_subst_left h.2 g σ hσ⟩
  case call.call =>
      exact ⟨relVal_subst_left h.1 g σ hg hσ,
        List.forall₂_map_left_iff.mpr
          (List.Forall₂.imp (fun _ _ hab => relVal_subst_left hab g σ hg hσ)
            h.2.1),
        relVal_subst_left h.2.2.1 g σ hg hσ,
        relEnv_subst_left h.2.2.2 g σ hσ⟩
  case getClosureScope.getClosureScope =>
      exact relVal_subst_left h g σ hg hσ
  case unionNarrowTrusted.unionNarrowTrusted =>
      exact relVal_subst_left h g σ hg hσ
  case checkedTypeCast.checkedTypeCast =>
      exact ⟨relVal_subst_left h.1 g σ hg hσ, h.2⟩
  case storeFrame.storeFrame =>
      exact ⟨relVal_subst_left h.1 g σ hg hσ, h.2.1,
        relScope_subst_left h.2.2 g σ hσ⟩
  case loadFrame.loadFrame =>
      exact ⟨h.1, relScope_subst_left h.2 g σ hσ⟩
  case constructionSetup.constructionSetup =>
      exact relVal_subst_left h g σ hg hσ
  case scopeCreate.scopeCreate =>
      exact List.forall₂_map_left_iff.mpr
        (List.Forall₂.imp (fun _ _ hab => relVal_subst_left hab g σ hg hσ) h)
  case other.other =>
      exact List.forall₂_map_left_iff.mpr
        (List.Forall₂.imp (fun _ _ hab => relVal_subst_left hab g σ hg hσ) h)

theorem relInst_subst_right {sk : Nat → Bool} {I₁ I₂ : Inst}
    (h : relInst sk I₁ I₂) (g σ : Nat) (hg : sk g = true)
    (hσ : sk σ = true) : relInst sk I₁ (I₂.subst g σ) := by
  cases I₁ <;> cases I₂ <;> try exact h.elim
  case createCallable.createCallable =>
      exact ⟨h.1, relScope_subst_right h.2 g σ hσ⟩
  case call.call =>
      exact ⟨relVal_subst_right h.1 g σ hg hσ,
        List.forall₂_map_right_iff.mpr
          (List.Forall₂.imp (fun _ _ hab => relVal_subst_right hab g σ hg hσ)
            h.2.1),
        relVal_subst_right h.2.2.1 g σ hg hσ,
        relEnv_subst_right h.2.2.2 g σ hσ⟩
  case getClosureScope.getClosureScope =>
      exact relVal_subst_right h g σ hg hσ
  case unionNarrowTrusted.unionNarrowTrusted =>
      exact relVal_subst_right h g σ hg hσ
  case checkedTypeCast.checkedTypeCast =>
      exact ⟨relVal_subst_right h.1 g σ hg hσ, h.2⟩
  case storeFrame.storeFrame =>
      exact ⟨relVal_subst_right h.1 g σ hg hσ, h.2.1,
        relScope_subst_right h.2.2 g σ hσ⟩
  case loadFrame.loadFrame =>
      exact ⟨h.1, relScope_subst_right h.2 g σ hσ⟩
  case constructionSetup.constructionSetup =>
      exact relVal_subst_right h g σ hg hσ
  case scopeCreate.scopeCreate =>
      exact List.forall₂_map_right_iff.mpr
        (List.Forall₂.imp (fun _ _ hab => relVal_subst_right hab g σ hg hσ) h)
  case other.other =>
      exact List.forall₂_map_right_iff.mpr
        (List.Forall₂.imp (fun _ _ hab => relVal_subst_right hab g σ hg hσ) h)

theorem mem_call_operands_stable {sk : Nat → Bool} {u : IRValue}
    (hu : stableVal sk u) (callee : IRValue) (t e : Option Nat)
    (henv : ∀ x, e = some x → sk x = true) (args : List IRValue)
    (nt : IRValue) :
    u ∈ (Inst.call callee t e args nt).operands ↔
      (u = callee ∨ u ∈ args ∨ u = nt) := by
  cases t with
  | none =>
      cases e with
      | none =>
          simp [Inst.operands, stableVal_ne_empty hu, stableVal_ne_func hu]
      | some x =>
          simp [Inst.operands, stableVal_ne_empty hu, stableVal_ne_func hu,
            stableVal_not_inst_sk hu (henv x rfl)]
  | some tf =>
      cases e with
      | none =>
          simp [Inst.operands, stableVal_ne_empty hu, stableVal_ne_func hu]
      | some x =>
          simp [Inst.operands, stableVal_ne_empty hu, stableVal_ne_func hu,
            stableVal_not_inst_sk hu (henv x rfl)]

theorem relInst_operand_mem_iff {sk : Nat → Bool} {I₁ I₂ : Inst}
    (h : relInst sk I₁ I₂) {u : IRValue} (hu : stableVal sk u) :
    u ∈ I₁.operands ↔ u ∈ I₂.operands := by
  cases I₁ <;> cases I₂ <;> try exact h.elim
  case createCallable.createCallable f₁ s₁ f₂ s₂ =>
      obtain ⟨rfl, hs⟩ := h
      simp only [Inst.operands, List.mem_cons, List.not_mem_nil, or_false]
      constructor
      · rintro (rfl | rfl)
        · exact Or.inl rfl
        · exact absurd rfl (stableVal_not_inst_sk hu hs.1)
      · rintro (rfl | rfl)
        · exact Or.inl rfl
        · exact absurd rfl (stableVal_not_inst_sk hu hs.2)
  case call.call c₁ t₁ e₁ a₁ n₁ c₂ t₂ e₂ a₂ n₂ =>
      obtain ⟨hc, ha, hn, he⟩ := h
      rw [mem_call_operands_stable hu c₁ t₁ e₁ he.1 a₁ n₁,
        mem_call_operands_stable hu c₂ t₂ e₂ he.2 a₂ n₂,
        eq_comm.trans ((relVal_stable_iff hc hu).trans eq_comm),
        eq_comm.trans ((relVal_stable_iff hn hu).trans eq_comm),
        forall2_mem_iff (fun hvw => relVal_stable_iff hvw hu) ha]
  case getClosureScope.getClosureScope v₁ v₂ =>
      simp only [Inst.operands, List.mem_singleton]
      exact eq_comm.trans ((relVal_stable_iff h hu).trans eq_comm)
  case unionNarrowTrusted.unionNarrowTrusted v₁ v₂ =>
      simp only [Inst.operands, List.mem_singleton]
      exact eq_comm.trans ((relVal_stable_iff h hu).trans eq_comm)
  case checkedTypeCast.checkedTypeCast v₁ b₁ v₂ b₂ =>
      simp only [Inst.operands, List.mem_singleton]
      exact eq_comm.trans ((relVal_stable_iff h.1 hu).trans eq_comm)
  case storeFrame.storeFrame v₁ x₁ s₁ v₂ x₂ s₂ =>
      obtain ⟨hv, rfl, hs⟩ := h
      simp only [Inst.operands, List.mem_cons, List.not_mem_nil, or_false]
      rw [eq_comm.trans ((relVal_stable_iff hv hu).trans eq_comm)]
      constructor
      · rintro (hm | rfl | rfl)
        · exact Or.inl hm
        · exact Or.inr (Or.inl rfl)
        · exact absurd rfl (stableVal_not_inst_sk hu hs.1)
      · rintro (hm | rfl | rfl)
        · exact Or.inl hm
        · exact Or.inr (Or.inl rfl)
        · exact absurd rfl (stableVal_not_inst_sk hu hs.2)
  case loadFrame.loadFrame x₁ s₁ x₂ s₂ =>
      obtain ⟨rfl, hs⟩ := h
      simp only [Inst.operands, List.mem_cons, List.not_mem_nil, or_false]
      constructor
      · rintro (rfl | rfl)
        · exact Or.inl rfl
        · exact absurd rfl (stableVal_not_inst_sk hu hs.1)
      · rintro (rfl | rfl)
        · exact Or.inl rfl
        · exact absurd rfl (stableVal_not_inst_sk hu hs.2)
  case constructionSetup.constructionSetup v₁ v₂ =>
      simp only [Inst.operands, List.mem_singleton]
      exact eq_comm.trans ((relVal_stable_iff h hu).trans eq_comm)
  case scopeCreate.scopeCreate vs₁ vs₂ =>
      simp only [Inst.operands]
      exact forall2_mem_iff (fun hvw => relVal_stable_iff hvw hu) h
  case other.other vs₁ vs₂ =>
      simp only [Inst.operands]
      exact forall2_mem_iff (fun hvw => relVal_stable_iff hvw hu) h

theorem Inst.isCall_of_targetOf {I : Inst} {f : Nat}
    (h : I.targetOf = some f) : I.isCall = true := by
  cases I <;> first | rfl | exact Option.noConfusion h

theorem Module.callTargetAt_eq_targetOf (M : Module) (j : Nat) :
    M.callTargetAt j = (M.instAt j).targetOf := by
  unfold Module.callTargetAt Inst.targetOf
  cases M.instAt j <;> rfl

theorem func_mem_call_operands (f : Nat) (callee : IRValue) (t e : Option Nat)
    (args : List IRValue) (nt : IRValue) :
    IRValue.func f ∈ (Inst.call callee t e args nt).operands ↔
      (t = some f ∨
        (IRValue.func f = callee ∨ IRValue.func f ∈ args ∨
          IRValue.func f = nt)) := by
  cases t with
  | none =>
      cases e with
      | none => simp [Inst.operands]
      | some x => simp [Inst.operands]
  | some tf =>
      cases e with
      | none =>
          simp only [Inst.operands, List.mem_cons, List.mem_append,
            List.mem_singleton, List.not_mem_nil, or_false,
            Option.some.injEq, IRValue.func.injEq]
          constructor
          · rintro (hm | hm | hm | hm | hm)
            · exact Or.inr (Or.inl hm)
            · exact Or.inl hm.symm
            · exact absurd hm (by simp)
            · exact Or.inr (Or.inr (Or.inl hm))
            · exact Or.inr (Or.inr (Or.inr hm))
          · rintro (hm | hm | hm | hm)
            · exact Or.inr (Or.inl hm.symm)
            · exact Or.inl hm
            · exact Or.inr (Or.inr (Or.inr (Or.inl hm)))
            · exact Or.inr (Or.inr (Or.inr (Or.inr hm)))
      | some x =>
          simp only [Inst.operands, List.mem_cons, List.mem_append,
            List.mem_singleton, List.not_mem_nil, or_false,
            Option.some.injEq, IRValue.func.injEq]
          constructor
          · rintro (hm | hm | hm | hm | hm)
            · exact Or.inr (Or.inl hm)
            · exact Or.inl hm.symm
            · exact absurd hm (by simp)
            · exact Or.inr (Or.inr (Or.inl hm))
            · exact Or.inr (Or.inr (Or.inr hm))
          · rintro (hm | hm | hm | hm)
            · exact Or.inr (Or.inl hm.symm)
            · exact Or.inl hm
            · exact Or.inr (Or.inr (Or.inr (Or.inl hm)))
            · exact Or.inr (Or.inr (Or.inr (Or.inr hm)))

theorem func_mem_decomp_of_memIff {I₁ I₂ : Inst} (h₁ : I₁.targetOf = none)
    (h₂ : I₂.targetOf = none) (f : Nat)
    (hm : (IRValue.func f ∈ I₁.operands) ↔ (IRValue.func f ∈ I₂.operands)) :
    ∃ C : Prop,
      ((IRValue.func f ∈ I₁.operands) ↔ (I₁.targetOf = some f ∨ C)) ∧
      ((IRValue.func f ∈ I₂.operands) ↔ (I₂.targetOf = some f ∨ C)) := by
  refine ⟨IRValue.func f ∈ I₁.operands, ?_, ?_⟩
  · rw [h₁]
    simp
  · rw [h₂, hm]
    simp

/-- `.func f` occurs as an operand of `I₁` iff it is `I₁`'s bound call target
or a shared non-target occurrence `C`, and symmetrically for `I₂` with the
same `C`. -/
theorem relInst_func_mem_decomp {sk : Nat → Bool} {I₁ I₂ : Inst}
    (h : relInst sk I₁ I₂) (f : Nat) :
    ∃ C : Prop,
      ((IRValue.func f ∈ I₁.operands) ↔ (I₁.targetOf = some f ∨ C)) ∧
      ((IRValue.func f ∈ I₂.operands) ↔ (I₂.targetOf = some f ∨ C)) := by
  cases I₁ <;> cases I₂ <;> try exact h.elim
  case call.call c₁ t₁ e₁ a₁ n₁ c₂ t₂ e₂ a₂ n₂ =>
      obtain ⟨hc, ha, hn, he⟩ := h
      refine ⟨IRValue.func f = c₁ ∨ IRValue.func f ∈ a₁ ∨
        IRValue.func f = n₁, func_mem_call_operands f c₁ t₁ e₁ a₁ n₁, ?_⟩
      rw [func_mem_call_operands f c₂ t₂ e₂ a₂ n₂,
        show (IRValue.func f = c₂) ↔ (IRValue.func f = c₁) from
          eq_comm.trans (((relVal_func_iff hc f).symm).trans eq_comm),
        show (IRValue.func f ∈ a₂) ↔ (IRValue.func f ∈ a₁) from
          (forall2_mem_iff (fun hvw => relVal_func_iff hvw f) ha).symm,
        show (IRValue.func f = n₂) ↔ (IRValue.func f = n₁) from
          eq_comm.trans (((relVal_func_iff hn f).symm).trans eq_comm)]
      exact Iff.rfl
  case createCallable.createCallable f₁ s₁ f₂ s₂ =>
      obtain ⟨rfl, hs⟩ := h
      refine func_mem_decomp_of_memIff ?_ ?_ f (by simp [Inst.operands])
      · rfl
      · rfl
  case getClosureScope.getClosureScope v₁ v₂ =>
      refine func_mem_decomp_of_memIff ?_ ?_ f ?_
      · rfl
      · rfl
      · simp only [Inst.operands, List.mem_singleton]
        exact eq_comm.trans ((relVal_func_iff h f).trans eq_comm)
  case unionNarrowTrusted.unionNarrowTrusted v₁ v₂ =>
      refine func_mem_decomp_of_memIff ?_ ?_ f ?_
      · rfl
      · rfl
      · simp only [Inst.operands, List.mem_singleton]
        exact eq_comm.trans ((relVal_func_iff h f).trans eq_comm)
  case checkedTypeCast.checkedTypeCast v₁ b₁ v₂ b₂ =>
      refine func_mem_decomp_of_memIff ?_ ?_ f ?_
      · rfl
      · rfl
      · simp only [Inst.operands, List.mem_singleton]
        exact eq_comm.trans ((relVal_func_iff h.1 f).trans eq_comm)
  case storeFrame.storeFrame v₁ x₁ s₁ v₂ x₂ s₂ =>
      obtain ⟨hv, rfl, hs⟩ := h
      refine func_mem_decomp_of_memIff ?_ ?_ f ?_
      · rfl
      · rfl
      · simp only [Inst.operands, List.mem_cons, List.not_mem_nil, or_false]
        rw [eq_comm.trans ((relVal_func_iff hv f).trans eq_comm)]
        simp
  case loadFrame.loadFrame x₁ s₁ x₂ s₂ =>
      obtain ⟨rfl, hs⟩ := h
      refine func_mem_decomp_of_memIff ?_ ?_ f (by simp [Inst.operands])
      · rfl
      · rfl
  case constructionSetup.constructionSetup v₁ v₂ =>
      refine func_mem_decomp_of_memIff ?_ ?_ f ?_
      · rfl
      · rfl
      · simp only [Inst.operands, List.mem_singleton]
        exact eq_comm.trans ((relVal_func_iff h f).trans eq_comm)
  case scopeCreate.scopeCreate vs₁ vs₂ =>
      refine func_mem_decomp_of_memIff ?_ ?_ f ?_
      · rfl
      · rfl
      · simp only [Inst.operands]
        exact forall2_mem_iff (fun hvw => relVal_func_iff hvw f) h
  case other.other vs₁ vs₂ =>
      refine func_mem_decomp_of_memIff ?_ ?_ f ?_
      · rfl
      · rfl
      · simp only [Inst.operands]
        exact forall2_mem_iff (fun hvw => relVal_func_iff hvw f) h

/-! ### Module-level `REL` preservation and transfer lemmas -/

theorem staticEq_trans {F G H : IRFunction} (h1 : staticEq F G)
    (h2 : staticEq G H) : staticEq F H :=
  ⟨h1.1.trans h2.1, h1.2.1.trans h2.2.1, h1.2.2.trans h2.2.2⟩

theorem IRFunction.fields_ext {F G : IRFunction}
    (h1 : F.isGlobalScope = G.isGlobalScope)
    (h2 : F.parentScopeParamHasUsers = G.parentScopeParamHasUsers)
    (h3 : F.newTargetParamHasUsers = G.newTargetParamHasUsers)
    (h4 : F.allCallsitesKnownInStrictMode = G.allCallsitesKnownInStrictMode)
    (h5 : F.unreachable = G.unreachable) : F = G := by
  cases F
  cases G
  simp_all

theorem funcs_length_setFunc (M : Module) (f : Nat) (F : IRFunction) :
    (M.setFunc f F).funcs.length = M.funcs.length := by
  unfold Module.setFunc
  simp [List.length_set]

theorem REL.compat₂ {sk : Nat → Bool} {A B : Module} (h : REL sk A B)
    (i : Nat) : sk i = isScopeKindInst (B.instAt i) := by
  rw [h.compat i]
  exact isScopeKindInst_eq_of_relInst (h.insts i)

theorem REL_setFunc_left {sk : Nat → Bool} {A B : Module} (h : REL sk A B)
    (f : Nat) (F : IRFunction) (hF : staticEq F (A.funcAt f)) :
    REL sk (A.setFunc f F) B := by
  refine ⟨(funcs_length_setFunc A f F).trans h.funcsLen, ?_, h.instsLen,
    h.insts, h.compat⟩
  intro g
  rw [Module.funcAt_setFunc]
  split
  · next hfg =>
      rw [← hfg.1]
      exact staticEq_trans hF (hfg.1 ▸ h.statics g)
  · exact h.statics g

theorem REL_setFunc_right {sk : Nat → Bool} {A B : Module} (h : REL sk A B)
    (f : Nat) (F : IRFunction) (hF : staticEq (B.funcAt f) F) :
    REL sk A (B.setFunc f F) := by
  refine ⟨h.funcsLen.trans (funcs_length_setFunc B f F).symm, ?_, h.instsLen,
    h.insts, h.compat⟩
  intro g
  rw [Module.funcAt_setFunc]
  split
  · next hfg =>
      rw [← hfg.1]
      exact staticEq_trans (hfg.1 ▸ h.statics g) hF
  · exact h.statics g

theorem REL_setAllCallsitesKnown_left {sk : Nat → Bool} {A B : Module}
    (h : REL sk A B) (f : Nat) (b : Bool) :
    REL sk (A.setAllCallsitesKnown f b) B :=
  REL_setFunc_left h f _ ⟨rfl, rfl, rfl⟩

theorem REL_setAllCallsitesKnown_right {sk : Nat → Bool} {A B : Module}
    (h : REL sk A B) (f : Nat) (b : Bool) :
    REL sk A (B.setAllCallsitesKnown f b) :=
  REL_setFunc_right h f _ ⟨rfl, rfl, rfl⟩

theorem REL_setUnreachable_left {sk : Nat → Bool} {A B : Module}
    (h : REL sk A B) (f : Nat) (b : Bool) :
    REL sk (A.setUnreachable f b) B :=
  REL_setFunc_left h f _ ⟨rfl, rfl, rfl⟩

theorem REL_setUnreachable_right {sk : Nat → Bool} {A B : Module}
    (h : REL sk A B) (f : Nat) (b : Bool) :
    REL sk A (B.setUnreachable f b) :=
  REL_setFunc_right h f _ ⟨rfl, rfl, rfl⟩

theorem REL_rauw_left {sk : Nat → Bool} {A B : Module} (h : REL sk A B)
    (g σ : Nat) (hg : sk g = true) (hσ : sk σ = true) :
    REL sk (A.replaceAllUsesWith g σ) B := by
  refine ⟨h.funcsLen, h.statics, ?_, ?_, ?_⟩
  · show (A.insts.map _).length = _
    rw [List.length_map]
    exact h.instsLen
  · intro i
    rw [Module.instAt_replaceAllUsesWith]
    exact relInst_subst_left (h.insts i) g σ hg hσ
  · intro i
    rw [Module.instAt_replaceAllUsesWith, isScopeKindInst_subst]
    exact h.compat i

theorem REL_rauw_right {sk : Nat → Bool} {A B : Module} (h : REL sk A B)
    (g σ : Nat) (hg : sk g = true) (hσ : sk σ = true) :
    REL sk A (B.replaceAllUsesWith g σ) := by
  refine ⟨h.funcsLen, h.statics, ?_, ?_, h.compat⟩
  · show _ = (B.insts.map _).length
    rw [List.length_map]
    exact h.instsLen
  · intro i
    rw [Module.instAt_replaceAllUsesWith]
    exact relInst_subst_right (h.insts i) g σ hg hσ

theorem registerCallsite_noncall (M : Module) (c fc : Nat) (s : Option Nat)
    (h : (M.instAt c).isCall = false) : registerCallsite M c fc s = M := by
  unfold registerCallsite
  split
  · next heq =>
      rw [heq] at h
      exact absurd h (by simp [Inst.isCall])
  · rfl

theorem instAt_registerCallsite (M : Module) (c fc : Nat) (s : Option Nat)
    {callee : IRValue} {target env : Option Nat} {args : List IRValue}
    {nt : IRValue} (hc : M.instAt c = .call callee target env args nt)
    (i : Nat) :
    (registerCallsite M c fc s).instAt i =
      if i = c then
        .call callee
          (match target with | none => some fc | some t => some t)
          (if s.isSome && env.isNone &&
              (M.funcAt fc).parentScopeParamHasUsers
            then s else env)
          args nt
      else M.instAt i := by
  simp only [registerCallsite, hc]
  by_cases hic : i = c
  · subst hic
    rw [if_pos rfl,
      Module.instAt_setInst_self _ _ _ (M.lt_of_instAt_call _ hc)]
    cases target <;> rfl
  · rw [if_neg hic, Module.instAt_setInst_ne _ _ _ _ hic]

theorem insts_length_registerCallsite (M : Module) (c fc : Nat)
    (s : Option Nat) :
    (registerCallsite M c fc s).insts.length = M.insts.length := by
  unfold registerCallsite
  split
  · show (M.insts.set _ _).length = _
    rw [List.length_set]
  · rfl

theorem REL_registerCallsite_left {sk : Nat → Bool} {A B : Module}
    (h : REL sk A B) (c fc : Nat) (s : Option Nat)
    (hs : ∀ x, s = some x → sk x = true) :
    REL sk (registerCallsite A c fc s) B := by
  cases hcall : (A.instAt c).isCall with
  | false => rw [registerCallsite_noncall A c fc s hcall]; exact h
  | true =>
      have hc : ∃ callee target env args nt,
          A.instAt c = .call callee target env args nt := by
        cases hI : A.instAt c <;> rw [hI] at hcall <;>
          first
          | exact Bool.noConfusion hcall
          | exact ⟨_, _, _, _, _, rfl⟩
      obtain ⟨callee, target, env, args, nt, hc⟩ := hc
      refine ⟨(congrArg List.length
          (Module.funcs_registerCallsite A c fc s)).trans h.funcsLen,
        ?_, ?_, ?_, ?_⟩
      · intro g
        rw [Module.funcAt_eq_of_funcs_eq
          (Module.funcs_registerCallsite A c fc s) g]
        exact h.statics g
      · rw [insts_length_registerCallsite]
        exact h.instsLen
      · intro i
        rw [instAt_registerCallsite A c fc s hc i]
        split
        · next hic =>
            subst hic
            have hi := h.insts i
            rw [hc] at hi
            cases hB : B.instAt i <;> rw [hB] at hi <;> try exact hi.elim
            case call c₂ t₂ e₂ a₂ n₂ =>
              obtain ⟨hcv, ha, hn, he⟩ := hi
              refine ⟨hcv, ha, hn, ?_, he.2⟩
              intro x hx
              split at hx
              · exact hs x hx
              · exact he.1 x hx
        · exact h.insts i
      · intro i
        rw [instAt_registerCallsite A c fc s hc i]
        split
        · next hic =>
            subst hic
            rw [h.compat i]
            have h1 : isScopeKindInst (A.instAt i) = false := by
              rw [hc]
              rfl
            rw [h1]
            rfl
        · exact h.compat i

theorem REL_registerCallsite_right {sk : Nat → Bool} {A B : Module}
    (h : REL sk A B) (c fc : Nat) (s : Option Nat)
    (hs : ∀ x, s = some x → sk x = true) :
    REL sk A (registerCallsite B c fc s) := by
  cases hcall : (B.instAt c).isCall with
  | false => rw [registerCallsite_noncall B c fc s hcall]; exact h
  | true =>
      have hc : ∃ callee target env args nt,
          B.instAt c = .call callee target env args nt := by
        cases hI : B.instAt c <;> rw [hI] at hcall <;>
          first
          | exact Bool.noConfusion hcall
          | exact ⟨_, _, _, _, _, rfl⟩
      obtain ⟨callee, target, env, args, nt, hc⟩ := hc
      refine ⟨h.funcsLen.trans (congrArg List.length
          (Module.funcs_registerCallsite B c fc s)).symm, ?_, ?_, ?_,
        h.compat⟩
      · intro g
        rw [Module.funcAt_eq_of_funcs_eq
          (Module.funcs_registerCallsite B c fc s) g]
        exact h.statics g
      · rw [insts_length_registerCallsite]
        exact h.instsLen
      · intro i
        rw [instAt_registerCallsite B c fc s hc i]
        split
        · next hic =>
            subst hic
            have hi := h.insts i
            rw [hc] at hi
            cases hA : A.instAt i <;> rw [hA] at hi <;> try exact hi.elim
            case call c₁ t₁ e₁ a₁ n₁ =>
              obtain ⟨hcv, ha, hn, he⟩ := hi
              refine ⟨hcv, ha, hn, he.1, ?_⟩
              intro x hx
              split at hx
              · exact hs x hx
              · exact he.2 x hx
        · exact h.insts i

theorem ctaSome_refl (M : Module) : ctaSome M M := fun _ _ hv => hv

theorem ctaSome_trans {a b c : Module} (h1 : ctaSome a b) (h2 : ctaSome b c) :
    ctaSome a c := fun j v hv => h2 j v (h1 j v hv)

theorem cta_setFunc (M : Module) (f : Nat) (F : IRFunction) (j : Nat) :
    (M.setFunc f F).callTargetAt j = M.callTargetAt j := rfl

theorem cta_registerCallsite_of_bound (M : Module) (c fc : Nat)
    (s : Option Nat) (hb : M.callTargetAt c ≠ none) (j : Nat) :
    (registerCallsite M c fc s).callTargetAt j = M.callTargetAt j := by
  cases hcall : (M.instAt c).isCall with
  | false => rw [registerCallsite_noncall M c fc s hcall]
  | true =>
      have hc : ∃ callee target env args nt,
          M.instAt c = .call callee target env args nt := by
        cases hI : M.instAt c <;> rw [hI] at hcall <;>
          first
          | exact Bool.noConfusion hcall
          | exact ⟨_, _, _, _, _, rfl⟩
      obtain ⟨callee, target, env, args, nt, hc⟩ := hc
      rw [Module.callTargetAt_eq_targetOf,
        instAt_registerCallsite M c fc s hc j]
      split
      · next hjc =>
          subst hjc
          rw [Module.callTargetAt_eq_targetOf, hc] at hb
          cases target with
          | none => exact absurd rfl hb
          | some t =>
              dsimp only
              rw [Module.callTargetAt_eq_targetOf, hc]
              rfl
      · rw [Module.callTargetAt_eq_targetOf]

theorem cta_registerCallsite_self (M : Module) (c fc : Nat) (s : Option Nat)
    {callee : IRValue} {target env : Option Nat} {args : List IRValue}
    {nt : IRValue} (hc : M.instAt c = .call callee target env args nt) :
    (registerCallsite M c fc s).callTargetAt c
      = some (match target with | none => fc | some t => t) := by
  rw [Module.callTargetAt_eq_targetOf, instAt_registerCallsite M c fc s hc c,
    if_pos rfl]
  cases target <;> rfl

theorem usersOf_eq_of_REL {sk : Nat → Bool} {A B : Module} (h : REL sk A B)
    {u : IRValue} (hu : stableVal sk u) : A.usersOf u = B.usersOf u := by
  unfold Module.usersOf
  rw [h.instsLen]
  exact List.filter_congr fun j _ =>
    decide_eq_decide.mpr (relInst_operand_mem_iff (h.insts j) hu)

theorem isStoreTo_eq_of_relInst {sk : Nat → Bool} {I₁ I₂ : Inst}
    (h : relInst sk I₁ I₂) (v : Nat) : isStoreTo v I₁ = isStoreTo v I₂ := by
  cases I₁ <;> cases I₂ <;> try exact h.elim
  case storeFrame.storeFrame =>
      obtain ⟨_, rfl, _⟩ := h
      rfl
  all_goals rfl

theorem isStoreOnceVariable_eq_of_REL {sk : Nat → Bool} {A B : Module}
    (h : REL sk A B) (v : Nat) :
    isStoreOnceVariable A v = isStoreOnceVariable B v := by
  unfold isStoreOnceVariable
  rw [h.instsLen,
    List.filter_congr fun j _ => isStoreTo_eq_of_relInst (h.insts j) v]

theorem canEscape_eq_of_rel {sk : Nat → Bool} {F G : IRFunction}
    (hFG : staticEq F G) {c : Nat} (hc : sk c = false) {c₁ c₂ : IRValue}
    (h1 : relVal sk c₁ c₂) {a₁ a₂ : List IRValue}
    (ha : List.Forall₂ (relVal sk) a₁ a₂) {n₁ n₂ : IRValue}
    (hn : relVal sk n₁ n₂) :
    canEscapeThroughCall c F c₁ a₁ n₁ = canEscapeThroughCall c G c₂ a₂ n₂ := by
  have hstable : stableVal sk (IRValue.inst c) := by
    simp only [stableVal]
    exact hc
  apply Bool.coe_iff_coe.mp
  rw [canEscape_eq_true_iff, canEscape_eq_true_iff]
  constructor
  · rintro (h | h | ⟨h, hu⟩)
    · exact Or.inl fun heq => h ((relVal_stable_iff h1 hstable).mpr heq)
    · exact Or.inr (Or.inl ((forall2_mem_iff
        (fun hvw => relVal_stable_iff hvw hstable) ha).mp h))
    · exact Or.inr (Or.inr ⟨(relVal_stable_iff hn hstable).mp h,
        hFG.2.2 ▸ hu⟩)
  · rintro (h | h | ⟨h, hu⟩)
    · exact Or.inl fun heq => h ((relVal_stable_iff h1 hstable).mp heq)
    · exact Or.inr (Or.inl ((forall2_mem_iff
        (fun hvw => relVal_stable_iff hvw hstable) ha).mpr h))
    · exact Or.inr (Or.inr ⟨(relVal_stable_iff hn hstable).mpr h,
        hFG.2.2.symm ▸ hu⟩)

/-- Pointwise-synchronised `filterMap`s produce `Forall₂`-related lists. -/
theorem forall2_filterMap {α β γ : Type} {r : β → γ → Prop}
    (fA : α → Option β) (fB : α → Option γ) :
    ∀ l : List α,
      (∀ x ∈ l, (fA x = none ∧ fB x = none) ∨
        ∃ b c, fA x = some b ∧ fB x = some c ∧ r b c) →
      List.Forall₂ r (l.filterMap fA) (l.filterMap fB) := by
  intro l
  induction l with
  | nil => intro _; simp [List.filterMap_nil]
  | cons x rest ih =>
      intro hl
      rcases hl x (by simp) with ⟨hA, hB⟩ | ⟨b, c, hA, hB, hr⟩
      · rw [List.filterMap_cons_none hA, List.filterMap_cons_none hB]
        exact ih fun y hy => hl y (by simp [hy])
      · rw [List.filterMap_cons_some hA, List.filterMap_cons_some hB]
        exact List.Forall₂.cons hr (ih fun y hy => hl y (by simp [hy]))

/-! ### All function-level writes of the user loop target `fIdx` -/

theorem funcsDelta_refl (fIdx : Nat) (M : Module) : funcsDelta fIdx M M :=
  ⟨rfl, fun _ _ => rfl, Or.inl rfl⟩

theorem funcsDelta_trans {fIdx : Nat} {M M' M'' : Module}
    (h1 : funcsDelta fIdx M M') (h2 : funcsDelta fIdx M' M'') :
    funcsDelta fIdx M M'' := by
  refine ⟨h2.1.trans h1.1, fun g hg => (h2.2.1 g hg).trans (h1.2.1 g hg), ?_⟩
  rcases h2.2.2 with h2f | h2f <;> rcases h1.2.2 with h1f | h1f
  · exact Or.inl (h2f.trans h1f)
  · exact Or.inr (h2f.trans h1f)
  · refine Or.inr ?_
    rw [h2f, h1f]
  · refine Or.inr ?_
    rw [h2f, h1f]

theorem funcsDelta_of_funcs_eq {fIdx : Nat} {M M' : Module}
    (h : M'.funcs = M.funcs) : funcsDelta fIdx M M' :=
  ⟨by rw [h], fun g _ => Module.funcAt_eq_of_funcs_eq h g,
    Or.inl (Module.funcAt_eq_of_funcs_eq h fIdx)⟩

theorem funcsDelta_setAttrFalse (M : Module) (fIdx : Nat) :
    funcsDelta fIdx M (M.setAllCallsitesKnown fIdx false) := by
  refine ⟨funcs_length_setAllCallsitesKnown M fIdx false, ?_, ?_⟩
  · intro g hg
    rw [Module.funcAt_setAllCallsitesKnown]
    rw [if_neg fun hand => hg hand.1.symm]
  · rw [Module.funcAt_setAllCallsitesKnown]
    split
    · exact Or.inr rfl
    · exact Or.inl rfl

theorem funcsDelta_processCallUser (M : Module) (fIdx createIdx c : Nat)
    (s : Option Nat) (j : Nat) (callee : IRValue) (args : List IRValue)
    (nt : IRValue) :
    funcsDelta fIdx M (processCallUser M fIdx createIdx c s j callee args nt)
    := by
  simp only [processCallUser]
  have h1 : funcsDelta fIdx M
      (if canEscapeThroughCall c (M.funcAt fIdx) callee args nt
        then M.setAllCallsitesKnown fIdx false else M) := by
    split
    · exact funcsDelta_setAttrFalse M fIdx
    · exact funcsDelta_refl fIdx M
  split
  · split
    · exact funcsDelta_trans h1
        (funcsDelta_of_funcs_eq (Module.funcs_registerCallsite _ _ _ _))
    · exact h1
  · exact h1

theorem funcsDelta_processClosureUser (M : Module) (fIdx createIdx c : Nat)
    (s : Option Nat) (j : Nat) :
    funcsDelta fIdx M (processClosureUser M fIdx createIdx c s j).1 := by
  simp only [processClosureUser]
  split
  · exact funcsDelta_processCallUser M fIdx createIdx c s j _ _ _
  · exact funcsDelta_refl fIdx M
  · split
    · exact funcsDelta_of_funcs_eq (Module.funcs_replaceAllUsesWith _ _ _)
    · exact funcsDelta_refl fIdx M
  · exact funcsDelta_refl fIdx M
  · split
    · exact funcsDelta_refl fIdx M
    · exact funcsDelta_setAttrFalse M fIdx
  · split
    · exact funcsDelta_setAttrFalse M fIdx
    · exact funcsDelta_refl fIdx M
  · exact funcsDelta_setAttrFalse M fIdx

theorem funcsDelta_processClosureUsersAux (fIdx createIdx c : Nat)
    (s : Option Nat) (users : List Nat) :
    ∀ (acc : Module × List WLItem),
      funcsDelta fIdx acc.1
        (processClosureUsersAux fIdx createIdx c s users acc).1 := by
  induction users with
  | nil => intro acc; exact funcsDelta_refl fIdx acc.1
  | cons j rest ih =>
      intro acc
      simp only [processClosureUsersAux]
      exact funcsDelta_trans
        (funcsDelta_processClosureUser acc.1 fIdx createIdx c s j) (ih _)

theorem funcsDelta_closureWorklistLoop (fIdx createIdx : Nat) (fuel : Nat) :
    ∀ (M : Module) (wl : List WLItem) (vis : List Nat),
      funcsDelta fIdx M (closureWorklistLoop fIdx createIdx fuel M wl vis) := by
  induction fuel with
  | zero => intro M wl vis; exact funcsDelta_refl fIdx M
  | succ fuel ih =>
      intro M wl vis
      cases wl with
      | nil => exact funcsDelta_refl fIdx M
      | cons item rest =>
          simp only [closureWorklistLoop]
          split
          · exact ih M rest vis
          · exact funcsDelta_trans
              (funcsDelta_processClosureUsersAux fIdx createIdx item.closure
                item.scope _ (M, []))
              (ih _ _ _)

theorem funcsDelta_analyzeCreateCallable (M : Module) (fIdx createIdx : Nat)
    (hCC : M.createCodeAt createIdx = none ∨
      M.createCodeAt createIdx = some fIdx) :
    funcsDelta fIdx M (analyzeCreateCallable M createIdx) := by
  simp only [analyzeCreateCallable]
  split
  · next fc sc heq =>
      have hcc : M.createCodeAt createIdx = some fc := by
        unfold Module.createCodeAt
        rw [heq]
      rcases hCC with hCC | hCC
      · rw [hcc] at hCC
        exact Option.noConfusion hCC
      · rw [hcc] at hCC
        have hfc : fc = fIdx := Option.some.inj hCC
        subst hfc
        exact funcsDelta_closureWorklistLoop fc createIdx _ M _ []
  · exact funcsDelta_refl fIdx M

theorem funcsDelta_processFunctionUser (M : Module) (fIdx j : Nat)
    (hCC : M.createCodeAt j = none ∨ M.createCodeAt j = some fIdx) :
    funcsDelta fIdx M (processFunctionUser M fIdx j) := by
  simp only [processFunctionUser]
  split
  · exact funcsDelta_analyzeCreateCallable M fIdx j hCC
  · exact funcsDelta_refl fIdx M
  · exact funcsDelta_setAttrFalse M fIdx

theorem funcsDelta_foldFunctionUsers (fIdx : Nat) (users : List Nat) :
    ∀ (M : Module),
      (∀ j ∈ users, M.createCodeAt j = none ∨
        M.createCodeAt j = some fIdx) →
      funcsDelta fIdx M
        (users.foldl (fun acc j => processFunctionUser acc fIdx j) M) := by
  induction users with
  | nil => intro M _; exact funcsDelta_refl fIdx M
  | cons j rest ih =>
      intro M hCC
      simp only [List.foldl_cons]
      refine funcsDelta_trans
        (funcsDelta_processFunctionUser M fIdx j (hCC j (by simp))) (ih _ ?_)
      intro j' hj'
      rw [createCodeAt_congr (skelEq_processFunctionUser M fIdx j) j']
      exact hCC j' (by simp [hj'])

theorem funcs_length_setUnreachable (M : Module) (f : Nat) (b : Bool) :
    (M.setUnreachable f b).funcs.length = M.funcs.length :=
  funcs_length_setFunc M f _

theorem funcAt_analyzeFunctionCallsites_ne (M : Module) (f g : Nat)
    (hg : g ≠ f) :
    (analyzeFunctionCallsites M f).funcAt g = M.funcAt g := by
  simp only [analyzeFunctionCallsites]
  set M1 := M.setAllCallsitesKnown f true with hM1
  set M2 := if (M1.funcAt f).isGlobalScope then
      M1.setAllCallsitesKnown f false else M1 with hM2
  set M3 := (M2.usersOf (.func f)).foldl
    (fun acc j => processFunctionUser acc f j) M2 with hM3
  have h1 : M1.funcAt g = M.funcAt g := by
    rw [hM1, Module.funcAt_setAllCallsitesKnown,
      if_neg fun hand => hg hand.1.symm]
  have h2 : M2.funcAt g = M.funcAt g := by
    rw [hM2]
    split
    · rw [Module.funcAt_setAllCallsitesKnown,
        if_neg fun hand => hg hand.1.symm]
      exact h1
    · exact h1
  have h3 : M3.funcAt g = M.funcAt g := by
    rw [hM3]
    refine ((funcsDelta_foldFunctionUsers f (M2.usersOf (.func f)) M2
      fun j hj => createCode_of_funcUser M2 f j hj).2.1 g hg).trans h2
  split
  · rw [Module.funcAt_setUnreachable, if_neg fun hand => hg hand.1.symm]
    exact h3
  · exact h3

theorem funcs_length_analyzeFunctionCallsites (M : Module) (f : Nat) :
    (analyzeFunctionCallsites M f).funcs.length = M.funcs.length := by
  simp only [analyzeFunctionCallsites]
  set M1 := M.setAllCallsitesKnown f true with hM1
  set M2 := if (M1.funcAt f).isGlobalScope then
      M1.setAllCallsitesKnown f false else M1 with hM2
  set M3 := (M2.usersOf (.func f)).foldl
    (fun acc j => processFunctionUser acc f j) M2 with hM3
  have h1 : M1.funcs.length = M.funcs.length :=
    funcs_length_setAllCallsitesKnown M f true
  have h2 : M2.funcs.length = M.funcs.length := by
    rw [hM2]
    split
    · exact (funcs_length_setAllCallsitesKnown M1 f false).trans h1
    · exact h1
  have h3 : M3.funcs.length = M.funcs.length := by
    rw [hM3]
    exact ((funcsDelta_foldFunctionUsers f (M2.usersOf (.func f)) M2
      fun j hj => createCode_of_funcUser M2 f j hj).1).trans h2
  split
  · exact (funcs_length_setUnreachable M3 f _).trans h3
  · exact h3

theorem funcAt_foldAnalyze_ne (fns : List Nat) :
    ∀ (M : Module) (g : Nat), g ∉ fns →
      (fns.foldl analyzeFunctionCallsites M).funcAt g = M.funcAt g := by
  induction fns with
  | nil => intro M g _; rfl
  | cons f rest ih =>
      intro M g hg
      simp only [List.foldl_cons]
      rw [ih _ g fun hmem => hg (by simp [hmem])]
      exact funcAt_analyzeFunctionCallsites_ne M f g
        fun heq => hg (by simp [heq])

theorem funcs_length_foldAnalyze (fns : List Nat) :
    ∀ (M : Module),
      (fns.foldl analyzeFunctionCallsites M).funcs.length = M.funcs.length := by
  induction fns with
  | nil => intro M; rfl
  | cons f rest ih =>
      intro M
      simp only [List.foldl_cons]
      exact (ih _).trans (funcs_length_analyzeFunctionCallsites M f)

theorem unreachable_of_funcsDelta {fIdx : Nat} {M M' : Module}
    (h : funcsDelta fIdx M M') :
    (M'.funcAt fIdx).unreachable = (M.funcAt fIdx).unreachable := by
  rcases h.2.2 with hf | hf <;> rw [hf]

theorem attr_of_funcsDelta_ne {fIdx g : Nat} {M M' : Module}
    (h : funcsDelta fIdx M M') (hg : g ≠ fIdx) :
    M'.funcAt g = M.funcAt g := h.2.1 g hg

/-! ### The first run stays `REL`-related to its input -/

theorem scopeOk_of_REL_load {sk : Nat → Bool} {A₀ X : Module}
    (h : REL sk A₀ X) {k x ls : Nat} (hk : X.instAt k = .loadFrame x ls) :
    sk ls = true := by
  have hi := h.insts k
  rw [hk] at hi
  cases hA : A₀.instAt k <;> rw [hA] at hi <;> try exact hi.elim
  case loadFrame => exact hi.2.2

theorem scopeOk_of_REL_create {sk : Nat → Bool} {A₀ X : Module}
    (h : REL sk A₀ X) {k fc sc : Nat}
    (hk : X.instAt k = .createCallable fc sc) : sk sc = true := by
  have hi := h.insts k
  rw [hk] at hi
  cases hA : A₀.instAt k <;> rw [hA] at hi <;> try exact hi.elim
  case createCallable => exact hi.2.2

theorem wlScopesOk_nil {sk : Nat → Bool} : wlScopesOk sk [] :=
  fun item hitem => absurd hitem (List.not_mem_nil item)

theorem wlScopesOk_append {sk : Nat → Bool} {l₁ l₂ : List WLItem}
    (h1 : wlScopesOk sk l₁) (h2 : wlScopesOk sk l₂) :
    wlScopesOk sk (l₁ ++ l₂) := by
  intro item hitem
  rw [List.mem_append] at hitem
  rcases hitem with hitem | hitem
  · exact h1 item hitem
  · exact h2 item hitem

theorem wlScopesOk_reverse {sk : Nat → Bool} {l : List WLItem}
    (h : wlScopesOk sk l) : wlScopesOk sk l.reverse := by
  intro item hitem
  rw [List.mem_reverse] at hitem
  exact h item hitem

theorem wlScopesOk_cons_elim {sk : Nat → Bool} {item : WLItem}
    {l : List WLItem} (h : wlScopesOk sk (item :: l)) :
    (∀ x, item.scope = some x → sk x = true) ∧ wlScopesOk sk l :=
  ⟨h item (by simp), fun it hit => h it (by simp [hit])⟩

theorem selfREL_processCallUser {sk : Nat → Bool} {A₀ X : Module}
    (h : REL sk A₀ X) (fIdx createIdx c : Nat) (s : Option Nat) (j : Nat)
    (callee : IRValue) (args : List IRValue) (nt : IRValue)
    (hs : ∀ x, s = some x → sk x = true) :
    REL sk A₀ (processCallUser X fIdx createIdx c s j callee args nt) := by
  simp only [processCallUser]
  have h1 : REL sk A₀
      (if canEscapeThroughCall c (X.funcAt fIdx) callee args nt
        then X.setAllCallsitesKnown fIdx false else X) := by
    split
    · exact REL_setAllCallsitesKnown_right h fIdx false
    · exact h
  split
  · split
    · exact REL_registerCallsite_right h1 j _ s hs
    · exact h1
  · exact h1

theorem selfREL_processClosureUser {sk : Nat → Bool} {A₀ X : Module}
    (h : REL sk A₀ X) (fIdx createIdx c : Nat) (s : Option Nat) (j : Nat)
    (hs : ∀ x, s = some x → sk x = true) :
    REL sk A₀ (processClosureUser X fIdx createIdx c s j).1 ∧
    wlScopesOk sk (processClosureUser X fIdx createIdx c s j).2 := by
  simp only [processClosureUser]
  split
  · next callee _t _e args nt heq =>
      exact ⟨selfREL_processCallUser h fIdx createIdx c s j callee args nt hs,
        wlScopesOk_nil⟩
  · exact ⟨h, wlScopesOk_nil⟩
  · next v heq =>
      constructor
      · have hskj : sk j = true := by
          rw [h.compat₂ j, heq]
          rfl
        cases hss : s with
        | some σ =>
            exact REL_rauw_right h j σ hskj (hs σ hss)
        | none => exact h
      · exact wlScopesOk_nil
  · refine ⟨h, ?_⟩
    intro item hitem
    rw [List.mem_singleton] at hitem
    subst hitem
    exact hs
  · next v canBeObject heq =>
      split
      · refine ⟨h, ?_⟩
        intro item hitem
        rw [List.mem_singleton] at hitem
        subst hitem
        exact hs
      · exact ⟨REL_setAllCallsitesKnown_right h fIdx false, wlScopesOk_nil⟩
  · next v varId storeScope heq =>
      split
      · exact ⟨REL_setAllCallsitesKnown_right h fIdx false, wlScopesOk_nil⟩
      · refine ⟨h, ?_⟩
        intro item hitem x hx
        rw [List.mem_filterMap] at hitem
        obtain ⟨k, _, hk⟩ := hitem
        cases hinst : X.instAt k <;> rw [hinst] at hk <;>
          try exact Option.noConfusion hk
        case loadFrame x' ls =>
            have hitem' := Option.some.inj hk
            rw [← hitem'] at hx
            dsimp only at hx
            split at hx
            · rw [← Option.some.inj hx]
              exact scopeOk_of_REL_load h hinst
            · exact Option.noConfusion hx
  · exact ⟨REL_setAllCallsitesKnown_right h fIdx false, wlScopesOk_nil⟩

theorem selfREL_processClosureUsersAux {sk : Nat → Bool} {A₀ : Module}
    (fIdx createIdx c : Nat) (s : Option Nat)
    (hs : ∀ x, s = some x → sk x = true) (users : List Nat) :
    ∀ (acc : Module × List WLItem), REL sk A₀ acc.1 → wlScopesOk sk acc.2 →
      REL sk A₀ (processClosureUsersAux fIdx createIdx c s users acc).1 ∧
      wlScopesOk sk (processClosureUsersAux fIdx createIdx c s users acc).2
    := by
  induction users with
  | nil => intro acc h1 h2; exact ⟨h1, h2⟩
  | cons j rest ih =>
      intro acc h1 h2
      simp only [processClosureUsersAux]
      have hstep := selfREL_processClosureUser h1 fIdx createIdx c s j hs
      exact ih _ hstep.1 (wlScopesOk_append (wlScopesOk_reverse hstep.2) h2)

theorem selfREL_closureWorklistLoop {sk : Nat → Bool} {A₀ : Module}
    (fIdx createIdx : Nat) (fuel : Nat) :
    ∀ (X : Module) (wl : List WLItem) (vis : List Nat), REL sk A₀ X →
      wlScopesOk sk wl →
      REL sk A₀ (closureWorklistLoop fIdx createIdx fuel X wl vis) := by
  induction fuel with
  | zero => intro X wl vis h _; exact h
  | succ fuel ih =>
      intro X wl vis h hwl
      cases wl with
      | nil => exact h
      | cons item rest =>
          obtain ⟨hitem, hrest⟩ := wlScopesOk_cons_elim hwl
          simp only [closureWorklistLoop]
          split
          · exact ih X rest vis h hrest
          · have hstep := selfREL_processClosureUsersAux fIdx createIdx
              item.closure item.scope hitem
              (X.usersOf (.inst item.closure)) (X, []) h wlScopesOk_nil
            exact ih _ _ _ hstep.1 (wlScopesOk_append hstep.2 hrest)

theorem selfREL_analyzeCreateCallable {sk : Nat → Bool} {A₀ X : Module}
    (h : REL sk A₀ X) (createIdx : Nat) :
    REL sk A₀ (analyzeCreateCallable X createIdx) := by
  simp only [analyzeCreateCallable]
  split
  · next fc sc heq =>
      refine selfREL_closureWorklistLoop fc createIdx _ X _ [] h ?_
      intro item hitem x hx
      rw [List.mem_singleton] at hitem
      subst hitem
      rw [← Option.some.inj hx]
      exact scopeOk_of_REL_create h heq
  · exact h

theorem selfREL_processFunctionUser {sk : Nat → Bool} {A₀ X : Module}
    (h : REL sk A₀ X) (fIdx j : Nat) :
    REL sk A₀ (processFunctionUser X fIdx j) := by
  simp only [processFunctionUser]
  split
  · exact selfREL_analyzeCreateCallable h j
  · exact h
  · exact REL_setAllCallsitesKnown_right h fIdx false

theorem selfREL_foldFunctionUsers {sk : Nat → Bool} {A₀ : Module}
    (fIdx : Nat) (users : List Nat) :
    ∀ (X : Module), REL sk A₀ X →
      REL sk A₀
        (users.foldl (fun acc j => processFunctionUser acc fIdx j) X) := by
  induction users with
  | nil => intro X h; exact h
  | cons j rest ih =>
      intro X h
      simp only [List.foldl_cons]
      exact ih _ (selfREL_processFunctionUser h fIdx j)

theorem selfREL_analyzeFunctionCallsites {sk : Nat → Bool} {A₀ X : Module}
    (h : REL sk A₀ X) (f : Nat) :
    REL sk A₀ (analyzeFunctionCallsites X f) := by
  simp only [analyzeFunctionCallsites]
  set M1 := X.setAllCallsitesKnown f true with hM1
  have h1 : REL sk A₀ M1 := REL_setAllCallsitesKnown_right h f true
  set M2 := if (M1.funcAt f).isGlobalScope then
      M1.setAllCallsitesKnown f false else M1 with hM2
  have h2 : REL sk A₀ M2 := by
    rw [hM2]
    split
    · exact REL_setAllCallsitesKnown_right h1 f false
    · exact h1
  have h3 := selfREL_foldFunctionUsers f (M2.usersOf (.func f)) M2 h2
  split
  · exact REL_setUnreachable_right h3 f _
  · exact h3

theorem selfREL_foldAnalyze {sk : Nat → Bool} {A₀ : Module} (fns : List Nat) :
    ∀ (X : Module), REL sk A₀ X →
      REL sk A₀ (fns.foldl analyzeFunctionCallsites X) := by
  induction fns with
  | nil => intro X h; exact h
  | cons f rest ih =>
      intro X h
      simp only [List.foldl_cons]
      exact ih _ (selfREL_analyzeFunctionCallsites h f)

theorem scopesOkB_of_WFB {M : Module} (h : M.WFB = true) (i : Nat) :
    (M.instAt i).scopesOkB M = true := by
  by_cases hi : i < M.insts.length
  · unfold Module.WFB at h
    rw [List.all_eq_true] at h
    refine h (M.instAt i) ?_
    unfold Module.instAt
    rw [List.getD_eq_getElem _ _ hi]
    exact List.getElem_mem hi
  · rw [Module.instAt_of_ge M i (Nat.le_of_not_lt hi)]
    rfl

theorem REL_refl_of_WFB (M : Module) (h : M.WFB = true) :
    REL (fun i => isScopeKindInst (M.instAt i)) M M := by
  refine ⟨rfl, fun f => ⟨rfl, rfl, rfl⟩, rfl, ?_, fun i => rfl⟩
  intro i
  have hok := scopesOkB_of_WFB h i
  cases hI : M.instAt i <;> rw [hI] at hok
  case createCallable fc sc => exact ⟨rfl, hok, hok⟩
  case call callee target env args nt =>
      refine ⟨relVal_refl _ _, List.forall₂_same.mpr fun x _ => relVal_refl _ x,
        relVal_refl _ _, ?_, ?_⟩ <;>
        (intro x hx
         cases henv : env with
         | none => rw [henv] at hx; exact Option.noConfusion hx
         | some e =>
             rw [henv] at hx hok
             rw [← Option.some.inj hx]
             exact hok)
  case getClosureScope v => exact relVal_refl _ v
  case unionNarrowTrusted v => exact relVal_refl _ v
  case checkedTypeCast v b => exact ⟨relVal_refl _ v, rfl⟩
  case storeFrame v varId sc => exact ⟨relVal_refl _ v, rfl, hok, hok⟩
  case loadFrame varId sc => exact ⟨rfl, hok, hok⟩
  case constructionSetup v => exact relVal_refl _ v
  case scopeCreate vs => exact List.forall₂_same.mpr fun x _ => relVal_refl _ x
  case other vs => exact List.forall₂_same.mpr fun x _ => relVal_refl _ x

/-- The output of the first run is `REL`-related to its well-formed input. -/
theorem REL_run (M : Module) (h : M.WFB = true) :
    REL (fun i => isScopeKindInst (M.instAt i)) M (runFunctionAnalysis M) :=
  selfREL_foldAnalyze (List.range M.funcs.length) M (REL_refl_of_WFB M h)

/-! ### The lockstep bisimulation between the two runs -/

theorem BISIM_setAttrFalse {sk : Nat → Bool} {Mfin : Module} {f : Nat}
    {A B : Module} (hb : BISIM sk Mfin f A B) :
    BISIM sk Mfin f (A.setAllCallsitesKnown f false)
      (B.setAllCallsitesKnown f false) := by
  refine ⟨REL_setAllCallsitesKnown_right
    (REL_setAllCallsitesKnown_left hb.rel f false) f false, hb.pin, ?_⟩
  rw [Module.funcAt_setAllCallsitesKnown, Module.funcAt_setAllCallsitesKnown]
  by_cases hf : f < A.funcs.length
  · rw [if_pos ⟨rfl, hf⟩, if_pos ⟨rfl, hb.rel.funcsLen ▸ hf⟩]
  · rw [if_neg fun hand => hf hand.2,
      if_neg fun hand => hf (hb.rel.funcsLen ▸ hand.2)]
    exact hb.attr

theorem BISIM_rauw_left {sk : Nat → Bool} {Mfin : Module} {f : Nat}
    {A B : Module} (hb : BISIM sk Mfin f A B) (g σ : Nat) (hg : sk g = true)
    (hσ : sk σ = true) :
    BISIM sk Mfin f (A.replaceAllUsesWith g σ) B :=
  ⟨REL_rauw_left hb.rel g σ hg hσ, hb.pin, hb.attr⟩

theorem BISIM_rauw_right {sk : Nat → Bool} {Mfin : Module} {f : Nat}
    {A B : Module} (hb : BISIM sk Mfin f A B) (g σ : Nat) (hg : sk g = true)
    (hσ : sk σ = true) :
    BISIM sk Mfin f A (B.replaceAllUsesWith g σ) :=
  ⟨REL_rauw_right hb.rel g σ hg hσ,
    fun j => (cta_replaceAllUsesWith B g σ j).trans (hb.pin j), hb.attr⟩

theorem bisim_processCallUser {sk : Nat → Bool} {Mfin : Module} {f : Nat}
    {A B : Module} (hb : BISIM sk Mfin f A B) (createIdx c : Nat)
    (sA sB : Option Nat) (j : Nat) (hc : sk c = false)
    (hsA : ∀ x, sA = some x → sk x = true)
    (hsB : ∀ x, sB = some x → sk x = true)
    {calleeA : IRValue} {tA eA : Option Nat} {argsA : List IRValue}
    {ntA : IRValue} {calleeB : IRValue} {tB eB : Option Nat}
    {argsB : List IRValue} {ntB : IRValue}
    (hA : A.instAt j = .call calleeA tA eA argsA ntA)
    (hB : B.instAt j = .call calleeB tB eB argsB ntB)
    (hcta : ctaSome
      (processCallUser A f createIdx c sA j calleeA argsA ntA) Mfin) :
    BISIM sk Mfin f (processCallUser A f createIdx c sA j calleeA argsA ntA)
      (processCallUser B f createIdx c sB j calleeB argsB ntB) := by
  have hstable : stableVal sk (IRValue.inst c) := by
    simp only [stableVal]
    exact hc
  have hi := hb.rel.insts j
  rw [hA, hB] at hi
  obtain ⟨hcv, ha, hn, he⟩ := hi
  have hesc : canEscapeThroughCall c (A.funcAt f) calleeA argsA ntA
      = canEscapeThroughCall c (B.funcAt f) calleeB argsB ntB :=
    canEscape_eq_of_rel (hb.rel.statics f) hc hcv ha hn
  simp only [processCallUser] at hcta ⊢
  set A1 := if canEscapeThroughCall c (A.funcAt f) calleeA argsA ntA
    then A.setAllCallsitesKnown f false else A with hA1
  set B1 := if canEscapeThroughCall c (B.funcAt f) calleeB argsB ntB
    then B.setAllCallsitesKnown f false else B with hB1
  have hb1 : BISIM sk Mfin f A1 B1 := by
    rw [hA1, hB1, ← hesc]
    split
    · exact BISIM_setAttrFalse hb
    · exact hb
  have hA1insts : A1.insts = A.insts := by
    rw [hA1]
    split <;> rfl
  have hB1insts : B1.insts = B.insts := by
    rw [hB1]
    split <;> rfl
  have hA1j : A1.instAt j = .call calleeA tA eA argsA ntA := by
    unfold Module.instAt
    rw [hA1insts]
    exact hA
  have hB1j : B1.instAt j = .call calleeB tB eB argsB ntB := by
    unfold Module.instAt
    rw [hB1insts]
    exact hB
  by_cases hcc : calleeA = IRValue.inst c
  · have hccB : calleeB = IRValue.inst c :=
      (relVal_stable_iff hcv hstable).mp hcc
    rw [if_pos hcc] at hcta ⊢
    rw [if_pos hccB]
    have hrelCI := hb1.rel.insts createIdx
    cases hCI : A1.instAt createIdx <;> rw [hCI] at hrelCI hcta <;>
      cases hCIB : B1.instAt createIdx <;> rw [hCIB] at hrelCI <;>
      first
        | exact hrelCI.elim
        | exact hb1
        | skip
    next fcA scA fcB scB =>
        obtain ⟨rfl, hsc⟩ := hrelCI
        show BISIM sk Mfin f (registerCallsite A1 j fcA sA)
          (registerCallsite B1 j fcA sB)
        have hAval := cta_registerCallsite_self A1 j fcA sA hA1j
        have hMv := hcta j _ hAval
        have hbound : B1.callTargetAt j ≠ none := by
          rw [hb1.pin j, hMv]
          exact Option.noConfusion
        refine ⟨REL_registerCallsite_right
          (REL_registerCallsite_left hb1.rel j fcA sA hsA) j fcA sB hsB,
          ?_, ?_⟩
        · intro j'
          rw [cta_registerCallsite_of_bound B1 j fcA sB hbound j']
          exact hb1.pin j'
        · rw [Module.funcAt_eq_of_funcs_eq
            (Module.funcs_registerCallsite A1 j fcA sA) f,
            Module.funcAt_eq_of_funcs_eq
            (Module.funcs_registerCallsite B1 j fcA sB) f]
          exact hb1.attr
  · have hccB : ¬(calleeB = IRValue.inst c) := fun hcb =>
      hcc ((relVal_stable_iff hcv hstable).mpr hcb)
    rw [if_neg hcc]
    rw [if_neg hccB]
    exact hb1

theorem bisim_processClosureUser {sk : Nat → Bool} {Mfin : Module} {f : Nat}
    {A B : Module} (hb : BISIM sk Mfin f A B) (createIdx c : Nat)
    (sA sB : Option Nat) (j : Nat) (hc : sk c = false)
    (hsA : ∀ x, sA = some x → sk x = true)
    (hsB : ∀ x, sB = some x → sk x = true)
    (hcta : ctaSome (processClosureUser A f createIdx c sA j).1 Mfin) :
    BISIM sk Mfin f (processClosureUser A f createIdx c sA j).1
        (processClosureUser B f createIdx c sB j).1 ∧
    List.Forall₂ (relWLItem sk) (processClosureUser A f createIdx c sA j).2
        (processClosureUser B f createIdx c sB j).2 := by
  have hrel := hb.rel.insts j
  simp only [processClosureUser] at hcta ⊢
  cases hIA : A.instAt j <;> rw [hIA] at hrel hcta <;>
    cases hIB : B.instAt j <;> rw [hIB] at hrel <;>
    first
      | exact hrel.elim
      | exact ⟨BISIM_setAttrFalse hb, List.Forall₂.nil⟩
      | exact ⟨hb, List.Forall₂.nil⟩
      | skip
  next calleeA tA eA argsA ntA calleeB tB eB argsB ntB =>
      exact ⟨bisim_processCallUser hb createIdx c sA sB j hc hsA hsB hIA hIB
        hcta, List.Forall₂.nil⟩
  next vA vB =>
      have hskj : sk j = true := by
        rw [hb.rel.compat j, hIA]
        rfl
      refine ⟨?_, List.Forall₂.nil⟩
      cases hsa : sA with
      | some σA =>
          cases hsb : sB with
          | some σB =>
              exact BISIM_rauw_right
                (BISIM_rauw_left hb j σA hskj (hsA σA hsa)) j σB hskj
                (hsB σB hsb)
          | none => exact BISIM_rauw_left hb j σA hskj (hsA σA hsa)
      | none =>
          cases hsb : sB with
          | some σB => exact BISIM_rauw_right hb j σB hskj (hsB σB hsb)
          | none => exact hb
  next vA vB =>
      refine ⟨hb, List.Forall₂.cons ?_ List.Forall₂.nil⟩
      refine ⟨rfl, ?_, hsA, hsB⟩
      rw [hb.rel.compat j, hIA]
      rfl
  next vA bA vB bB =>
      obtain ⟨hv, rfl⟩ := hrel
      dsimp only
      split_ifs with hbv
      · refine ⟨hb, List.Forall₂.cons ?_ List.Forall₂.nil⟩
        refine ⟨rfl, ?_, hsA, hsB⟩
        rw [hb.rel.compat j, hIA]
        rfl
      · exact ⟨BISIM_setAttrFalse hb, List.Forall₂.nil⟩
  next vA xA ssA vB xB ssB =>
      obtain ⟨hv, rfl, hss⟩ := hrel
      dsimp only
      have hstore : isStoreOnceVariable A xA = isStoreOnceVariable B xA :=
        isStoreOnceVariable_eq_of_REL hb.rel xA
      rw [← hstore]
      by_cases hso : (!isStoreOnceVariable A xA) = true
      · rw [if_pos hso, if_pos hso]
        exact ⟨BISIM_setAttrFalse hb, List.Forall₂.nil⟩
      · rw [if_neg hso, if_neg hso]
        dsimp only
        refine ⟨hb, ?_⟩
        have husers : A.usersOf (.var xA) = B.usersOf (.var xA) :=
          usersOf_eq_of_REL hb.rel trivial
        rw [← husers]
        apply forall2_filterMap
        intro k hk
        have hrk := hb.rel.insts k
        cases hIk : A.instAt k <;> rw [hIk] at hrk <;>
          cases hIkB : B.instAt k <;> rw [hIkB] at hrk <;>
          first
            | exact hrk.elim
            | exact Or.inl ⟨rfl, rfl⟩
            | skip
        next xk lsA xkB lsB =>
            obtain ⟨rfl, hls⟩ := hrk
            refine Or.inr ⟨_, _, rfl, rfl, rfl, ?_, ?_, ?_⟩
            · rw [hb.rel.compat k, hIk]
              rfl
            · intro x hx
              split at hx
              · rw [← Option.some.inj hx]
                exact hls.1
              · exact Option.noConfusion hx
            · intro x hx
              split at hx
              · rw [← Option.some.inj hx]
                exact hls.2
              · exact Option.noConfusion hx

theorem bisim_processClosureUsersAux {sk : Nat → Bool} {Mfin : Module}
    {f : Nat} (createIdx c : Nat) (sA sB : Option Nat) (hc : sk c = false)
    (hsA : ∀ x, sA = some x → sk x = true)
    (hsB : ∀ x, sB = some x → sk x = true) (users : List Nat) :
    ∀ (A B : Module) (pA pB : List WLItem),
      BISIM sk Mfin f A B →
      List.Forall₂ (relWLItem sk) pA pB →
      A.createCodeAt createIdx = some f →
      ctaSome (processClosureUsersAux f createIdx c sA users (A, pA)).1
        Mfin →
      BISIM sk Mfin f
        (processClosureUsersAux f createIdx c sA users (A, pA)).1
        (processClosureUsersAux f createIdx c sB users (B, pB)).1 ∧
      List.Forall₂ (relWLItem sk)
        (processClosureUsersAux f createIdx c sA users (A, pA)).2
        (processClosureUsersAux f createIdx c sB users (B, pB)).2 := by
  induction users with
  | nil =>
      intro A B pA pB hb hp _ _
      exact ⟨hb, hp⟩
  | cons j rest ih =>
      intro A B pA pB hb hp hCC hcta
      simp only [processClosureUsersAux] at hcta ⊢
      have hCCstep : (processClosureUser A f createIdx c sA j).1.createCodeAt
          createIdx = some f := by
        rw [createCodeAt_congr
          (skelEq_processClosureUser A f createIdx c sA j) createIdx]
        exact hCC
      have hctaStep : ctaSome (processClosureUser A f createIdx c sA j).1
          Mfin :=
        ctaSome_trans
          (ctaSome_of_targetsBoundBy
            (tbb_processClosureUsersAux f createIdx c sA rest
              ((processClosureUser A f createIdx c sA j).1,
                (processClosureUser A f createIdx c sA j).2.reverse ++ pA)
              hCCstep))
          hcta
      have hstep := bisim_processClosureUser hb createIdx c sA sB j hc hsA
        hsB hctaStep
      exact ih _ _ _ _ hstep.1
        (forall2_append (List.forall₂_reverse_iff.mpr hstep.2) hp) hCCstep
        hcta

theorem bisim_closureWorklistLoop {sk : Nat → Bool} {Mfin : Module}
    {f : Nat} (createIdx : Nat) (fuel : Nat) :
    ∀ (A B : Module) (wlA wlB : List WLItem) (vis : List Nat),
      BISIM sk Mfin f A B →
      List.Forall₂ (relWLItem sk) wlA wlB →
      A.createCodeAt createIdx = some f →
      ctaSome (closureWorklistLoop f createIdx fuel A wlA vis) Mfin →
      BISIM sk Mfin f (closureWorklistLoop f createIdx fuel A wlA vis)
        (closureWorklistLoop f createIdx fuel B wlB vis) := by
  induction fuel with
  | zero => intro A B wlA wlB vis hb _ _ _; exact hb
  | succ fuel ih =>
      intro A B wlA wlB vis hb hwl hCC hcta
      cases wlA with
      | nil =>
          cases wlB with
          | nil => exact hb
          | cons itemB restB => cases hwl
      | cons itemA restA =>
          cases wlB with
          | nil => cases hwl
          | cons itemB restB =>
              cases hwl with
              | cons hitem hrest =>
                  obtain ⟨hcl, hskc, hscA, hscB⟩ := hitem
                  simp only [closureWorklistLoop] at hcta ⊢
                  rw [← hcl]
                  by_cases hmem : itemA.closure ∈ vis
                  · rw [if_pos hmem] at hcta
                    rw [if_pos hmem, if_pos hmem]
                    exact ih A B restA restB vis hb hrest hCC hcta
                  · rw [if_neg hmem] at hcta
                    rw [if_neg hmem, if_neg hmem]
                    have husers : A.usersOf (.inst itemA.closure)
                        = B.usersOf (.inst itemA.closure) :=
                      usersOf_eq_of_REL hb.rel
                        (by simp only [stableVal]; exact hskc)
                    rw [← husers]
                    have hCCaux : (processClosureUsers A f createIdx
                        itemA.closure itemA.scope
                        (A.usersOf (.inst itemA.closure))).1.createCodeAt
                        createIdx = some f := by
                      show (processClosureUsersAux f createIdx itemA.closure
                        itemA.scope (A.usersOf (.inst itemA.closure))
                        (A, [])).1.createCodeAt createIdx = some f
                      rw [createCodeAt_congr
                        (skelEq_processClosureUsersAux f createIdx
                          itemA.closure itemA.scope _ (A, [])) createIdx]
                      exact hCC
                    have hctaAux : ctaSome (processClosureUsers A f createIdx
                        itemA.closure itemA.scope
                        (A.usersOf (.inst itemA.closure))).1 Mfin :=
                      ctaSome_trans
                        (ctaSome_of_targetsBoundBy
                          (tbb_closureWorklistLoop f createIdx fuel _ _ _
                            hCCaux))
                        hcta
                    have haux := bisim_processClosureUsersAux createIdx
                      itemA.closure itemA.scope itemB.scope hskc hscA hscB
                      (A.usersOf (.inst itemA.closure)) A B [] []
                      hb List.Forall₂.nil hCC hctaAux
                    exact ih _ _ _ _ _ haux.1
                      (forall2_append haux.2 hrest) hCCaux hcta

theorem bisim_analyzeCreateCallable {sk : Nat → Bool} {Mfin : Module}
    {f : Nat} {A B : Module} (hb : BISIM sk Mfin f A B) (j : Nat)
    (hCC : A.createCodeAt j = none ∨ A.createCodeAt j = some f)
    (hcta : ctaSome (analyzeCreateCallable A j) Mfin) :
    BISIM sk Mfin f (analyzeCreateCallable A j)
      (analyzeCreateCallable B j) := by
  have hrel := hb.rel.insts j
  simp only [analyzeCreateCallable] at hcta ⊢
  cases hIA : A.instAt j <;> rw [hIA] at hrel hcta <;>
    cases hIB : B.instAt j <;> rw [hIB] at hrel <;>
    first
      | exact hrel.elim
      | exact hb
      | skip
  next fcA scA fcB scB =>
      obtain ⟨rfl, hsc⟩ := hrel
      have hfc : fcA = f := by
        have hcc : A.createCodeAt j = some fcA := by
          unfold Module.createCodeAt
          rw [hIA]
        rcases hCC with hCC | hCC
        · rw [hcc] at hCC
          exact Option.noConfusion hCC
        · rw [hcc] at hCC
          exact Option.some.inj hCC
      subst hfc
      have hCCA : A.createCodeAt j = some fcA := by
        unfold Module.createCodeAt
        rw [hIA]
      have hfuel : closureFuel B = closureFuel A := by
        unfold closureFuel
        rw [hb.rel.instsLen]
      rw [hfuel]
      refine bisim_closureWorklistLoop j (closureFuel A) A B _ _ [] hb ?_
        hCCA hcta
      refine List.Forall₂.cons ?_ List.Forall₂.nil
      refine ⟨rfl, ?_, ?_, ?_⟩
      · rw [hb.rel.compat j, hIA]
        rfl
      · intro x hx
        rw [← Option.some.inj hx]
        exact hsc.1
      · intro x hx
        rw [← Option.some.inj hx]
        exact hsc.2

theorem processFunctionUser_of_isBaseCall (M : Module) (f j : Nat)
    (h : M.isBaseCallInst j = true) : processFunctionUser M f j = M := by
  simp only [processFunctionUser]
  unfold Module.isBaseCallInst at h
  cases hI : M.instAt j <;> rw [hI] at h <;>
    first
    | exact Bool.noConfusion h
    | rfl

theorem bisim_processFunctionUser {sk : Nat → Bool} {Mfin : Module}
    {f : Nat} {A B : Module} (hb : BISIM sk Mfin f A B) (j : Nat)
    (hCC : A.createCodeAt j = none ∨ A.createCodeAt j = some f)
    (hcta : ctaSome (processFunctionUser A f j) Mfin) :
    BISIM sk Mfin f (processFunctionUser A f j)
      (processFunctionUser B f j) := by
  have hrel := hb.rel.insts j
  simp only [processFunctionUser] at hcta ⊢
  cases hIA : A.instAt j <;> rw [hIA] at hrel hcta <;>
    cases hIB : B.instAt j <;> rw [hIB] at hrel <;>
    first
      | exact hrel.elim
      | exact hb
      | exact BISIM_setAttrFalse hb
      | skip
  next fcA scA fcB scB =>
      exact bisim_analyzeCreateCallable hb j hCC hcta

/-- Lockstep over the two runs' snapshots of `F`'s users.  The second run's
snapshot may contain extra users — calls whose `target` the first run bound —
and each of those is skipped by the loop. -/
theorem bisim_foldUsers {sk : Nat → Bool} {Mfin : Module} {f : Nat}
    (p q : Nat → Bool) (l : List Nat) :
    ∀ (A B : Module),
      BISIM sk Mfin f A B →
      (∀ j, p j = true → q j = true) →
      (∀ j, q j = true → p j = false → B.isBaseCallInst j = true) →
      (∀ j ∈ l, p j = true →
        (A.createCodeAt j = none ∨ A.createCodeAt j = some f)) →
      ctaSome
        ((l.filter p).foldl (fun acc j => processFunctionUser acc f j) A)
        Mfin →
      BISIM sk Mfin f
        ((l.filter p).foldl (fun acc j => processFunctionUser acc f j) A)
        ((l.filter q).foldl (fun acc j => processFunctionUser acc f j) B) := by
  induction l with
  | nil => intro A B hb _ _ _ _; exact hb
  | cons j rest ih =>
      intro A B hb hpq hq hcc hcta
      rw [List.filter_cons] at hcta
      rw [List.filter_cons, List.filter_cons]
      by_cases hpj : p j = true
      · have hqj : q j = true := hpq j hpj
        rw [if_pos hpj] at hcta ⊢
        rw [if_pos hqj]
        simp only [List.foldl_cons] at hcta ⊢
        have hccstep : ∀ j' ∈ rest.filter p,
            (processFunctionUser A f j).createCodeAt j' = none ∨
            (processFunctionUser A f j).createCodeAt j' = some f := by
          intro j' hj'
          rw [List.mem_filter] at hj'
          rw [createCodeAt_congr (skelEq_processFunctionUser A f j) j']
          exact hcc j' (by simp [hj'.1]) hj'.2
        have hctaStep : ctaSome (processFunctionUser A f j) Mfin :=
          ctaSome_trans
            (ctaSome_of_targetsBoundBy
              (tbb_foldFunctionUsers f (rest.filter p)
                (processFunctionUser A f j) hccstep))
            hcta
        have hstep := bisim_processFunctionUser hb j
          (hcc j (by simp) hpj) hctaStep
        refine ih _ _ hstep ?_ ?_ ?_ hcta
        · exact hpq
        · intro j' hqj' hpj'
          rw [isBaseCallInst_congr (skelEq_processFunctionUser B f j) j']
          exact hq j' hqj' hpj'
        · intro j' hj' hpj'
          rw [createCodeAt_congr (skelEq_processFunctionUser A f j) j']
          exact hcc j' (by simp [hj']) hpj'
      · have hpj' : p j = false := by
          cases hp2 : p j with
          | true => exact absurd hp2 hpj
          | false => rfl
        rw [if_neg hpj] at hcta ⊢
        by_cases hqj : q j = true
        · rw [if_pos hqj]
          simp only [List.foldl_cons]
          rw [processFunctionUser_of_isBaseCall B f j (hq j hqj hpj')]
          refine ih _ _ hb hpq hq ?_ hcta
          intro j' hj' hpjj
          exact hcc j' (by simp [hj']) hpjj
        · rw [if_neg hqj]
          refine ih _ _ hb hpq hq ?_ hcta
          intro j' hj' hpjj
          exact hcc j' (by simp [hj']) hpjj

theorem mem_usersOf_iff (M : Module) (v : IRValue) (j : Nat) :
    j ∈ M.usersOf v ↔ j < M.insts.length ∧ v ∈ (M.instAt j).operands := by
  unfold Module.usersOf
  rw [List.mem_filter, List.mem_range, decide_eq_true_eq]

theorem unreachable_setAllCallsitesKnown (M : Module) (f : Nat) (b : Bool)
    (g : Nat) :
    ((M.setAllCallsitesKnown f b).funcAt g).unreachable
      = (M.funcAt g).unreachable := by
  rw [Module.funcAt_setAllCallsitesKnown]
  split
  · next h => rw [h.1]
  · rfl

/-- Lockstep through one whole `analyzeFunctionCallsites(F)`: starting from
`REL`-related states with the second run's targets pinned at `Mfin` and `F`'s
record still at its `Mfin` value, the second run's analysis leaves its state
`REL`-related, its targets pinned, and `F`'s record at the `Mfin` value. -/
theorem bisim_analyzeFunctionCallsites {sk : Nat → Bool} {Mfin : Module}
    {A B : Module} (f : Nat) (rest : List Nat)
    (hrel : REL sk A B)
    (hpin : ∀ j, B.callTargetAt j = Mfin.callTargetAt j)
    (hflen : f < A.funcs.length)
    (hcta : ctaSome (analyzeFunctionCallsites A f) Mfin)
    (htbw : targetsBoundWithin (analyzeFunctionCallsites A f) Mfin rest)
    (hfrest : f ∉ rest)
    (hMf : Mfin.funcAt f = (analyzeFunctionCallsites A f).funcAt f)
    (hBf : B.funcAt f = Mfin.funcAt f) :
    REL sk (analyzeFunctionCallsites A f) (analyzeFunctionCallsites B f) ∧
    (∀ j, (analyzeFunctionCallsites B f).callTargetAt j
        = Mfin.callTargetAt j) ∧
    (analyzeFunctionCallsites B f).funcAt f = Mfin.funcAt f := by
  have hctaA : ctaSome A Mfin :=
    ctaSome_trans
      (ctaSome_of_targetsBoundBy (tbb_analyzeFunctionCallsites A f)) hcta
  have hBlen : f < B.funcs.length := hrel.funcsLen ▸ hflen
  simp only [analyzeFunctionCallsites] at hcta htbw hMf ⊢
  set A1 := A.setAllCallsitesKnown f true with hA1
  set B1 := B.setAllCallsitesKnown f true with hB1
  set A2 := if (A1.funcAt f).isGlobalScope then
      A1.setAllCallsitesKnown f false else A1 with hA2
  set B2 := if (B1.funcAt f).isGlobalScope then
      B1.setAllCallsitesKnown f false else B1 with hB2
  set A3 := (A2.usersOf (.func f)).foldl
    (fun acc j => processFunctionUser acc f j) A2 with hA3
  set B3 := (B2.usersOf (.func f)).foldl
    (fun acc j => processFunctionUser acc f j) B2 with hB3
  have hb1 : BISIM sk Mfin f A1 B1 := by
    refine ⟨REL_setAllCallsitesKnown_right
      (REL_setAllCallsitesKnown_left hrel f true) f true, hpin, ?_⟩
    rw [hA1, hB1, attr_setAllCallsitesKnown_self A f true hflen,
      attr_setAllCallsitesKnown_self B f true hBlen]
  have hglob : (A1.funcAt f).isGlobalScope = (B1.funcAt f).isGlobalScope :=
    (hb1.rel.statics f).1
  have hb2 : BISIM sk Mfin f A2 B2 := by
    rw [hA2, hB2, ← hglob]
    by_cases hg : (A1.funcAt f).isGlobalScope = true
    · rw [if_pos hg, if_pos hg]
      exact BISIM_setAttrFalse hb1
    · rw [if_neg hg, if_neg hg]
      exact hb1
  have husersA2 : ∀ v, A2.usersOf v = A.usersOf v := by
    intro v
    rw [hA2, hA1]
    split <;> rfl
  have husersB2 : ∀ v, B2.usersOf v = B.usersOf v := by
    intro v
    rw [hB2, hB1]
    split <;> rfl
  set pA := fun j => decide (IRValue.func f ∈ (A.instAt j).operands)
    with hpAdef
  set qB := fun j => decide (IRValue.func f ∈ (B.instAt j).operands)
    with hqBdef
  have husersA : A2.usersOf (.func f)
      = (List.range A.insts.length).filter pA := by
    rw [husersA2]
    rfl
  have husersB : B2.usersOf (.func f)
      = (List.range A.insts.length).filter qB := by
    rw [husersB2]
    show (List.range B.insts.length).filter _ = _
    rw [← hrel.instsLen]
  have hpq : ∀ j, pA j = true → qB j = true := by
    intro j hpj
    have hpj' : IRValue.func f ∈ (A.instAt j).operands :=
      of_decide_eq_true hpj
    obtain ⟨C, hC1, hC2⟩ := relInst_func_mem_decomp (hrel.insts j) f
    have hmemB : IRValue.func f ∈ (B.instAt j).operands := by
      rcases hC1.mp hpj' with htgt | hC
      · refine hC2.mpr (Or.inl ?_)
        have hAt : A.callTargetAt j = some f := by
          rw [Module.callTargetAt_eq_targetOf]
          exact htgt
        have hBt : B.callTargetAt j = some f := by
          rw [hpin j]
          exact hctaA j f hAt
        rw [← Module.callTargetAt_eq_targetOf]
        exact hBt
      · exact hC2.mpr (Or.inr hC)
    exact decide_eq_true hmemB
  have hqcall : ∀ j, qB j = true → pA j = false →
      B2.isBaseCallInst j = true := by
    intro j hqj hpj
    have hqj' : IRValue.func f ∈ (B.instAt j).operands :=
      of_decide_eq_true hqj
    obtain ⟨C, hC1, hC2⟩ := relInst_func_mem_decomp (hrel.insts j) f
    have hB2call : B2.isBaseCallInst j = B.isBaseCallInst j := by
      rw [hB2, hB1]
      split <;> rfl
    rw [hB2call]
    rcases hC2.mp hqj' with htgt | hC
    · rw [Module.isBaseCallInst_eq_instAt]
      exact Inst.isCall_of_targetOf htgt
    · exfalso
      have hpj2 : pA j = true := decide_eq_true (hC1.mpr (Or.inr hC))
      rw [hpj2] at hpj
      exact Bool.noConfusion hpj
  have hcc : ∀ j ∈ List.range A.insts.length, pA j = true →
      (A2.createCodeAt j = none ∨ A2.createCodeAt j = some f) := by
    intro j hj hpj
    refine createCode_of_funcUser A2 f j ?_
    rw [husersA, List.mem_filter]
    exact ⟨hj, hpj⟩
  have hcta3 : ctaSome A3 Mfin := by
    intro j v hv
    refine hcta j v ?_
    split
    · exact hv
    · exact hv
  have hcta3' : ctaSome
      (((List.range A.insts.length).filter pA).foldl
        (fun acc j => processFunctionUser acc f j) A2) Mfin := by
    rw [← husersA]
    rw [← hA3]
    exact hcta3
  have hb3 : BISIM sk Mfin f A3 B3 := by
    rw [hA3, hB3, husersA, husersB]
    exact bisim_foldUsers pA qB (List.range A.insts.length) A2 B2 hb2 hpq
      hqcall hcc hcta3'
  have hlenA2 : A2.funcs.length = A.funcs.length := by
    rw [hA2, hA1]
    split
    · exact (funcs_length_setAllCallsitesKnown _ f false).trans
        (funcs_length_setAllCallsitesKnown A f true)
    · exact funcs_length_setAllCallsitesKnown A f true
  have hlenB2 : B2.funcs.length = B.funcs.length := by
    rw [hB2, hB1]
    split
    · exact (funcs_length_setAllCallsitesKnown _ f false).trans
        (funcs_length_setAllCallsitesKnown B f true)
    · exact funcs_length_setAllCallsitesKnown B f true
  have hdeltaA : funcsDelta f A2 A3 := by
    rw [hA3]
    exact funcsDelta_foldFunctionUsers f (A2.usersOf (.func f)) A2
      fun j hj => createCode_of_funcUser A2 f j hj
  have hdeltaB : funcsDelta f B2 B3 := by
    rw [hB3]
    exact funcsDelta_foldFunctionUsers f (B2.usersOf (.func f)) B2
      fun j hj => createCode_of_funcUser B2 f j hj
  have hflenA3 : f < A3.funcs.length := by
    rw [hdeltaA.1, hlenA2]
    exact hflen
  have hflenB3 : f < B3.funcs.length := by
    rw [hdeltaB.1, hlenB2]
    exact hBlen
  have hunrB3 : (B3.funcAt f).unreachable = (B.funcAt f).unreachable := by
    rw [unreachable_of_funcsDelta hdeltaB, hB2, hB1]
    split
    · rw [unreachable_setAllCallsitesKnown,
        unreachable_setAllCallsitesKnown]
    · rw [unreachable_setAllCallsitesKnown]
  by_cases hA3attr : (A3.funcAt f).allCallsitesKnownInStrictMode = true
  · have hB3attr : (B3.funcAt f).allCallsitesKnownInStrictMode = true := by
      rw [← hb3.attr]
      exact hA3attr
    rw [if_pos hA3attr] at hcta htbw hMf
    rw [if_pos hA3attr, if_pos hB3attr]
    have hanyeq : (A3.usersOf (.func f)).any A3.isBaseCallInst
        = (B3.usersOf (.func f)).any B3.isBaseCallInst := by
      apply Bool.coe_iff_coe.mp
      rw [List.any_eq_true, List.any_eq_true]
      constructor
      · rintro ⟨j, hjmem, hjcall⟩
        rw [mem_usersOf_iff] at hjmem
        obtain ⟨hjlt, hjop⟩ := hjmem
        refine ⟨j, ?_, ?_⟩
        · rw [mem_usersOf_iff]
          refine ⟨by rw [← hb3.rel.instsLen]; exact hjlt, ?_⟩
          obtain ⟨C, hC1, hC2⟩ := relInst_func_mem_decomp (hb3.rel.insts j) f
          rcases hC1.mp hjop with htgt | hC
          · refine hC2.mpr (Or.inl ?_)
            have hA3t : A3.callTargetAt j = some f := by
              rw [Module.callTargetAt_eq_targetOf]
              exact htgt
            rw [← Module.callTargetAt_eq_targetOf, hb3.pin j]
            exact hcta3 j f hA3t
          · exact hC2.mpr (Or.inr hC)
        · rw [Module.isBaseCallInst_eq_instAt] at hjcall ⊢
          rw [← Inst.isCall_eq_of_relInst (hb3.rel.insts j)]
          exact hjcall
      · rintro ⟨j, hjmem, hjcall⟩
        rw [mem_usersOf_iff] at hjmem
        obtain ⟨hjlt, hjop⟩ := hjmem
        refine ⟨j, ?_, ?_⟩
        · rw [mem_usersOf_iff]
          refine ⟨by rw [hb3.rel.instsLen]; exact hjlt, ?_⟩
          obtain ⟨C, hC1, hC2⟩ := relInst_func_mem_decomp (hb3.rel.insts j) f
          rcases hC2.mp hjop with htgt | hC
          · refine hC1.mpr (Or.inl ?_)
            have hMt : Mfin.callTargetAt j = some f := by
              rw [← hb3.pin j, Module.callTargetAt_eq_targetOf]
              exact htgt
            rcases htbw j with heq | ⟨hnone, g, hg, hsome⟩
            · rw [← Module.callTargetAt_eq_targetOf]
              exact heq.symm.trans hMt
            · rw [hMt] at hsome
              have : g = f := (Option.some.inj hsome).symm
              subst this
              exact absurd hg hfrest
          · exact hC1.mpr (Or.inr hC)
        · rw [Module.isBaseCallInst_eq_instAt] at hjcall ⊢
          rw [Inst.isCall_eq_of_relInst (hb3.rel.insts j)]
          exact hjcall
    rw [← hanyeq]
    refine ⟨REL_setUnreachable_right (REL_setUnreachable_left hb3.rel f _)
      f _, fun j => hb3.pin j, ?_⟩
    rw [hMf, Module.funcAt_setUnreachable, Module.funcAt_setUnreachable,
      if_pos ⟨rfl, hflenB3⟩, if_pos ⟨rfl, hflenA3⟩]
    exact IRFunction.fields_ext (hb3.rel.statics f).1.symm
      (hb3.rel.statics f).2.1.symm (hb3.rel.statics f).2.2.symm
      hb3.attr.symm rfl
  · have hB3attr : ¬((B3.funcAt f).allCallsitesKnownInStrictMode = true) :=
      fun hcontra => hA3attr (hb3.attr.trans hcontra)
    rw [if_neg hA3attr] at hcta htbw hMf
    rw [if_neg hA3attr, if_neg hB3attr]
    refine ⟨hb3.rel, fun j => hb3.pin j, ?_⟩
    rw [hMf]
    refine IRFunction.fields_ext (hb3.rel.statics f).1.symm
      (hb3.rel.statics f).2.1.symm (hb3.rel.statics f).2.2.symm
      hb3.attr.symm ?_
    rw [hunrB3, hBf, hMf]

theorem ctaSome_of_tbw {a b : Module} {fns : List Nat}
    (h : targetsBoundWithin a b fns) : ctaSome a b := by
  intro j v hv
  rcases h j with hj | ⟨ha, _⟩
  · rw [hj]
    exact hv
  · rw [ha] at hv
    exact Option.noConfusion hv

theorem Module.funcAt_eq_getElem (M : Module) (i : Nat)
    (h : i < M.funcs.length) : M.funcAt i = M.funcs[i] := by
  unfold Module.funcAt
  exact List.getD_eq_getElem _ _ h

/-- Lockstep through the module fold: if the second run starts from the first
run's final state, every analysis leaves its functions at their final values
and its targets pinned. -/
theorem bisim_foldAnalyze {sk : Nat → Bool} (fns : List Nat) :
    ∀ (A B : Module),
      REL sk A B →
      fns.Nodup →
      (∀ g ∈ fns, g < A.funcs.length) →
      (∀ j, B.callTargetAt j
        = (fns.foldl analyzeFunctionCallsites A).callTargetAt j) →
      (∀ g ∈ fns, B.funcAt g
        = (fns.foldl analyzeFunctionCallsites A).funcAt g) →
      REL sk (fns.foldl analyzeFunctionCallsites A)
        (fns.foldl analyzeFunctionCallsites B) ∧
      (∀ j, (fns.foldl analyzeFunctionCallsites B).callTargetAt j
        = (fns.foldl analyzeFunctionCallsites A).callTargetAt j) ∧
      (∀ g, (fns.foldl analyzeFunctionCallsites B).funcAt g
        = if g ∈ fns then (fns.foldl analyzeFunctionCallsites A).funcAt g
          else B.funcAt g) := by
  induction fns with
  | nil =>
      intro A B hrel _ _ hpin _
      refine ⟨hrel, hpin, ?_⟩
      intro g
      rw [if_neg (List.not_mem_nil g)]
      rfl
  | cons f rest ih =>
      intro A B hrel hnd hlen hpin hfns
      simp only [List.foldl_cons] at hpin hfns ⊢
      have hfrest : f ∉ rest := (List.nodup_cons.mp hnd).1
      have hndrest : rest.Nodup := (List.nodup_cons.mp hnd).2
      have hstep := bisim_analyzeFunctionCallsites f rest hrel hpin
        (hlen f (by simp))
        (ctaSome_of_tbw (tbw_foldAnalyze rest (analyzeFunctionCallsites A f)))
        (tbw_foldAnalyze rest (analyzeFunctionCallsites A f))
        hfrest
        (funcAt_foldAnalyze_ne rest (analyzeFunctionCallsites A f) f hfrest)
        (hfns f (by simp))
      obtain ⟨hrel', hpin', hBf'⟩ := hstep
      have hrec := ih (analyzeFunctionCallsites A f)
        (analyzeFunctionCallsites B f) hrel' hndrest
        (fun g hg => by
          rw [funcs_length_analyzeFunctionCallsites]
          exact hlen g (by simp [hg]))
        hpin'
        (fun g hg => by
          have hgf : g ≠ f := fun heq => hfrest (heq ▸ hg)
          rw [funcAt_analyzeFunctionCallsites_ne B f g hgf]
          exact hfns g (by simp [hg]))
      obtain ⟨hrelF, hpinF, hfunF⟩ := hrec
      refine ⟨hrelF, hpinF, ?_⟩
      intro g
      by_cases hgr : g ∈ rest
      · rw [if_pos (by simp [hgr])]
        have := hfunF g
        rw [if_pos hgr] at this
        exact this
      · have h2 := hfunF g
        rw [if_neg hgr] at h2
        by_cases hgf : g = f
        · subst hgf
          rw [if_pos (by simp)]
          rw [h2, hBf']
        · rw [if_neg (by simp [hgf, hgr])]
          rw [h2, funcAt_analyzeFunctionCallsites_ne B f g hgf]

/-- C4, amended: on a well-formed module, a second run of FunctionAnalysis
immediately after the first leaves every function record — in particular the
`allCallsitesKnownInStrictMode` and `unreachable` attributes — and every
call's `target` operand unchanged (environments may change, see the
counterexample). -/
theorem c4_amended (M : Module) (hWF : M.WFB = true) :
    (runFunctionAnalysis (runFunctionAnalysis M)).funcs
        = (runFunctionAnalysis M).funcs ∧
    ∀ j, (runFunctionAnalysis (runFunctionAnalysis M)).callTargetAt j
        = (runFunctionAnalysis M).callTargetAt j := by
  have hrel := REL_run M hWF
  have hlenfin : (runFunctionAnalysis M).funcs.length = M.funcs.length :=
    funcs_length_foldAnalyze _ M
  have hbig := bisim_foldAnalyze (List.range M.funcs.length) M
    (runFunctionAnalysis M) hrel (List.nodup_range M.funcs.length)
    (fun g hg => List.mem_range.mp hg)
    (fun j => rfl) (fun g _ => rfl)
  have hrun2 : runFunctionAnalysis (runFunctionAnalysis M)
      = (List.range M.funcs.length).foldl analyzeFunctionCallsites
        (runFunctionAnalysis M) := by
    show (List.range (runFunctionAnalysis M).funcs.length).foldl
      analyzeFunctionCallsites (runFunctionAnalysis M) = _
    rw [hlenfin]
  constructor
  · have hlen2 : (runFunctionAnalysis (runFunctionAnalysis M)).funcs.length
        = (runFunctionAnalysis M).funcs.length :=
      funcs_length_foldAnalyze _ (runFunctionAnalysis M)
    refine List.ext_getElem hlen2 ?_
    intro i h1 h2
    rw [← Module.funcAt_eq_getElem _ _ h1, ← Module.funcAt_eq_getElem _ _ h2,
      hrun2]
    have hi := hbig.2.2 i
    rw [if_pos (List.mem_range.mpr (by rw [← hlenfin]; exact h2))] at hi
    exact hi
  · intro j
    rw [hrun2]
    exact hbig.2.1 j

/-- C4 amended, witness: on the counterexample module `C4M` (well-formed),
the second run changes no function attributes and leaves the call's bound
target unchanged, even though its environment operand differs. -/
theorem c4_amended_witness :
    C4M.WFB = true ∧
    ((runFunctionAnalysis (runFunctionAnalysis C4M)).funcs
        = (runFunctionAnalysis C4M).funcs ∧
      (runFunctionAnalysis (runFunctionAnalysis C4M)).callTargetAt 5
        = (runFunctionAnalysis C4M).callTargetAt 5) :=
  ⟨by decide, (c4_amended C4M (by decide)).1,
    (c4_amended C4M (by decide)).2 5⟩

end Hermes
